import Mathlib

/-!
Verification of the Robin Hood hash map engine in `src/libstd/src/hashmap.rs`.

The table is modelled shallowly: the three parallel raw arrays (hash tags,
keys, values) become a single list of optional slots, where `none` stands for
an empty bucket (hash tag 0) and `some s` for a full bucket whose tag is the
non-zero `s.hash`.  Cursor indices are kept unwrapped, exactly as the code
keeps `idx` unwrapped while the raw pointer wraps: a physical access at an
unwrapped index `i` reads position `i % capacity`, which coincides with the
code's masking because every capacity is a power of two.  Machine integers are
modelled as `Nat`; the `u64` hash domain is explicit (`% 2^64`, `|||`, `&&&`
appear where the code has them), while `usize` index/size arithmetic is kept
unbounded (in every reachable state those quantities are far below `2^64`).
Each loop of the source becomes a fueled recursion whose fuel mirrors the
loop's own bound; panics and assertion failures are the `none` results.
-/

set_option maxHeartbeats 1000000

namespace RobinHoodMap

/-- The u64 modulus. -/
def U64 : Nat := 2 ^ 64

/-- INITIAL_CAPACITY = 1 << 5 from the source. -/
def INITIAL_CAPACITY : Nat := 32

/-- DefaultResizePolicy::min_capacity: `usable_size * 11 / 10`. -/
def min_capacity (usable_size : Nat) : Nat := usable_size * 11 / 10

/-- DefaultResizePolicy::usable_capacity: `cap * 10 / 11`. -/
def usable_capacity (cap : Nat) : Nat := cap * 10 / 11

/-- Rust's `usize::next_power_of_two` (on values below overflow): the least
power of two that is `≥ n`, with `n = 0` mapped to 1. -/
def nextPow2 (n : Nat) : Nat := 2 ^ Nat.clog 2 n

/-- Rust's `usize::is_power_of_two`. -/
def IsPow2 (n : Nat) : Prop := n = 2 ^ Nat.clog 2 n

instance (n : Nat) : Decidable (IsPow2 n) := by unfold IsPow2; infer_instance

/-- make_hash: run the hasher (modelled as an abstract digest function `hf`
truncated to u64) and force the most significant bit:
`SafeHash { hash: 0x8000_0000_0000_0000 | state.finish() }`. -/
def make_hash {K : Type} (hf : K → Nat) (k : K) : Nat :=
  0x8000000000000000 ||| (hf k % U64)

/-- A full bucket: hash tag, key and value. -/
structure Slot (K V : Type) where
  hash : Nat
  key : K
  val : V
deriving DecidableEq

/-- The bucket array: `none` is an empty bucket (tag 0). -/
abbrev Buckets (K V : Type) := List (Option (Slot K V))

/-- RawTable: bucket array plus the tracked `size` field. -/
structure Table (K V : Type) where
  buckets : Buckets K V
  size : Nat
deriving DecidableEq

variable {K V : Type}

/-- RawTable::capacity. -/
def Table.capacity (t : Table K V) : Nat := t.buckets.length

/-- Read the bucket under an unwrapped cursor index: the raw pointer wraps at
the end of the table, so the physical position is the index mod capacity. -/
def slotAt (bs : Buckets K V) (idx : Nat) : Option (Slot K V) :=
  bs.getD (idx % bs.length) none

/-- Write the bucket under an unwrapped cursor index. -/
def setSlot (bs : Buckets K V) (idx : Nat) (s : Option (Slot K V)) : Buckets K V :=
  bs.set (idx % bs.length) s

/-- FullBucket::distance: `(idx.wrapping_sub(hash as usize)) & (capacity - 1)`. -/
def dib (cap idx h : Nat) : Nat :=
  ((idx % U64 + (U64 - h % U64)) % U64) &&& (cap - 1)

/-- Bucket::new / Bucket::at_index: the starting probe index `hash & (capacity - 1)`. -/
def ideal (cap h : Nat) : Nat := h &&& (cap - 1)

/-- The loop of `search_hashed`, running `while probe.index() != ib + size`;
the fuel is the number of remaining iterations `ib + size - idx`, so fuel 0 is
exactly the loop exit.  Returns the unwrapped index of the found full bucket. -/
def search_loop (bs : Buckets K V) (h : Nat) (p : K → Bool) (ib : Nat) :
    Nat → Nat → Option Nat
  | 0, _ => none
  | fuel + 1, idx =>
    match slotAt bs idx with
    | none => none
    | some s =>
      if dib bs.length idx s.hash + ib < idx then none
      else if s.hash == h && p s.key then some idx
      else search_loop bs h p ib fuel (idx + 1)

/-- search_hashed: zero-capacity guard, then the probe loop from the ideal
index with at most `size` iterations. -/
def search_hashed (t : Table K V) (h : Nat) (p : K → Bool) : Option Nat :=
  if t.capacity = 0 then none
  else search_loop t.buckets h p (ideal t.capacity h) t.size (ideal t.capacity h)

/-- The displacement loop of `robin_hood`.  At each step the cursor advances
by one; `assert!(probe.index() != idx_end)` is the `none` result.  The state
is the bucket array with the previous triple already written, the current
index, the floating triple's ideal index `ib` and the floating slot itself. -/
def rh_go (cap idx_end : Nat) : Nat → Buckets K V → Nat → Nat → Slot K V →
    Option (Buckets K V)
  | 0, _, _, _, _ => none
  | fuel + 1, bs, bidx, ib, fl =>
    let probe := bidx + 1
    if probe = idx_end then none
    else
      match slotAt bs probe with
      | none => some (setSlot bs probe (some fl))
      | some res =>
        let probe_ib := probe - dib cap probe res.hash
        if ib < probe_ib then
          rh_go cap idx_end fuel (setSlot bs probe (some fl)) probe probe_ib res
        else
          rh_go cap idx_end fuel bs probe ib fl

/-- robin_hood: replace the starting (full) bucket with the incoming triple
and displace the old resident; `idx_end = starting_index + size - distance`. -/
def robin_hood (cap : Nat) (bs : Buckets K V) (start ib : Nat)
    (h : Nat) (k : K) (v : V) (size : Nat) : Option (Buckets K V) :=
  match slotAt bs start with
  | none => none
  | some res =>
    let idx_end := start + size - dib cap start res.hash
    rh_go cap idx_end (idx_end - start) (setSlot bs start (some ⟨h, k, v⟩)) start ib res

/-- The loop of `insert_or_replace_with`, with `insert`'s callback (replace
only the value, return the previous value).  On a key match the bucket keeps
its stored hash and key.  `assert!(probe.index() != ib + size + 1)` is the
`none` result; the fuel `size + 1` covers every iteration up to that assert. -/
def ins_loop (beq : K → K → Bool) (cap : Nat) (h : Nat) (k : K) (v : V)
    (ib size : Nat) : Nat → Buckets K V → Nat → Option (Buckets K V × Option V)
  | 0, _, _ => none
  | fuel + 1, bs, idx =>
    match slotAt bs idx with
    | none => some (setSlot bs idx (some ⟨h, k, v⟩), none)
    | some s =>
      if s.hash == h && beq k s.key then
        some (setSlot bs idx (some ⟨s.hash, s.key, v⟩), some s.val)
      else
        let robin_ib := idx - dib cap idx s.hash
        if ib < robin_ib then
          (robin_hood cap bs idx robin_ib h k v size).map (fun bs2 => (bs2, none))
        else if idx + 1 = ib + size + 1 then none
        else ins_loop beq cap h k v ib size fuel bs (idx + 1)

/-- insert_or_replace_with at the table level: runs the probe loop and applies
the `put` size increment when a fresh slot was used. -/
def insert_or_replace (beq : K → K → Bool) (t : Table K V) (h : Nat) (k : K) (v : V) :
    Option (Table K V × Option V) :=
  (ins_loop beq t.capacity h k v (ideal t.capacity h) t.size
      (t.size + 1) t.buckets (ideal t.capacity h)).map
    fun r => (⟨r.1, if r.2.isSome then t.size else t.size + 1⟩, r.2)

/-- The loop of `insert_hashed_ordered`: walk from the ideal index to the
first empty bucket, `while buckets.index() != ib + cap`; running out of fuel
is exactly the `panic!("Internal HashMap error: Out of space.")`. -/
def iho_loop (bs : Buckets K V) (h : Nat) (k : K) (v : V) :
    Nat → Nat → Option (Buckets K V)
  | 0, _ => none
  | fuel + 1, idx =>
    match slotAt bs idx with
    | none => some (setSlot bs idx (some ⟨h, k, v⟩))
    | some _ => iho_loop bs h k v fuel (idx + 1)

/-- insert_hashed_ordered at the table level. -/
def insert_hashed_ordered (t : Table K V) (h : Nat) (k : K) (v : V) :
    Option (Table K V) :=
  (iho_loop t.buckets h k v t.capacity (ideal t.capacity h)).map
    fun bs => ⟨bs, t.size + 1⟩

/-- The backward-shift loop of `pop_internal`: while the bucket after the gap
is full and displaced, move it back one slot and advance the gap.  The fuel
(always called with the capacity) only guards termination; it never runs out
on a well-formed table. -/
def shift_loop (cap : Nat) : Nat → Buckets K V → Nat → Buckets K V
  | 0, bs, _ => bs
  | fuel + 1, bs, gap =>
    match slotAt bs (gap + 1) with
    | none => bs
    | some s =>
      if dib cap (gap + 1) s.hash = 0 then bs
      else shift_loop cap fuel (setSlot (setSlot bs gap (some s)) (gap + 1) none) (gap + 1)

/-- pop_internal: take the starting bucket, then backward-shift. -/
def pop_internal (cap : Nat) (bs : Buckets K V) (idx : Nat) :
    Buckets K V × Option (K × V) :=
  match slotAt bs idx with
  | none => (bs, none)
  | some s => (shift_loop cap cap (setSlot bs idx none) idx, some (s.key, s.val))

/-- The cluster-skipping loop at the start of `resize`: scan from index 0 for
the first full bucket at its ideal location. -/
def skip_loop (bs : Buckets K V) : Nat → Nat → Option Nat
  | 0, _ => none
  | fuel + 1, idx =>
    match slotAt bs idx with
    | some s => if dib bs.length idx s.hash = 0 then some idx
        else skip_loop bs fuel (idx + 1)
    | none => skip_loop bs fuel (idx + 1)

/-- The reinsertion loop of `resize`: take each full bucket of the old table
in order and `insert_hashed_ordered` it into the new one, stopping when the
old table's live count reaches zero. -/
def move_loop : Nat → Buckets K V → Nat → Table K V → Nat → Option (Table K V)
  | 0, _, _, _, _ => none
  | fuel + 1, obs, osz, nt, idx =>
    match slotAt obs idx with
    | some s =>
      (insert_hashed_ordered nt s.hash s.key s.val).bind fun nt2 =>
        let obs2 := setSlot obs idx none
        if osz - 1 = 0 then some nt2
        else move_loop fuel obs2 (osz - 1) nt2 (idx + 1)
    | none => move_loop fuel obs osz nt (idx + 1)

/-- RawTable::new for a given capacity: all hash tags zeroed, and the
capacity-overflow check of `new_uninitialized`
(`capacity.checked_mul(size_of_bucket).expect("capacity overflow")`), taken at
its weakest instantiation (zero-sized keys and values, so one bucket is the 8
bytes of its hash tag; larger element types only fail earlier). -/
def rawNew (cap : Nat) : Option (Table K V) :=
  if cap * 8 < U64 then some ⟨List.replicate cap none, 0⟩ else none

/-- resize: assert the new capacity fits and is a power of two (or zero),
install a fresh table, and, unless the old table was trivial, skip the initial
cluster and reinsert every element in order. -/
def resizeM (t : Table K V) (new_capacity : Nat) : Option (Table K V) :=
  if ¬ t.size ≤ new_capacity then none
  else if ¬ (IsPow2 new_capacity ∨ new_capacity = 0) then none
  else
    (rawNew new_capacity).bind fun fresh =>
      if t.capacity = 0 ∨ t.size = 0 then some fresh
      else
        (skip_loop t.buckets t.capacity 0).bind fun b =>
          move_loop t.capacity t.buckets t.size fresh b

/-- reserve: grow when the current capacity is below the policy minimum for
the new size.  The `assert!(new_size <= min_cap)` is kept as a guard. -/
def reserveM (t : Table K V) (additional : Nat) : Option (Table K V) :=
  let new_size := t.size + additional
  let min_cap := min_capacity new_size
  if ¬ new_size ≤ min_cap then none
  else if t.capacity < min_cap then
    resizeM t (max (nextPow2 min_cap) INITIAL_CAPACITY)
  else some t

/-- HashMap::insert: hash the key, reserve room for one element, then run the
insert-or-replace probe. -/
def insertM (hf : K → Nat) (beq : K → K → Bool) (t : Table K V) (k : K) (v : V) :
    Option (Table K V × Option V) :=
  let h := make_hash hf k
  (reserveM t 1).bind fun t1 => insert_or_replace beq t1 h k v

/-- HashMap::get. -/
def getM (hf : K → Nat) (beq : K → K → Bool) (t : Table K V) (q : K) : Option V :=
  (search_hashed t (make_hash hf q) (fun k => beq q k)).bind
    fun i => (slotAt t.buckets i).map (fun s => s.val)

/-- HashMap::contains_key. -/
def containsKeyM (hf : K → Nat) (beq : K → K → Bool) (t : Table K V) (q : K) : Bool :=
  (search_hashed t (make_hash hf q) (fun k => beq q k)).isSome

/-- HashMap::remove: the size-zero guard, then search and pop. -/
def removeM (hf : K → Nat) (beq : K → K → Bool) (t : Table K V) (q : K) :
    Table K V × Option V :=
  if t.size = 0 then (t, none)
  else
    match search_hashed t (make_hash hf q) (fun k => beq q k) with
    | none => (t, none)
    | some idx =>
      let r := pop_internal t.capacity t.buckets idx
      (⟨r.1, t.size - 1⟩, r.2.map (fun p => p.2))

/-- HashMap::new / with_hash_state: a table of capacity 0. -/
def newT : Table K V := ⟨[], 0⟩

/-- HashMap::with_capacity / with_capacity_and_hash_state; the failures of
`checked_next_power_of_two` and of `assert!(internal_cap >= capacity)` are the
`none` results. -/
def with_capacityM (c : Nat) : Option (Table K V) :=
  let min_cap := max INITIAL_CAPACITY (min_capacity c)
  let internal := nextPow2 min_cap
  if ¬ internal < U64 then none
  else if internal < c then none
  else rawNew internal

/-- HashMap::capacity: `usable_capacity` of the raw capacity. -/
def Table.mapCapacity (t : Table K V) : Nat := usable_capacity t.capacity

/-- HashMap::len. -/
def Table.len (t : Table K V) : Nat := t.size


/-! ### Arithmetic toolbox -/

theorem U64_pos : 0 < U64 := by norm_num [U64]

theorem sub_mod_helper {cap N : Nat} (hc : 0 < cap) (hd : cap ∣ N) {r : Nat}
    (hr : r < N) (x : Nat) :
    (x + (N - r)) % cap = (x + (cap - r % cap)) % cap := by
  obtain ⟨m, rfl⟩ := hd
  have h2 : r / cap < m := by
    by_contra h
    push_neg at h
    have h3 : cap * m ≤ cap * (r / cap) := Nat.mul_le_mul_left _ h
    have h4 := Nat.div_add_mod r cap
    have h5 := Nat.mod_lt r hc
    omega
  have key : cap * m - r = cap * (m - r / cap - 1) + (cap - r % cap) := by
    have h4 := Nat.div_add_mod r cap
    have hmod := Nat.mod_lt r hc
    have e1 : cap * (m - r / cap - 1) = cap * m - cap * (r / cap) - cap := by
      rw [Nat.mul_sub, Nat.mul_sub]
      omega
    have e2 : cap * (r / cap) + cap ≤ cap * m := by
      calc cap * (r / cap) + cap = cap * (r / cap + 1) := by ring
        _ ≤ cap * m := Nat.mul_le_mul_left _ h2
    omega
  rw [key, ← Nat.add_assoc, Nat.add_comm x, Nat.add_assoc]
  exact Nat.mul_add_mod _ _ _

/-- Working (purely modular) form of the probe distance. -/
def dibN (cap idx h : Nat) : Nat := (idx + (cap - h % cap)) % cap

theorem dib_eq_dibN {cap : Nat} {j : Nat} (hcap : cap = 2 ^ j) (hd : cap ∣ U64)
    (idx h : Nat) : dib cap idx h = dibN cap idx h := by
  have hc : 0 < cap := by rw [hcap]; exact Nat.pos_pow_of_pos _ (by norm_num)
  have hmask : ((idx % U64 + (U64 - h % U64)) % U64) &&& (cap - 1)
      = ((idx % U64 + (U64 - h % U64)) % U64) % cap := by
    rw [hcap]
    exact Nat.and_pow_two_sub_one_eq_mod _ j
  unfold dib dibN
  rw [hmask]
  have h1 : ((idx % U64 + (U64 - h % U64)) % U64) % cap
      = (idx % U64 + (U64 - h % U64)) % cap := Nat.mod_mod_of_dvd _ hd
  rw [h1, sub_mod_helper hc hd (Nat.mod_lt _ U64_pos) _]
  have h2 : h % U64 % cap = h % cap := Nat.mod_mod_of_dvd _ hd
  rw [h2]
  conv_lhs => rw [Nat.add_mod, Nat.mod_mod_of_dvd _ hd, ← Nat.add_mod]

theorem ideal_eq_mod {cap : Nat} {j : Nat} (hcap : cap = 2 ^ j) (h : Nat) :
    ideal cap h = h % cap := by
  unfold ideal
  rw [hcap]
  exact Nat.and_pow_two_sub_one_eq_mod _ j

theorem dibN_lt {cap : Nat} (hc : 0 < cap) (idx h : Nat) : dibN cap idx h < cap :=
  Nat.mod_lt _ hc

theorem dibN_mod_left {cap : Nat} (idx h : Nat) :
    dibN cap (idx % cap) h = dibN cap idx h := by
  unfold dibN
  conv_lhs => rw [Nat.add_mod, Nat.mod_mod_of_dvd _ dvd_rfl, ← Nat.add_mod]

theorem dibN_add_left {cap : Nat} (idx h t : Nat) :
    dibN cap (idx + t) h = (dibN cap idx h + t) % cap := by
  unfold dibN
  rw [Nat.mod_add_mod, Nat.add_right_comm]

theorem dibN_ideal_add {cap : Nat} (hc : 0 < cap) (h t : Nat) :
    dibN cap (h % cap + t) h = t % cap := by
  unfold dibN
  have h1 : h % cap < cap := Nat.mod_lt _ hc
  have h2 : h % cap + t + (cap - h % cap) = t + cap := by omega
  rw [h2, Nat.add_mod_right]

theorem ideal_add_dibN {cap : Nat} (hc : 0 < cap) {p : Nat} (hp : p < cap) (h : Nat) :
    (h % cap + dibN cap p h) % cap = p := by
  unfold dibN
  have h1 : h % cap < cap := Nat.mod_lt _ hc
  rw [Nat.add_mod_mod]
  have h2 : h % cap + (p + (cap - h % cap)) = p + cap := by omega
  rw [h2, Nat.add_mod_right, Nat.mod_eq_of_lt hp]

theorem make_hash_lt {K : Type} (hf : K → Nat) (k : K) : make_hash hf k < U64 := by
  have h1 : (0x8000000000000000 : Nat) < 2 ^ 64 := by norm_num
  have h2 : hf k % U64 < 2 ^ 64 := Nat.mod_lt _ U64_pos
  exact Nat.bitwise_lt_two_pow h1 h2

theorem make_hash_testBit {K : Type} (hf : K → Nat) (k : K) :
    (make_hash hf k).testBit 63 = true := by
  unfold make_hash
  rw [Nat.testBit_lor]
  have h1 : (0x8000000000000000 : Nat) = 2 ^ 63 := by norm_num
  rw [h1, Nat.testBit_two_pow_self]
  rfl

theorem make_hash_ne_zero {K : Type} (hf : K → Nat) (k : K) : make_hash hf k ≠ 0 := by
  intro h
  have h1 := make_hash_testBit hf k
  rw [h, Nat.zero_testBit] at h1
  exact Bool.false_ne_true h1

/-! ### Bucket array access -/

theorem length_setSlot (bs : Buckets K V) (i : Nat) (s : Option (Slot K V)) :
    (setSlot bs i s).length = bs.length := List.length_set ..

theorem getD_set_eq (bs : Buckets K V) {m : Nat} (hm : m < bs.length)
    (s : Option (Slot K V)) : (bs.set m s).getD m none = s := by
  rw [List.getD_eq_getElem?_getD, List.getElem?_set_self hm]
  rfl

theorem getD_set_ne (bs : Buckets K V) {m j : Nat} (h : m ≠ j)
    (s : Option (Slot K V)) : (bs.set m s).getD j none = bs.getD j none := by
  rw [List.getD_eq_getElem?_getD, List.getElem?_set_ne h, ← List.getD_eq_getElem?_getD]

theorem slotAt_def (bs : Buckets K V) (idx : Nat) :
    slotAt bs idx = bs.getD (idx % bs.length) none := rfl

theorem slotAt_setSlot_self (bs : Buckets K V) (hc : 0 < bs.length) (i : Nat)
    (s : Option (Slot K V)) : slotAt (setSlot bs i s) i = s := by
  unfold slotAt setSlot
  rw [List.length_set]
  exact getD_set_eq bs (Nat.mod_lt _ hc) s

theorem slotAt_setSlot_ne (bs : Buckets K V) {i j : Nat}
    (h : i % bs.length ≠ j % bs.length) (s : Option (Slot K V)) :
    slotAt (setSlot bs i s) j = slotAt bs j := by
  unfold slotAt setSlot
  rw [List.length_set]
  exact getD_set_ne bs h s

theorem getD_setSlot_eq (bs : Buckets K V) (hc : 0 < bs.length) (i : Nat)
    (s : Option (Slot K V)) : (setSlot bs i s).getD (i % bs.length) none = s :=
  getD_set_eq bs (Nat.mod_lt _ hc) s

theorem getD_setSlot_ne (bs : Buckets K V) {i j : Nat} (h : i % bs.length ≠ j)
    (s : Option (Slot K V)) : (setSlot bs i s).getD j none = bs.getD j none :=
  getD_set_ne bs h s

/-! ### Counting full buckets -/

/-- The number of full buckets of the array. -/
def countFull (bs : Buckets K V) : Nat :=
  ((Finset.range bs.length).filter fun j => (bs.getD j none).isSome = true).card

theorem countFull_le (bs : Buckets K V) : countFull bs ≤ bs.length := by
  calc countFull bs ≤ (Finset.range bs.length).card := Finset.card_filter_le _ _
    _ = bs.length := Finset.card_range _

theorem countFull_set_some_of_none (bs : Buckets K V) {m : Nat} (hm : m < bs.length)
    (hold : bs.getD m none = none) (s : Slot K V) :
    countFull (bs.set m (some s)) = countFull bs + 1 := by
  unfold countFull
  rw [List.length_set]
  have hset : (Finset.range bs.length).filter
        (fun j => ((bs.set m (some s)).getD j none).isSome = true)
      = insert m ((Finset.range bs.length).filter
        (fun j => (bs.getD j none).isSome = true)) := by
    ext j
    simp only [Finset.mem_filter, Finset.mem_insert, Finset.mem_range]
    constructor
    · rintro ⟨hj, hfull⟩
      by_cases hjm : m = j
      · exact Or.inl hjm.symm
      · rw [getD_set_ne bs hjm] at hfull
        exact Or.inr ⟨hj, hfull⟩
    · rintro (rfl | ⟨hj, hfull⟩)
      · exact ⟨hm, by rw [getD_set_eq bs hm]; rfl⟩
      · by_cases hjm : m = j
        · subst hjm
          exact ⟨hj, by rw [getD_set_eq bs hm]; rfl⟩
        · rw [getD_set_ne bs hjm]
          exact ⟨hj, hfull⟩
  rw [hset, Finset.card_insert_of_not_mem]
  intro hmem
  rw [Finset.mem_filter] at hmem
  rw [hold] at hmem
  simp at hmem

theorem countFull_set_none_of_some (bs : Buckets K V) {m : Nat} (hm : m < bs.length)
    {s : Slot K V} (hold : bs.getD m none = some s) :
    countFull (bs.set m none) + 1 = countFull bs := by
  have h1 : (bs.set m none).set m (some s) = bs.set m (some s) := List.set_set ..
  have hm2 : bs[m]? = some (some s) := by
    have h0 := List.getD_eq_getElem?_getD bs m none
    rw [hold] at h0
    cases hx : bs[m]? with
    | none => rw [hx] at h0; simp at h0
    | some o => rw [hx] at h0; simp at h0; rw [h0]
  have h2 : bs.set m (some s) = bs := by
    apply List.ext_getElem?
    intro j
    by_cases hjm : m = j
    · subst hjm
      rw [List.getElem?_set_self hm, hm2]
    · rw [List.getElem?_set_ne hjm]
  have h3 : countFull ((bs.set m none).set m (some s)) = countFull (bs.set m none) + 1 := by
    apply countFull_set_some_of_none
    · rw [List.length_set]; exact hm
    · exact getD_set_eq bs hm none
  rw [h1, h2] at h3
  exact h3.symm

theorem countFull_set_some_of_some (bs : Buckets K V) {m : Nat} (hm : m < bs.length)
    {s0 : Slot K V} (hold : bs.getD m none = some s0) (s : Slot K V) :
    countFull (bs.set m (some s)) = countFull bs := by
  have h1 : countFull ((bs.set m none).set m (some s))
      = countFull (bs.set m none) + 1 := by
    apply countFull_set_some_of_none
    · rw [List.length_set]; exact hm
    · exact getD_set_eq bs hm none
  rw [List.set_set] at h1
  rw [h1]
  exact countFull_set_none_of_some bs hm hold

/-- Pigeonhole: a run of `m ≤ capacity` consecutive (wrapped) full buckets
forces at least `m` full buckets. -/
theorem countFull_ge_of_run (bs : Buckets K V) (a : Nat) {m : Nat}
    (hm : m ≤ bs.length)
    (h : ∀ t < m, ((bs.getD ((a + t) % bs.length) none).isSome = true)) :
    m ≤ countFull bs := by
  rcases Nat.eq_zero_or_pos bs.length with hlen | hlen
  · omega
  have hcard : (Finset.range m).card ≤
      ((Finset.range bs.length).filter fun j => (bs.getD j none).isSome = true).card := by
    apply Finset.card_le_card_of_injOn (fun t => (a + t) % bs.length)
    · intro t ht
      rw [Finset.mem_range] at ht
      rw [Finset.mem_filter, Finset.mem_range]
      exact ⟨Nat.mod_lt _ hlen, h t ht⟩
    · intro t1 h1 t2 h2 heq
      simp only [Finset.coe_range, Set.mem_Iio] at h1 h2
      simp only at heq
      have d2 : t1 % bs.length = t2 % bs.length := Nat.ModEq.add_left_cancel' a heq
      rwa [Nat.mod_eq_of_lt (by omega), Nat.mod_eq_of_lt (by omega)] at d2
  rw [Finset.card_range] at hcard
  exact hcard


/-! ### Well-formedness -/

/-- The local Robin Hood invariant: a displaced full bucket's predecessor is
full and at most one probe closer to its own ideal slot; equivalently, ideal
indices are non-decreasing along any run of full buckets. -/
def localInv (bs : Buckets K V) : Prop :=
  ∀ j < bs.length, ∀ s, bs.getD j none = some s → 0 < dibN bs.length j s.hash →
    ∃ s2, bs.getD ((j + bs.length - 1) % bs.length) none = some s2 ∧
      dibN bs.length j s.hash ≤
        dibN bs.length ((j + bs.length - 1) % bs.length) s2.hash + 1

/-- Stored hash tags are the safe hashes of the stored keys. -/
def hashesOk (hf : K → Nat) (bs : Buckets K V) : Prop :=
  ∀ j < bs.length, ∀ s : Slot K V, bs.getD j none = some s →
    s.hash = make_hash hf s.key

/-- Keys of distinct full buckets are never equal. -/
def distinctAt (beq : K → K → Bool) (bs : Buckets K V) : Prop :=
  ∀ i < bs.length, ∀ j < bs.length, i ≠ j →
    ∀ si sj : Slot K V, bs.getD i none = some si → bs.getD j none = some sj →
      beq si.key sj.key = false

/-- A key equal to no stored key. -/
def notStored (beq : K → K → Bool) (bs : Buckets K V) (k : K) : Prop :=
  ∀ j < bs.length, ∀ s : Slot K V, bs.getD j none = some s → beq k s.key = false

/-- Well-formedness of a non-trivial bucket array. -/
structure WFb (hf : K → Nat) (beq : K → K → Bool) (bs : Buckets K V) : Prop where
  cap_dvd : bs.length ∣ 2 ^ 61
  cap_pos : 0 < bs.length
  hashes_ok : hashesOk hf bs
  local_inv : localInv bs
  distinct : distinctAt beq bs

/-- Well-formedness of a reachable table: either the fresh zero-capacity
table, or a table whose array is well-formed, whose tracked size agrees with
the number of full buckets and satisfies the resize policy's lower capacity
bound, at capacity at least INITIAL_CAPACITY. -/
def WF (hf : K → Nat) (beq : K → K → Bool) (t : Table K V) : Prop :=
  (t.buckets = [] ∧ t.size = 0) ∨
  (WFb hf beq t.buckets ∧ t.size = countFull t.buckets ∧
    min_capacity t.size ≤ t.capacity ∧ INITIAL_CAPACITY ≤ t.capacity)

/-- The PartialEq / Hash contract: `beq` is an equivalence and hashing
respects it. -/
structure KeyLaws (hf : K → Nat) (beq : K → K → Bool) : Prop where
  refl : ∀ a, beq a a = true
  symm : ∀ a b, beq a b = true → beq b a = true
  trans : ∀ a b c, beq a b = true → beq b c = true → beq a c = true
  hash_eq : ∀ a b, beq a b = true → hf a = hf b

theorem WFb.cap_pow2 {hf : K → Nat} {beq : K → K → Bool} {bs : Buckets K V}
    (w : WFb hf beq bs) : ∃ j, bs.length = 2 ^ j := by
  rcases (Nat.dvd_prime_pow Nat.prime_two).mp w.cap_dvd with ⟨j, _, hj⟩
  exact ⟨j, hj⟩

theorem WFb.cap_dvd_u64 {hf : K → Nat} {beq : K → K → Bool} {bs : Buckets K V}
    (w : WFb hf beq bs) : bs.length ∣ U64 := by
  refine w.cap_dvd.trans ⟨2 ^ 3, ?_⟩
  norm_num [U64]

theorem WFb.dib_eq {hf : K → Nat} {beq : K → K → Bool} {bs : Buckets K V}
    (w : WFb hf beq bs) (idx h : Nat) : dib bs.length idx h = dibN bs.length idx h := by
  obtain ⟨j, hj⟩ := w.cap_pow2
  exact dib_eq_dibN hj w.cap_dvd_u64 idx h

theorem usable_capacity_lt {cap : Nat} (hc : 0 < cap) : usable_capacity cap < cap := by
  unfold usable_capacity
  rw [Nat.div_lt_iff_lt_mul (by norm_num)]
  omega

theorem make_hash_congr {hf : K → Nat} {beq : K → K → Bool} (laws : KeyLaws hf beq)
    {a b : K} (h : beq a b = true) : make_hash hf a = make_hash hf b := by
  unfold make_hash
  rw [laws.hash_eq a b h]

/-! ### Probe chains -/

theorem pred_mod {len : Nat} (hc : 0 < len) {x : Nat} (hx : 1 ≤ x) :
    (x % len + len - 1) % len = (x - 1) % len := by
  have h0 : 0 < x % len + len := by omega
  have h1 : x % len + len - 1 = x % len + (len - 1) := by omega
  rw [h1, Nat.mod_add_mod]
  have h2 : x + (len - 1) = (x - 1) + len := by omega
  rw [h2, Nat.add_mod_right]

/-- Walking backwards from a full bucket at distance `d`, every one of the `d`
preceding buckets is full, the `t`-th one at distance at least `d - t`. -/
theorem chain_back {bs : Buckets K V} (hc : 0 < bs.length) (hloc : localInv bs)
    {q : Nat} (hq : q < bs.length) {s : Slot K V} (hs : bs.getD q none = some s) :
    ∀ t, t ≤ dibN bs.length q s.hash →
      ∃ s2, bs.getD ((q + bs.length - t) % bs.length) none = some s2 ∧
        dibN bs.length q s.hash - t ≤
          dibN bs.length ((q + bs.length - t) % bs.length) s2.hash := by
  intro t
  induction t with
  | zero =>
    intro _
    have h1 : (q + bs.length - 0) % bs.length = q := by
      rw [Nat.sub_zero, Nat.add_mod_right, Nat.mod_eq_of_lt hq]
    rw [h1]
    exact ⟨s, hs, Nat.le_refl _⟩
  | succ t IH =>
    intro ht
    have hdl : dibN bs.length q s.hash < bs.length := dibN_lt hc q s.hash
    obtain ⟨s2, hs2, hd2⟩ := IH (Nat.le_of_succ_le ht)
    have hpos : 0 < dibN bs.length ((q + bs.length - t) % bs.length) s2.hash := by
      have h4 : t + 1 ≤ dibN bs.length q s.hash := ht
      omega
    obtain ⟨s3, hs3, hd3⟩ := hloc _ (Nat.mod_lt _ hc) s2 hs2 hpos
    have harith : ((q + bs.length - t) % bs.length + bs.length - 1) % bs.length
        = (q + bs.length - (t + 1)) % bs.length := by
      have hx : 1 ≤ q + bs.length - t := by omega
      rw [pred_mod hc hx]
      have h5 : q + bs.length - t - 1 = q + bs.length - (t + 1) := by omega
      rw [h5]
    rw [harith] at hs3 hd3
    refine ⟨s3, hs3, ?_⟩
    omega

/-- Position of the `t`-th probe of the chain ending at `q`: stepping back
`d - t` slots from `q` is the same as stepping `t` slots forward from the
ideal slot of `q`'s resident. -/
theorem chain_pos {len : Nat} (hc : 0 < len) {q : Nat} (hq : q < len) (h : Nat)
    {t : Nat} (ht : t ≤ dibN len q h) :
    (q + len - (dibN len q h - t)) % len = (h % len + t) % len := by
  have hqe : (h % len + dibN len q h) % len = q := ideal_add_dibN hc hq h
  have hd : dibN len q h < len := dibN_lt hc q h
  set D := dibN len q h with hD
  conv_lhs => rw [← hqe]
  have h2 : (h % len + D) % len + len - (D - t)
      = (h % len + D) % len + (len - (D - t)) := by omega
  rw [h2, Nat.mod_add_mod]
  have h3 : h % len + D + (len - (D - t)) = h % len + t + len := by omega
  rw [h3, Nat.add_mod_right]

/-! ### Search: soundness and completeness -/

theorem search_loop_sound {bs : Buckets K V} {h : Nat} {p : K → Bool} {ib : Nat} :
    ∀ fuel idx r, search_loop bs h p ib fuel idx = some r →
      ∃ s, slotAt bs r = some s ∧ s.hash = h ∧ p s.key = true ∧
        idx ≤ r ∧ r < idx + fuel := by
  intro fuel
  induction fuel with
  | zero => intro idx r hr; simp [search_loop] at hr
  | succ n IH =>
    intro idx r hr
    unfold search_loop at hr
    cases hslot : slotAt bs idx with
    | none => rw [hslot] at hr; simp at hr
    | some s =>
      rw [hslot] at hr
      simp only at hr
      by_cases h1 : dib bs.length idx s.hash + ib < idx
      · rw [if_pos h1] at hr; simp at hr
      · rw [if_neg h1] at hr
        by_cases h2 : (s.hash == h && p s.key) = true
        · rw [if_pos h2] at hr
          simp only [Option.some.injEq] at hr
          subst hr
          rw [Bool.and_eq_true, beq_iff_eq] at h2
          exact ⟨s, hslot, h2.1, h2.2, Nat.le_refl _, by omega⟩
        · rw [if_neg h2] at hr
          obtain ⟨s2, ha, hb, hcc, hd, he⟩ := IH (idx + 1) r hr
          exact ⟨s2, ha, hb, hcc, by omega, by omega⟩

theorem search_loop_complete {hf : K → Nat} {beq : K → K → Bool}
    {bs : Buckets K V} (w : WFb hf beq bs)
    {h : Nat} {p : K → Bool} {q : Nat} (hq : q < bs.length) {s : Slot K V}
    (hs : bs.getD q none = some s) (hsh : s.hash = h) (hp : p s.key = true) :
    ∀ fuel t, t ≤ dibN bs.length q h → dibN bs.length q h - t < fuel →
      (search_loop bs h p (h % bs.length) fuel (h % bs.length + t)).isSome := by
  have hc : 0 < bs.length := w.cap_pos
  intro fuel
  induction fuel with
  | zero => omega
  | succ n IH =>
    intro t ht hfuel
    unfold search_loop
    have hchain := chain_back hc w.local_inv hq hs (dibN bs.length q s.hash - t)
      (Nat.sub_le _ _)
    rw [hsh] at hchain
    have hpos : (q + bs.length - (dibN bs.length q h - t)) % bs.length
        = (h % bs.length + t) % bs.length := chain_pos hc hq h ht
    obtain ⟨s2, hs2, hd2⟩ := hchain
    rw [hpos] at hs2 hd2
    have hslot : slotAt bs (h % bs.length + t) = some s2 := by
      rw [slotAt_def]
      exact hs2
    rw [hslot]
    simp only
    have hnoexit : ¬ (dib bs.length (h % bs.length + t) s2.hash + h % bs.length
        < h % bs.length + t) := by
      rw [w.dib_eq]
      have he1 : dibN bs.length (h % bs.length + t) s2.hash
          = dibN bs.length ((h % bs.length + t) % bs.length) s2.hash :=
        (dibN_mod_left _ _).symm
      rw [he1]
      omega
    rw [if_neg hnoexit]
    by_cases hm : (s2.hash == h && p s2.key) = true
    · rw [if_pos hm]; rfl
    · rw [if_neg hm]
      have htd : t ≠ dibN bs.length q h := by
        intro hteq
        subst hteq
        have hqq : (h % bs.length + dibN bs.length q h) % bs.length = q :=
          ideal_add_dibN hc hq h
        rw [slotAt_def, hqq, hs] at hslot
        have hss : s2 = s := by
          injection hslot with hss
          exact hss.symm
        subst hss
        rw [hsh, hp] at hm
        simp at hm
      have := IH (t + 1) (by omega) (by omega)
      rw [← Nat.add_assoc] at this
      exact this

/-- A present key is found: under well-formedness, the probe loop starting at
the ideal slot with fuel `size` succeeds. -/
theorem search_hashed_finds {hf : K → Nat} {beq : K → K → Bool}
    {t : Table K V} (w : WFb hf beq t.buckets) (hsz : t.size = countFull t.buckets)
    {h : Nat} {p : K → Bool} {q : Nat} (hq : q < t.buckets.length) {s : Slot K V}
    (hs : t.buckets.getD q none = some s) (hsh : s.hash = h) (hp : p s.key = true) :
    (search_hashed t h p).isSome := by
  have hc : 0 < t.buckets.length := w.cap_pos
  have hcap : t.capacity = t.buckets.length := rfl
  unfold search_hashed
  rw [if_neg (by rw [hcap]; omega)]
  obtain ⟨j, hj⟩ := w.cap_pow2
  rw [@ideal_eq_mod t.capacity j hj]
  -- every probe position up to the target is full, so size > distance
  have hrun : ∀ u < dibN t.buckets.length q h + 1,
      ((t.buckets.getD ((h % t.buckets.length + u) % t.buckets.length) none).isSome
        = true) := by
    intro u hu
    have hchain := chain_back hc w.local_inv hq hs (dibN t.buckets.length q s.hash - u)
      (Nat.sub_le _ _)
    rw [hsh] at hchain
    have hu2 : u ≤ dibN t.buckets.length q h := by omega
    have hpos := chain_pos hc hq h hu2
    obtain ⟨s2, hs2, _⟩ := hchain
    rw [hpos] at hs2
    rw [hs2]
    rfl
  have hcount : dibN t.buckets.length q h + 1 ≤ countFull t.buckets := by
    apply countFull_ge_of_run t.buckets (h % t.buckets.length)
    · have := dibN_lt hc q h
      omega
    · exact hrun
  have hfuel : dibN t.buckets.length q h - 0 < t.size := by
    rw [hsz]; omega
  have := search_loop_complete w hq hs hsh hp t.size 0 (Nat.zero_le _) hfuel
  rw [Nat.add_zero] at this
  exact this


/-! ### The slot multiset and the association view of a table -/

/-- The list of full buckets, in storage order. -/
def slots (bs : Buckets K V) : List (Slot K V) := bs.filterMap id

/-- Look a key up in a list of slots. -/
def findVal (beq : K → K → Bool) (l : List (Slot K V)) (q : K) : Option V :=
  (l.find? fun s => beq q s.key).map fun s => s.val

/-- Look a key up among the full buckets of an array. -/
def assocOf (beq : K → K → Bool) (bs : Buckets K V) (q : K) : Option V :=
  findVal beq (slots bs) q

/-- Pairwise distinctness of the keys of a slot list. -/
def DistinctKeys (beq : K → K → Bool) (l : List (Slot K V)) : Prop :=
  l.Pairwise fun a b => beq a.key b.key = false

theorem mem_slots {bs : Buckets K V} {s : Slot K V} :
    s ∈ slots bs ↔ some s ∈ bs := by
  unfold slots
  rw [List.mem_filterMap]
  simp

theorem getD_some_getElem? {bs : Buckets K V} {j : Nat} (hj : j < bs.length)
    {s : Slot K V} (h : bs.getD j none = some s) : bs[j]? = some (some s) := by
  have h0 := List.getD_eq_getElem?_getD bs j none
  rw [h] at h0
  cases hx : bs[j]? with
  | none =>
    rw [List.getElem?_eq_none_iff] at hx
    omega
  | some o => rw [hx] at h0; simp at h0; rw [h0]

theorem mem_slots_getD {bs : Buckets K V} {s : Slot K V} :
    s ∈ slots bs ↔ ∃ j, j < bs.length ∧ bs.getD j none = some s := by
  rw [mem_slots, List.mem_iff_getElem?]
  constructor
  · rintro ⟨j, hj⟩
    have hlt : j < bs.length := by
      by_contra hge
      rw [List.getElem?_eq_none_iff.mpr (by omega)] at hj
      exact Option.noConfusion hj
    refine ⟨j, hlt, ?_⟩
    rw [List.getD_eq_getElem?_getD, hj]
    rfl
  · rintro ⟨j, hj, hs⟩
    exact ⟨j, getD_some_getElem? hj hs⟩

theorem WFb.slots_distinct {hf : K → Nat} {beq : K → K → Bool} {bs : Buckets K V}
    (w : WFb hf beq bs) : DistinctKeys beq (slots bs) := by
  unfold DistinctKeys slots
  apply List.Pairwise.filterMap (R := fun a b : Option (Slot K V) =>
    ∀ x y : Slot K V, a = some x → b = some y → beq x.key y.key = false)
  · intro a a' hr b hb b' hb'
    simp only [id] at hb hb'
    cases a with
    | none => simp at hb
    | some x =>
      cases a' with
      | none => simp at hb'
      | some y =>
        simp only [Option.mem_def, Option.some.injEq] at hb hb'
        subst hb hb'
        exact hr _ _ rfl rfl
  · rw [List.pairwise_iff_getElem]
    intro i j hi hj hij x y hx hy
    apply w.distinct i hi j hj (by omega) x y
    · rw [List.getD_eq_getElem?_getD, List.getElem?_eq_getElem hi, hx]; rfl
    · rw [List.getD_eq_getElem?_getD, List.getElem?_eq_getElem hj, hy]; rfl

theorem findVal_cons {beq : K → K → Bool} (s : Slot K V) (l : List (Slot K V)) (q : K) :
    findVal beq (s :: l) q
      = if beq q s.key = true then some s.val else findVal beq l q := by
  unfold findVal
  by_cases h : beq q s.key = true
  · rw [List.find?_cons_of_pos (p := fun s => beq q s.key) l h, if_pos h]
    rfl
  · rw [List.find?_cons_of_neg (p := fun s => beq q s.key) l h, if_neg h]

theorem findVal_eq_none {beq : K → K → Bool} {l : List (Slot K V)} {q : K}
    (h : ∀ s ∈ l, beq q s.key = false) : findVal beq l q = none := by
  unfold findVal
  rw [List.find?_eq_none.mpr]
  · rfl
  · intro x hx
    rw [h x hx]
    exact Bool.false_ne_true

theorem findVal_eq_of_mem {hf : K → Nat} {beq : K → K → Bool}
    (laws : KeyLaws hf beq) {l : List (Slot K V)} (hd : DistinctKeys beq l)
    {q : K} {s : Slot K V} (hmem : s ∈ l) (hq : beq q s.key = true) :
    findVal beq l q = some s.val := by
  induction l with
  | nil => simp at hmem
  | cons a l IH =>
    rw [List.mem_cons] at hmem
    unfold DistinctKeys at hd
    rw [List.pairwise_cons] at hd
    rcases hmem with rfl | hmem
    · rw [findVal_cons, if_pos hq]
    · have hqa : beq q a.key = false := by
        by_contra hcon
        rw [Bool.not_eq_false] at hcon
        have h1 : beq a.key q = true := laws.symm _ _ hcon
        have h2 : beq a.key s.key = true := laws.trans _ _ _ h1 hq
        rw [hd.1 s hmem] at h2
        exact Bool.false_ne_true h2
      rw [findVal_cons, if_neg (by rw [hqa]; exact Bool.false_ne_true)]
      exact IH hd.2 hmem

theorem distinct_perm {hf : K → Nat} {beq : K → K → Bool} (laws : KeyLaws hf beq)
    {l l' : List (Slot K V)} (hperm : l.Perm l') (hd : DistinctKeys beq l) :
    DistinctKeys beq l' := by
  unfold DistinctKeys at hd ⊢
  refine hperm.pairwise_iff ?_ |>.mp hd
  intro a b hab
  by_contra hcon
  rw [Bool.not_eq_false] at hcon
  have := laws.symm _ _ hcon
  rw [hab] at this
  exact Bool.false_ne_true this

theorem findVal_perm {hf : K → Nat} {beq : K → K → Bool} (laws : KeyLaws hf beq)
    {l l' : List (Slot K V)} (hd : DistinctKeys beq l) (hperm : l.Perm l') (q : K) :
    findVal beq l q = findVal beq l' q := by
  cases hfind : l.find? (fun s => beq q s.key) with
  | none =>
    rw [List.find?_eq_none] at hfind
    have h2 : findVal beq l' q = none := by
      apply findVal_eq_none
      intro s hs
      have h0 := hfind s (hperm.mem_iff.mpr hs)
      simp only [Bool.not_eq_true] at h0
      exact h0
    rw [h2]
    unfold findVal
    rw [List.find?_eq_none.mpr]
    · rfl
    · intro x hx
      exact hfind x hx
  | some s =>
    have hmem : s ∈ l := List.mem_of_find?_eq_some hfind
    have hq : beq q s.key = true := by
      have h0 := List.find?_some hfind
      simpa using h0
    have h1 : findVal beq l q = some s.val := by
      unfold findVal; rw [hfind]; rfl
    have h2 : findVal beq l' q = some s.val :=
      findVal_eq_of_mem laws (distinct_perm laws hperm hd) (hperm.mem_iff.mp hmem) hq
    rw [h1, h2]

/-! ### Lookup agrees with the association view -/

theorem search_hashed_sound {t : Table K V} {h : Nat} {p : K → Bool} {r : Nat}
    (hr : search_hashed t h p = some r) :
    ∃ s, slotAt t.buckets r = some s ∧ s.hash = h ∧ p s.key = true := by
  unfold search_hashed at hr
  by_cases hcap : t.capacity = 0
  · rw [if_pos hcap] at hr; exact Option.noConfusion hr
  · rw [if_neg hcap] at hr
    obtain ⟨s, h1, h2, h3, _, _⟩ := search_loop_sound _ _ _ hr
    exact ⟨s, h1, h2, h3⟩

theorem getM_eq_assocOf {hf : K → Nat} {beq : K → K → Bool} (laws : KeyLaws hf beq)
    {t : Table K V} (hwf : WF hf beq t) (q : K) :
    getM hf beq t q = assocOf beq t.buckets q := by
  rcases hwf with ⟨hnil, _⟩ | ⟨w, hsz, _, _⟩
  · simp [getM, search_hashed, assocOf, slots, findVal, Table.capacity, hnil]
  · cases hass : assocOf beq t.buckets q with
    | none =>
      unfold assocOf at hass
      unfold getM
      cases hsearch : search_hashed t (make_hash hf q) fun k => beq q k with
      | none => rfl
      | some r =>
        obtain ⟨s, h1, _, h3⟩ := search_hashed_sound hsearch
        have hmem : s ∈ slots t.buckets := by
          rw [mem_slots_getD]
          exact ⟨r % t.buckets.length, Nat.mod_lt _ w.cap_pos, h1⟩
        have := findVal_eq_of_mem laws w.slots_distinct hmem h3
        rw [hass] at this
        exact Option.noConfusion this
    | some v =>
      unfold assocOf findVal at hass
      cases hfind : (slots t.buckets).find? (fun s => beq q s.key) with
      | none => rw [hfind] at hass; exact Option.noConfusion hass
      | some s =>
        rw [hfind] at hass
        have hsv : s.val = v := by
          simpa using hass
        have hmem : s ∈ slots t.buckets := List.mem_of_find?_eq_some hfind
        have hq : beq q s.key = true := by
          have h0 := List.find?_some hfind
          simpa using h0
        rw [mem_slots_getD] at hmem
        obtain ⟨j, hj, hjs⟩ := hmem
        have hhash : s.hash = make_hash hf q := by
          rw [w.hashes_ok j hj s hjs]
          exact (make_hash_congr laws hq).symm
        have hfound := search_hashed_finds w hsz hj hjs hhash.symm.symm hq
        -- the target hash of the search is make_hash hf q and s.hash equals it
        rw [← hhash] at hfound
        cases hsearch : search_hashed t s.hash (fun k => beq q k) with
        | none => rw [hsearch] at hfound; simp at hfound
        | some r =>
          obtain ⟨s2, h1, h2, h3⟩ := search_hashed_sound hsearch
          have hphys : r % t.buckets.length = j := by
            by_contra hne
            have hd := w.distinct (r % t.buckets.length) (Nat.mod_lt _ w.cap_pos)
              j hj hne s2 s h1 hjs
            have ha : beq s2.key q = true := laws.symm _ _ h3
            have hb : beq s2.key s.key = true := laws.trans _ _ _ ha hq
            rw [hd] at hb
            exact Bool.false_ne_true hb
          have hs2 : s2 = s := by
            rw [slotAt_def, hphys, hjs] at h1
            injection h1 with h1
            exact h1.symm
          unfold getM
          rw [hhash] at hsearch
          rw [hsearch]
          simp only [Option.some_bind]
          rw [slotAt_def, hphys, hjs]
          rw [← hsv, ← hs2]
          rfl

theorem containsKeyM_eq_isSome {hf : K → Nat} {beq : K → K → Bool}
    (t : Table K V) (q : K) :
    containsKeyM hf beq t q = (getM hf beq t q).isSome := by
  unfold containsKeyM getM
  cases hsearch : search_hashed t (make_hash hf q) fun k => beq q k with
  | none => rfl
  | some r =>
    obtain ⟨s, h1, _, _⟩ := search_hashed_sound hsearch
    simp only [Option.some_bind]
    rw [h1]
    rfl


/-! ### More distance arithmetic -/

theorem dibN_self_mod {cap : Nat} (hc : 0 < cap) {ib hm : Nat}
    (h : ib % cap = hm % cap) : dibN cap ib hm = 0 := by
  unfold dibN
  rw [← Nat.mod_add_mod, h]
  have h1 : hm % cap < cap := Nat.mod_lt _ hc
  have h2 : hm % cap + (cap - hm % cap) = cap := by omega
  rw [h2, Nat.mod_self]

theorem dibN_of_run {cap : Nat} (hc : 0 < cap) {ib hm : Nat}
    (h : ib % cap = hm % cap) {u : Nat} (hu : u < cap) :
    dibN cap (ib + u) hm = u := by
  rw [dibN_add_left, dibN_self_mod hc h, Nat.zero_add, Nat.mod_eq_of_lt hu]

theorem ideal_add_dibN_mod {cap : Nat} (hc : 0 < cap) (p hm : Nat) :
    (hm % cap + dibN cap p hm) % cap = p % cap := by
  rw [← dibN_mod_left]
  exact ideal_add_dibN hc (Nat.mod_lt _ hc) hm

theorem sub_dib_mod {cap : Nat} (hc : 0 < cap) {p hm : Nat}
    (hd : dibN cap p hm ≤ p) : (p - dibN cap p hm) % cap = hm % cap := by
  have h1 : (hm % cap + dibN cap p hm) % cap = p % cap := ideal_add_dibN_mod hc p hm
  have h2 : (p - dibN cap p hm + dibN cap p hm) % cap
      = (hm % cap + dibN cap p hm) % cap := by
    rw [Nat.sub_add_cancel hd, h1]
  have h3 := Nat.ModEq.add_right_cancel' _ h2
  unfold Nat.ModEq at h3
  rw [Nat.mod_mod_of_dvd _ dvd_rfl] at h3
  exact h3

theorem succ_pred_mod {len : Nat} (hc : 0 < len) (j : Nat) :
    ((j + len - 1) % len + 1) % len = j % len := by
  rw [Nat.mod_add_mod]
  have h1 : j + len - 1 + 1 = j + len := by omega
  rw [h1, Nat.add_mod_right]

theorem pred_eq_iff_succ {len : Nat} (hc : 1 < len) {m j : Nat} (hj : j < len)
    (h : (j + len - 1) % len = m) : j = (m + 1) % len := by
  have h1 := succ_pred_mod (by omega : 0 < len) j
  rw [h, Nat.mod_eq_of_lt hj] at h1
  exact h1.symm

theorem pred_ne_self {len : Nat} (hc : 1 < len) {m : Nat} (hm : m < len) :
    (m + len - 1) % len ≠ m := by
  intro h
  have h1 := succ_pred_mod (by omega : 0 < len) m
  rw [h, Nat.mod_eq_of_lt hm] at h1
  have h2 : (m + 1) % len = (m + 0) % len := by
    rw [h1, Nat.add_zero, Nat.mod_eq_of_lt hm]
  have h3 := Nat.ModEq.add_left_cancel' m h2
  unfold Nat.ModEq at h3
  rw [Nat.mod_eq_of_lt hc, Nat.zero_mod] at h3
  exact Nat.one_ne_zero h3

/-! ### Updating one bucket and the local invariant -/

/-- Updating bucket `m` preserves the local invariant provided the new
content satisfies its own predecessor constraint (against the old array) and
the successor's constraint is re-established against the new content. -/
theorem localInv_set {bs : Buckets K V} (hc : 0 < bs.length) {m : Nat}
    (hm : m < bs.length) (hloc : localInv bs) (x : Option (Slot K V))
    (hself : ∀ s : Slot K V, x = some s → 0 < dibN bs.length m s.hash →
      ∃ s2, bs.getD ((m + bs.length - 1) % bs.length) none = some s2 ∧
        dibN bs.length m s.hash ≤
          dibN bs.length ((m + bs.length - 1) % bs.length) s2.hash + 1)
    (hsucc : ∀ s2 : Slot K V, (m + 1) % bs.length ≠ m →
      bs.getD ((m + 1) % bs.length) none = some s2 →
      0 < dibN bs.length ((m + 1) % bs.length) s2.hash →
      ∃ s3, x = some s3 ∧ dibN bs.length ((m + 1) % bs.length) s2.hash ≤
        dibN bs.length m s3.hash + 1) :
    localInv (bs.set m x) := by
  have hlen : (bs.set m x).length = bs.length := List.length_set ..
  intro j hj s hs hdib
  rw [hlen] at hj hdib ⊢
  by_cases hlen1 : bs.length = 1
  · have := dibN_lt hc j s.hash
    omega
  have hc2 : 1 < bs.length := by omega
  by_cases hjm : j = m
  · rw [hjm, getD_set_eq bs hm] at hs
    rw [hjm] at hdib ⊢
    obtain ⟨s2, hs2, hineq⟩ := hself s hs hdib
    have hne : m ≠ (m + bs.length - 1) % bs.length := fun hx => pred_ne_self hc2 hm hx.symm
    refine ⟨s2, ?_, hineq⟩
    rw [getD_set_ne bs hne]
    exact hs2
  · rw [getD_set_ne bs (fun hx => hjm hx.symm)] at hs
    by_cases hpm : (j + bs.length - 1) % bs.length = m
    · have hjs : j = (m + 1) % bs.length := pred_eq_iff_succ hc2 hj hpm
      have hsm : (m + 1) % bs.length ≠ m := by rw [← hjs]; exact fun hx => hjm hx
      obtain ⟨s3, hx3, hineq⟩ := hsucc s hsm (by rw [← hjs]; exact hs) (by rw [← hjs]; exact hdib)
      refine ⟨s3, ?_, ?_⟩
      · rw [hpm, getD_set_eq bs hm, hx3]
      · rw [hpm, hjs]
        exact hineq
    · obtain ⟨s2, hs2, hineq⟩ := hloc j hj s hs hdib
      refine ⟨s2, ?_, hineq⟩
      rw [getD_set_ne bs (fun hx => hpm hx.symm)]
      exact hs2

/-! ### Slot multiset under updates -/

theorem slots_decomp {bs : Buckets K V} {m : Nat} (hm : m < bs.length) :
    slots bs = slots (bs.take m) ++ (bs.getD m none).toList ++ slots (bs.drop (m + 1)) := by
  conv_lhs => rw [← List.take_append_drop m bs]
  unfold slots
  rw [List.filterMap_append]
  rw [List.drop_eq_getElem_cons hm]
  have h1 : bs.getD m none = bs[m] := by
    rw [List.getD_eq_getElem?_getD, List.getElem?_eq_getElem hm]
    rfl
  rw [h1]
  cases bs[m] with
  | none => simp [List.filterMap_cons]
  | some s0 => simp [List.filterMap_cons]

theorem slots_set_decomp {bs : Buckets K V} {m : Nat} (hm : m < bs.length)
    (x : Option (Slot K V)) :
    slots (bs.set m x)
      = slots (bs.take m) ++ x.toList ++ slots (bs.drop (m + 1)) := by
  have h0 : slots (bs.set m x) = slots ((bs.set m x).take m)
      ++ ((bs.set m x).getD m none).toList ++ slots ((bs.set m x).drop (m + 1)) :=
    slots_decomp (by rw [List.length_set]; exact hm)
  rw [h0, getD_set_eq bs hm]
  have h1 : (bs.set m x).take m = bs.take m := by
    rw [List.set_take]
    apply List.set_eq_of_length_le
    rw [List.length_take]
    omega
  have h2 : (bs.set m x).drop (m + 1) = bs.drop (m + 1) := by
    rw [List.drop_set, if_pos (by omega)]
  rw [h1, h2]

theorem slots_set_some_of_none {bs : Buckets K V} {m : Nat} (hm : m < bs.length)
    (hempty : bs.getD m none = none) (s : Slot K V) :
    (slots (bs.set m (some s))).Perm (s :: slots bs) := by
  rw [slots_set_decomp hm, slots_decomp hm, hempty]
  simp only [Option.toList_some, Option.toList_none, List.append_nil, List.nil_append]
  have h1 : slots (bs.take m) ++ [s] ++ slots (bs.drop (m + 1))
      = slots (bs.take m) ++ s :: slots (bs.drop (m + 1)) := by
    simp
  rw [h1]
  exact List.perm_middle

theorem slots_set_none_of_some {bs : Buckets K V} {m : Nat} (hm : m < bs.length)
    {s : Slot K V} (hfull : bs.getD m none = some s) :
    (slots bs).Perm (s :: slots (bs.set m none)) := by
  rw [slots_set_decomp hm, slots_decomp hm, hfull]
  simp only [Option.toList_some, Option.toList_none, List.append_nil]
  have h1 : slots (bs.take m) ++ [s] ++ slots (bs.drop (m + 1))
      = slots (bs.take m) ++ s :: slots (bs.drop (m + 1)) := by
    simp
  rw [h1]
  exact List.perm_middle

theorem slots_set_some_of_some {bs : Buckets K V} {m : Nat} (hm : m < bs.length)
    {s0 : Slot K V} (_hfull : bs.getD m none = some s0) (s : Slot K V) :
    (slots (bs.set m (some s))).Perm (s :: slots (bs.set m none)) := by
  rw [slots_set_decomp hm, slots_set_decomp hm]
  simp only [Option.toList_some, Option.toList_none, List.append_nil]
  have h1 : slots (bs.take m) ++ [s] ++ slots (bs.drop (m + 1))
      = slots (bs.take m) ++ s :: slots (bs.drop (m + 1)) := by
    simp
  rw [h1]
  exact List.perm_middle


/-! ### Preservation helpers -/

/-- A run of consecutive full buckets cannot be longer than the number of
full buckets. -/
theorem full_run_bound {bs : Buckets K V} {lo hi : Nat}
    (hcf : countFull bs < bs.length) (hlo : lo ≤ hi)
    (hrun : ∀ x, lo ≤ x → x ≤ hi → (slotAt bs x).isSome = true) :
    hi + 1 - lo ≤ countFull bs := by
  have hlen : 0 < bs.length := by omega
  by_cases hm : hi + 1 - lo ≤ bs.length
  · apply countFull_ge_of_run bs lo hm
    intro t ht
    have := hrun (lo + t) (by omega) (by omega)
    rw [slotAt_def] at this
    exact this
  · exfalso
    have h1 : bs.length ≤ countFull bs := by
      apply countFull_ge_of_run bs lo (Nat.le_refl _)
      intro t ht
      have := hrun (lo + t) (by omega) (by omega)
      rw [slotAt_def] at this
      exact this
    omega

theorem hashesOk_set {hf : K → Nat} {bs : Buckets K V} (hho : hashesOk hf bs)
    (m : Nat) (x : Option (Slot K V))
    (hx : ∀ s : Slot K V, x = some s → s.hash = make_hash hf s.key) :
    hashesOk hf (bs.set m x) := by
  intro j hj s hs
  rw [List.length_set] at hj
  by_cases hjm : m = j
  · subst hjm
    by_cases hmlen : m < bs.length
    · rw [getD_set_eq bs hmlen] at hs
      exact hx s hs
    · omega
  · rw [getD_set_ne bs hjm] at hs
    exact hho j hj s hs

theorem distinctAt_set {hf : K → Nat} {beq : K → K → Bool} (laws : KeyLaws hf beq)
    {bs : Buckets K V} (hda : distinctAt beq bs) (m : Nat) (x : Option (Slot K V))
    (hx : ∀ s : Slot K V, x = some s → ∀ j < bs.length, j ≠ m →
      ∀ sj : Slot K V, bs.getD j none = some sj → beq s.key sj.key = false) :
    distinctAt beq (bs.set m x) := by
  intro i hi j hj hij si sj hsi hsj
  rw [List.length_set] at hi hj
  by_cases him : i = m
  · have hjm : j ≠ m := fun hh => hij (by rw [him, hh])
    rw [him, getD_set_eq bs (by omega : m < bs.length)] at hsi
    rw [getD_set_ne bs (fun hx2 => hjm hx2.symm)] at hsj
    exact hx si hsi j hj hjm sj hsj
  · rw [getD_set_ne bs (fun hx2 => him hx2.symm)] at hsi
    by_cases hjm : j = m
    · rw [hjm, getD_set_eq bs (by omega : m < bs.length)] at hsj
      have h1 := hx sj hsj i hi him si hsi
      by_contra hcon
      rw [Bool.not_eq_false] at hcon
      have h2 := laws.symm _ _ hcon
      rw [h1] at h2
      exact Bool.false_ne_true h2
    · rw [getD_set_ne bs (fun hx2 => hjm hx2.symm)] at hsj
      exact hda i hi j hj hij si sj hsi hsj

theorem notStored_set {beq : K → K → Bool} {bs : Buckets K V} {k : K}
    (hns : notStored beq bs k) (m : Nat) (x : Option (Slot K V))
    (hx : ∀ s : Slot K V, x = some s → beq k s.key = false) :
    notStored beq (bs.set m x) k := by
  intro j hj s hs
  rw [List.length_set] at hj
  by_cases hjm : m = j
  · subst hjm
    by_cases hmlen : m < bs.length
    · rw [getD_set_eq bs hmlen] at hs
      exact hx s hs
    · omega
  · rw [getD_set_ne bs hjm] at hs
    exact hns j hj s hs


theorem slotAt_setSlot (bs : Buckets K V) (hc : 0 < bs.length) (i x : Nat)
    (s : Option (Slot K V)) :
    slotAt (setSlot bs i s) x
      = if x % bs.length = i % bs.length then s else slotAt bs x := by
  by_cases h : x % bs.length = i % bs.length
  · rw [if_pos h]
    unfold slotAt setSlot
    rw [List.length_set, h]
    exact getD_set_eq bs (Nat.mod_lt _ hc) s
  · rw [if_neg h]
    exact slotAt_setSlot_ne bs (fun hx => h hx.symm) s

/-- Correctness of the Robin Hood displacement loop: under the invariant the
loop always reaches an empty bucket strictly before `idx_end` (the assertion
never fires), the local invariant, hash consistency and key distinctness are
preserved, and the loop adds exactly the floating element to the table. -/
theorem rh_go_spec {hf : K → Nat} {beq : K → K → Bool} (laws : KeyLaws hf beq)
    (idx_end lo : Nat) :
    ∀ (fuel : Nat) (bs : Buckets K V) (bidx ib : Nat) (fl : Slot K V),
      bs.length ∣ U64 → (∃ j0, bs.length = 2 ^ j0) →
      countFull bs < bs.length → localInv bs → hashesOk hf bs → distinctAt beq bs →
      fl.hash = make_hash hf fl.key → notStored beq bs fl.key →
      ib % bs.length = fl.hash % bs.length →
      lo ≤ ib → ib ≤ bidx →
      (∀ x, lo ≤ x → x ≤ bidx → (slotAt bs x).isSome = true) →
      lo + countFull bs < idx_end → idx_end ≤ bidx + 1 + fuel →
      (∃ sb, slotAt bs bidx = some sb ∧ bidx - ib ≤ dibN bs.length bidx sb.hash) →
      ∃ bs2, rh_go bs.length idx_end fuel bs bidx ib fl = some bs2 ∧
        bs2.length = bs.length ∧ localInv bs2 ∧ hashesOk hf bs2 ∧
        distinctAt beq bs2 ∧ countFull bs2 = countFull bs + 1 ∧
        (slots bs2).Perm (fl :: slots bs) := by
  intro fuel
  induction fuel with
  | zero =>
    intro bs bidx ib fl hdvd hpow hcf hloc hho hda hflh hfns hibm hloib hibb hrun
      hcount hfuel hres
    exfalso
    have hbound := full_run_bound hcf (hloib.trans hibb) hrun
    omega
  | succ fuel IH =>
    intro bs bidx ib fl hdvd hpow hcf hloc hho hda hflh hfns hibm hloib hibb hrun
      hcount hfuel hres
    have hlen : 0 < bs.length := by omega
    have hlb : lo ≤ bidx := hloib.trans hibb
    have hbound := full_run_bound hcf hlb hrun
    have hblt : bidx + 1 < idx_end := by omega
    have hne : ¬ (bidx + 1 = idx_end) := by omega
    obtain ⟨j0, hj0⟩ := hpow
    have hdib_eq : ∀ idx h, dib bs.length idx h = dibN bs.length idx h :=
      fun idx h => dib_eq_dibN hj0 hdvd idx h
    obtain ⟨sb, hsb, hsbd⟩ := hres
    have hm : (bidx + 1) % bs.length < bs.length := Nat.mod_lt _ hlen
    have hu1 : 1 ≤ bidx + 1 - ib := by omega
    have huc : bidx + 1 - ib < bs.length := by omega
    have hflm : dibN bs.length ((bidx + 1) % bs.length) fl.hash = bidx + 1 - ib := by
      rw [dibN_mod_left]
      have he : bidx + 1 = ib + (bidx + 1 - ib) := by omega
      conv_lhs => rw [he]
      exact dibN_of_run hlen hibm huc
    have hpred_m : ((bidx + 1) % bs.length + bs.length - 1) % bs.length
        = bidx % bs.length := by
      have h9 := @pred_mod bs.length hlen (bidx + 1) (by omega)
      rw [h9]
      have h10 : bidx + 1 - 1 = bidx := by omega
      rw [h10]
    have hsb_getD : bs.getD (bidx % bs.length) none = some sb := hsb
    have hsbd_phys : bidx - ib ≤ dibN bs.length (bidx % bs.length) sb.hash := by
      rw [dibN_mod_left]
      exact hsbd
    cases hslot : slotAt bs (bidx + 1) with
    | none =>
      have hempty : bs.getD ((bidx + 1) % bs.length) none = none := hslot
      refine ⟨setSlot bs (bidx + 1) (some fl), ?_, length_setSlot .., ?_, ?_, ?_, ?_, ?_⟩
      · rw [rh_go]
        simp only [if_neg hne, hslot]
      · show localInv (bs.set ((bidx + 1) % bs.length) (some fl))
        apply localInv_set hlen hm hloc
        · intro s hsfl _
          injection hsfl with hsfl
          refine ⟨sb, by rw [hpred_m]; exact hsb_getD, ?_⟩
          rw [hpred_m, ← hsfl, hflm]
          omega
        · intro s2 _ hs2 hdib2
          exfalso
          obtain ⟨s2p, hs2p, _⟩ :=
            hloc _ (Nat.mod_lt _ hlen) s2 hs2 hdib2
          have harr : (((bidx + 1) % bs.length + 1) % bs.length + bs.length - 1)
              % bs.length = (bidx + 1) % bs.length := by
            have h1 := @pred_mod bs.length hlen
              ((bidx + 1) % bs.length + 1) (by omega)
            rw [h1]
            have h2 : (bidx + 1) % bs.length + 1 - 1 = (bidx + 1) % bs.length := by omega
            rw [h2, Nat.mod_mod_of_dvd _ dvd_rfl]
          rw [harr, hempty] at hs2p
          exact Option.noConfusion hs2p
      · show hashesOk hf (bs.set ((bidx + 1) % bs.length) (some fl))
        apply hashesOk_set hho
        intro s hsfl
        injection hsfl with hsfl
        rw [← hsfl]
        exact hflh
      · show distinctAt beq (bs.set ((bidx + 1) % bs.length) (some fl))
        apply distinctAt_set laws hda
        intro s hsfl j hj hjm sj hsj
        injection hsfl with hsfl
        rw [← hsfl]
        exact hfns j hj sj hsj
      · show countFull (bs.set ((bidx + 1) % bs.length) (some fl)) = countFull bs + 1
        exact countFull_set_some_of_none bs hm hempty fl
      · show (slots (bs.set ((bidx + 1) % bs.length) (some fl))).Perm (fl :: slots bs)
        exact slots_set_some_of_none hm hempty fl
    | some res =>
      have hres_getD : bs.getD ((bidx + 1) % bs.length) none = some res := hslot
      have hdres_lt_len : dibN bs.length (bidx + 1) res.hash < bs.length :=
        dibN_lt hlen _ _
      have hresh : res.hash = make_hash hf res.key := hho _ hm res hres_getD
      by_cases hst : ib < bidx + 1 - dib bs.length (bidx + 1) res.hash
      · -- steal the spot
        rw [hdib_eq] at hst
        have hdres_small : dibN bs.length (bidx + 1) res.hash < bidx + 1 - ib := by
          omega
        set bsp := setSlot bs (bidx + 1) (some fl) with hbsp
        have hlenp : bsp.length = bs.length := length_setSlot ..
        have hcfp : countFull bsp = countFull bs := by
          show countFull (bs.set ((bidx + 1) % bs.length) (some fl)) = countFull bs
          exact countFull_set_some_of_some bs hm hres_getD fl
        have hslotp : ∀ x, slotAt bsp x
            = if x % bs.length = (bidx + 1) % bs.length then some fl
              else slotAt bs x := by
          intro x
          exact slotAt_setSlot bs hlen (bidx + 1) x (some fl)
        have hlocp : localInv bsp := by
          show localInv (bs.set ((bidx + 1) % bs.length) (some fl))
          apply localInv_set hlen hm hloc
          · intro s hsfl _
            injection hsfl with hsfl
            refine ⟨sb, by rw [hpred_m]; exact hsb_getD, ?_⟩
            rw [hpred_m, ← hsfl, hflm]
            omega
          · intro s2 _ hs2 hdib2
            refine ⟨fl, rfl, ?_⟩
            obtain ⟨s2p, hs2p, hineq⟩ := hloc _ (Nat.mod_lt _ hlen) s2 hs2 hdib2
            have harr : (((bidx + 1) % bs.length + 1) % bs.length + bs.length - 1)
                % bs.length = (bidx + 1) % bs.length := by
              have h1 := @pred_mod bs.length hlen
                ((bidx + 1) % bs.length + 1) (by omega)
              rw [h1]
              have h2 : (bidx + 1) % bs.length + 1 - 1 = (bidx + 1) % bs.length := by
                omega
              rw [h2, Nat.mod_mod_of_dvd _ dvd_rfl]
            rw [harr] at hs2p hineq
            rw [hres_getD] at hs2p
            injection hs2p with hs2p
            rw [← hs2p] at hineq
            have hrm : dibN bs.length ((bidx + 1) % bs.length) res.hash
                = dibN bs.length (bidx + 1) res.hash := dibN_mod_left _ _
            rw [hrm] at hineq
            rw [hflm]
            omega
        have hhop : hashesOk hf bsp := by
          show hashesOk hf (bs.set ((bidx + 1) % bs.length) (some fl))
          apply hashesOk_set hho
          intro s hsfl
          injection hsfl with hsfl
          rw [← hsfl]
          exact hflh
        have hdap : distinctAt beq bsp := by
          show distinctAt beq (bs.set ((bidx + 1) % bs.length) (some fl))
          apply distinctAt_set laws hda
          intro s hsfl j hj hjm sj hsj
          injection hsfl with hsfl
          rw [← hsfl]
          exact hfns j hj sj hsj
        have hfnsp : notStored beq bsp res.key := by
          intro j hj s hs
          rw [hlenp] at hj
          have hs2 : (bs.set ((bidx + 1) % bs.length) (some fl)).getD j none = some s := hs
          by_cases hjm : j = (bidx + 1) % bs.length
          · rw [hjm, getD_set_eq bs hm] at hs2
            injection hs2 with hs2
            rw [← hs2]
            have h1 := hfns ((bidx + 1) % bs.length) hm res hres_getD
            by_contra hcon
            rw [Bool.not_eq_false] at hcon
            have h2 := laws.symm _ _ hcon
            rw [h1] at h2
            exact Bool.false_ne_true h2
          · rw [getD_set_ne bs (fun hx => hjm hx.symm)] at hs2
            exact hda ((bidx + 1) % bs.length) hm j hj
              (fun hx => hjm hx.symm) res s hres_getD hs2
        have hibmp : (bidx + 1 - dibN bs.length (bidx + 1) res.hash) % bs.length
            = res.hash % bs.length :=
          sub_dib_mod hlen (by omega)
        have hrunp : ∀ x, lo ≤ x → x ≤ bidx + 1 → (slotAt bsp x).isSome = true := by
          intro x hx1 hx2
          rw [hslotp x]
          by_cases hxm : x % bs.length = (bidx + 1) % bs.length
          · rw [if_pos hxm]; rfl
          · rw [if_neg hxm]
            apply hrun x hx1
            rcases Nat.lt_or_ge x (bidx + 1) with h | h
            · omega
            · exfalso
              have : x = bidx + 1 := by omega
              rw [this] at hxm
              exact hxm rfl
        have hresp : ∃ sbp, slotAt bsp (bidx + 1) = some sbp ∧
            (bidx + 1) - (bidx + 1 - dibN bs.length (bidx + 1) res.hash)
              ≤ dibN bsp.length (bidx + 1) sbp.hash := by
          refine ⟨fl, ?_, ?_⟩
          · rw [hslotp]
            rw [if_pos rfl]
          · rw [hlenp]
            have h1 : dibN bs.length (bidx + 1) fl.hash = bidx + 1 - ib := by
              rw [← dibN_mod_left]
              exact hflm
            rw [h1]
            omega
        have hIH := IH bsp (bidx + 1) (bidx + 1 - dibN bs.length (bidx + 1) res.hash)
          res (by rw [hlenp]; exact hdvd) (by rw [hlenp]; exact ⟨j0, hj0⟩)
          (by rw [hlenp, hcfp]; exact hcf)
          hlocp hhop hdap hresh hfnsp
          (by rw [hlenp]; exact hibmp)
          (by omega) (by omega)
          hrunp
          (by rw [hcfp]; omega)
          (by omega)
          hresp
        obtain ⟨bs2, heq, hlen2, hloc2, hho2, hda2, hcf2, hperm2⟩ := hIH
        rw [hlenp] at heq hlen2
        refine ⟨bs2, ?_, by rw [hlen2], hloc2, hho2, hda2, by rw [hcf2, hcfp], ?_⟩
        · rw [rh_go]
          simp only [if_neg hne, hslot, hdib_eq]
          rw [if_pos hst]
          exact heq
        · have p1 : (slots bsp).Perm (fl :: slots (bs.set ((bidx + 1) % bs.length) none)) :=
            slots_set_some_of_some hm hres_getD fl
          have p2 : (slots bs).Perm (res :: slots (bs.set ((bidx + 1) % bs.length) none)) :=
            slots_set_none_of_some hm hres_getD
          exact hperm2.trans ((p1.cons res).trans
            ((List.Perm.swap fl res _).trans (p2.symm.cons fl)))
      · -- keep probing
        have hdres_ge : bidx + 1 - ib ≤ dibN bs.length (bidx + 1) res.hash := by
          rw [hdib_eq] at hst
          omega
        have hIH := IH bs (bidx + 1) ib fl hdvd ⟨j0, hj0⟩ hcf hloc hho hda hflh hfns
          hibm hloib (by omega)
          (by
            intro x hx1 hx2
            rcases Nat.lt_or_ge x (bidx + 1) with h | h
            · exact hrun x hx1 (by omega)
            · have hxe : x = bidx + 1 := by omega
              rw [hxe, hslot]
              rfl)
          hcount (by omega)
          ⟨res, hslot, hdres_ge⟩
        obtain ⟨bs2, heq, hlen2, hloc2, hho2, hda2, hcf2, hperm2⟩ := hIH
        refine ⟨bs2, ?_, hlen2, hloc2, hho2, hda2, hcf2, hperm2⟩
        rw [rh_go]
        simp only [if_neg hne, hslot, if_neg hst]
        exact heq


/-- Correctness of robin_hood: invoked on a full bucket whose resident is
richer than the incoming element, after an unbroken displacement-free probe
walk from the ideal slot, it inserts the element, preserves well-formedness,
and never hits its assertion. -/
theorem robin_hood_spec {hf : K → Nat} {beq : K → K → Bool} (laws : KeyLaws hf beq)
    {bs : Buckets K V} {idx ib0 : Nat} {h : Nat} {k : K} {v : V} {size : Nat}
    {s : Slot K V}
    (hdvd : bs.length ∣ U64) (hpow : ∃ j0, bs.length = 2 ^ j0)
    (hcf : countFull bs < bs.length) (hloc : localInv bs) (hho : hashesOk hf bs)
    (hda : distinctAt beq bs) (hh : h = make_hash hf k)
    (hns : notStored beq bs k) (hib0 : ib0 = h % bs.length)
    (hsize : size = countFull bs) (hs : slotAt bs idx = some s)
    (hib0idx : ib0 ≤ idx)
    (hwalk : ∀ x, ib0 ≤ x → x < idx → ∃ sx, slotAt bs x = some sx ∧
      x - ib0 ≤ dibN bs.length x sx.hash)
    (hst : ib0 < idx - dibN bs.length idx s.hash) :
    ∃ bs2, robin_hood bs.length bs idx (idx - dib bs.length idx s.hash) h k v size
        = some bs2 ∧
      bs2.length = bs.length ∧ localInv bs2 ∧ hashesOk hf bs2 ∧ distinctAt beq bs2 ∧
      countFull bs2 = countFull bs + 1 ∧
      (slots bs2).Perm (⟨h, k, v⟩ :: slots bs) := by
  have hlen : 0 < bs.length := by omega
  obtain ⟨j0, hj0⟩ := hpow
  have hdib_eq : ∀ idx h, dib bs.length idx h = dibN bs.length idx h :=
    fun idx h => dib_eq_dibN hj0 hdvd idx h
  have hds_idx : dibN bs.length idx s.hash < idx := by omega
  have hrun : ∀ x, ib0 ≤ x → x ≤ idx → (slotAt bs x).isSome = true := by
    intro x hx1 hx2
    rcases Nat.lt_or_ge x idx with hlt | hge
    · obtain ⟨sx, hsx, _⟩ := hwalk x hx1 hlt
      rw [hsx]; rfl
    · have : x = idx := by omega
      rw [this, hs]; rfl
  have hbound := full_run_bound hcf hib0idx hrun
  have hu1 : 1 ≤ idx - ib0 := by omega
  have huc : idx - ib0 < bs.length := by omega
  have hib0m : ib0 % bs.length = h % bs.length := by
    rw [hib0, Nat.mod_mod_of_dvd _ dvd_rfl]
  have hm : idx % bs.length < bs.length := Nat.mod_lt _ hlen
  have hs_getD : bs.getD (idx % bs.length) none = some s := hs
  have hnewm : dibN bs.length (idx % bs.length) (make_hash hf k) = idx - ib0 := by
    rw [dibN_mod_left]
    have he : idx = ib0 + (idx - ib0) := by omega
    conv_lhs => rw [he]
    rw [← hh]
    exact dibN_of_run hlen hib0m huc
  have hpred_m : (idx % bs.length + bs.length - 1) % bs.length
      = (idx - 1) % bs.length := pred_mod hlen (by omega)
  set bsp := setSlot bs idx (some ⟨h, k, v⟩) with hbsp
  have hlenp : bsp.length = bs.length := length_setSlot ..
  have hcfp : countFull bsp = countFull bs := by
    show countFull (bs.set (idx % bs.length) (some ⟨h, k, v⟩)) = countFull bs
    exact countFull_set_some_of_some bs hm hs_getD _
  have hslotp : ∀ x, slotAt bsp x
      = if x % bs.length = idx % bs.length then some ⟨h, k, v⟩ else slotAt bs x :=
    fun x => slotAt_setSlot bs hlen idx x _
  have hresh : s.hash = make_hash hf s.key := hho _ hm s hs_getD
  have hlocp : localInv bsp := by
    show localInv (bs.set (idx % bs.length) (some ⟨h, k, v⟩))
    apply localInv_set hlen hm hloc
    · intro sn hsn hdibn
      injection hsn with hsn
      obtain ⟨sx, hsx, hdx⟩ := hwalk (idx - 1) (by omega) (by omega)
      refine ⟨sx, ?_, ?_⟩
      · rw [hpred_m]
        exact hsx
      · rw [← hsn]
        show dibN bs.length (idx % bs.length) h ≤
          dibN bs.length ((idx % bs.length + bs.length - 1) % bs.length) sx.hash + 1
        rw [hh, hnewm, hpred_m, dibN_mod_left]
        omega
    · intro s2 _ hs2 hdib2
      refine ⟨⟨h, k, v⟩, rfl, ?_⟩
      obtain ⟨s2p, hs2p, hineq⟩ := hloc _ (Nat.mod_lt _ hlen) s2 hs2 hdib2
      have harr : ((idx % bs.length + 1) % bs.length + bs.length - 1)
          % bs.length = idx % bs.length := by
        have h1 := @pred_mod bs.length hlen
          (idx % bs.length + 1) (by omega)
        rw [h1]
        have h2 : idx % bs.length + 1 - 1 = idx % bs.length := by omega
        rw [h2, Nat.mod_mod_of_dvd _ dvd_rfl]
      rw [harr] at hs2p hineq
      rw [hs_getD] at hs2p
      injection hs2p with hs2p
      rw [← hs2p] at hineq
      have hrm : dibN bs.length (idx % bs.length) s.hash
          = dibN bs.length idx s.hash := dibN_mod_left _ _
      rw [hrm] at hineq
      show dibN bs.length ((idx % bs.length + 1) % bs.length) s2.hash ≤
        dibN bs.length (idx % bs.length) h + 1
      rw [hh, hnewm]
      omega
  have hhop : hashesOk hf bsp := by
    show hashesOk hf (bs.set (idx % bs.length) (some ⟨h, k, v⟩))
    apply hashesOk_set hho
    intro sn hsn
    injection hsn with hsn
    rw [← hsn, hh]
  have hdap : distinctAt beq bsp := by
    show distinctAt beq (bs.set (idx % bs.length) (some ⟨h, k, v⟩))
    apply distinctAt_set laws hda
    intro sn hsn j hj hjm sj hsj
    injection hsn with hsn
    rw [← hsn]
    exact hns j hj sj hsj
  have hfnsp : notStored beq bsp s.key := by
    intro j hj sn hsn
    rw [hlenp] at hj
    have hsn2 : (bs.set (idx % bs.length) (some ⟨h, k, v⟩)).getD j none = some sn := hsn
    by_cases hjm : j = idx % bs.length
    · rw [hjm, getD_set_eq bs hm] at hsn2
      injection hsn2 with hsn2
      rw [← hsn2]
      have h1 := hns (idx % bs.length) hm s hs_getD
      by_contra hcon
      rw [Bool.not_eq_false] at hcon
      have h2 := laws.symm _ _ hcon
      rw [h1] at h2
      exact Bool.false_ne_true h2
    · rw [getD_set_ne bs (fun hx => hjm hx.symm)] at hsn2
      exact hda (idx % bs.length) hm j hj (fun hx => hjm hx.symm) s sn hs_getD hsn2
  have hibmp : (idx - dibN bs.length idx s.hash) % bs.length
      = s.hash % bs.length := sub_dib_mod hlen (by omega)
  have hrunp : ∀ x, ib0 ≤ x → x ≤ idx → (slotAt bsp x).isSome = true := by
    intro x hx1 hx2
    rw [hslotp x]
    by_cases hxm : x % bs.length = idx % bs.length
    · rw [if_pos hxm]; rfl
    · rw [if_neg hxm]
      exact hrun x hx1 hx2
  have hIH := rh_go_spec laws (idx + size - dibN bs.length idx s.hash) ib0
    (idx + size - dibN bs.length idx s.hash - idx) bsp idx
    (idx - dibN bs.length idx s.hash) s
    (by rw [hlenp]; exact hdvd) (by rw [hlenp]; exact ⟨j0, hj0⟩)
    (by rw [hlenp, hcfp]; exact hcf)
    hlocp hhop hdap hresh hfnsp
    (by rw [hlenp]; exact hibmp)
    (by omega) (by omega)
    hrunp
    (by rw [hcfp]; omega)
    (by omega)
    (by
      refine ⟨⟨h, k, v⟩, ?_, ?_⟩
      · rw [hslotp]
        rw [if_pos rfl]
      · rw [hlenp]
        show idx - (idx - dibN bs.length idx s.hash) ≤ dibN bs.length idx h
        rw [hh]
        conv_rhs => rw [← dibN_mod_left]
        rw [hnewm]
        omega)
  obtain ⟨bs2, heq, hlen2, hloc2, hho2, hda2, hcf2, hperm2⟩ := hIH
  rw [hlenp] at heq hlen2
  refine ⟨bs2, ?_, by rw [hlen2], hloc2, hho2, hda2, by rw [hcf2, hcfp], ?_⟩
  · unfold robin_hood
    rw [hs]
    simp only [hdib_eq]
    exact heq
  · have p1 : (slots bsp).Perm
        ((⟨h, k, v⟩ : Slot K V) :: slots (bs.set (idx % bs.length) none)) :=
      slots_set_some_of_some hm hs_getD _
    have p2 : (slots bs).Perm (s :: slots (bs.set (idx % bs.length) none)) :=
      slots_set_none_of_some hm hs_getD
    exact hperm2.trans ((p1.cons s).trans
      ((List.Perm.swap _ s _).trans (p2.symm.cons _)))


/-- Correctness of the insert probe loop when the key is absent: starting on a
displacement-free full run from the ideal bucket, it inserts the new element
into a fresh slot (directly or by Robin Hood displacement), returns `none` as
the previous value, preserves well-formedness, and never hits the assertion. -/
theorem ins_loop_absent {hf : K → Nat} {beq : K → K → Bool} (laws : KeyLaws hf beq)
    (h : Nat) (k : K) (v : V) (ib size : Nat) :
    ∀ fuel (bs : Buckets K V) idx, bs.length ∣ U64 → (∃ j0, bs.length = 2 ^ j0) →
      countFull bs < bs.length → localInv bs → hashesOk hf bs → distinctAt beq bs →
      h = make_hash hf k → notStored beq bs k →
      ib = h % bs.length → size = countFull bs → ib ≤ idx →
      (∀ x, ib ≤ x → x < idx → ∃ sx, slotAt bs x = some sx ∧
        x - ib ≤ dibN bs.length x sx.hash) →
      ib + size + 1 ≤ idx + fuel →
      ∃ bs2, ins_loop beq bs.length h k v ib size fuel bs idx = some (bs2, none) ∧
        bs2.length = bs.length ∧ localInv bs2 ∧ hashesOk hf bs2 ∧
        distinctAt beq bs2 ∧ countFull bs2 = countFull bs + 1 ∧
        (slots bs2).Perm (⟨h, k, v⟩ :: slots bs) := by
  intro fuel
  induction fuel with
  | zero =>
    intro bs idx hdvd hpow hcf hloc hho hda hh hns hib hsize hibidx hwalk hfuel
    exfalso
    have hidx1 : ib + 1 ≤ idx := by omega
    have hrun : ∀ x, ib ≤ x → x ≤ idx - 1 → (slotAt bs x).isSome = true := by
      intro x hx1 hx2
      obtain ⟨sx, hsx, _⟩ := hwalk x hx1 (by omega)
      rw [hsx]; rfl
    have := full_run_bound hcf (by omega : ib ≤ idx - 1) hrun
    omega
  | succ fuel IH =>
    intro bs idx hdvd hpow hcf hloc hho hda hh hns hib hsize hibidx hwalk hfuel
    have hlen : 0 < bs.length := by omega
    obtain ⟨j0, hj0⟩ := hpow
    have hdib_eq : ∀ idx h, dib bs.length idx h = dibN bs.length idx h :=
      fun idx h => dib_eq_dibN hj0 hdvd idx h
    have hibm : ib % bs.length = h % bs.length := by
      rw [hib, Nat.mod_mod_of_dvd _ dvd_rfl]
    have hm : idx % bs.length < bs.length := Nat.mod_lt _ hlen
    cases hslot : slotAt bs idx with
    | none =>
      have hs_getD : bs.getD (idx % bs.length) none = none := hslot
      have hu_lt : idx - ib < bs.length := by
        by_contra hge
        have hrun : ∀ x, ib ≤ x → x ≤ ib + bs.length - 1 →
            (slotAt bs x).isSome = true := by
          intro x hx1 hx2
          obtain ⟨sx, hsx, _⟩ := hwalk x hx1 (by omega)
          rw [hsx]; rfl
        have := full_run_bound hcf (by omega : ib ≤ ib + bs.length - 1) hrun
        omega
      have hnewm : dibN bs.length (idx % bs.length) h = idx - ib := by
        rw [dibN_mod_left]
        have he : idx = ib + (idx - ib) := by omega
        conv_lhs => rw [he]
        exact dibN_of_run hlen hibm hu_lt
      refine ⟨setSlot bs idx (some ⟨h, k, v⟩), ?_, length_setSlot .., ?_, ?_, ?_, ?_, ?_⟩
      · rw [ins_loop]
        rw [hslot]
      · show localInv (bs.set (idx % bs.length) (some ⟨h, k, v⟩))
        apply localInv_set hlen hm hloc
        · intro sn hsn hdibn
          injection hsn with hsn
          rw [← hsn] at hdibn ⊢
          have hdn : dibN bs.length (idx % bs.length) (Slot.mk h k v).hash
              = idx - ib := hnewm
          rw [hdn] at hdibn ⊢
          obtain ⟨sx, hsx, hdx⟩ := hwalk (idx - 1) (by omega) (by omega)
          have hpm : (idx % bs.length + bs.length - 1) % bs.length
              = (idx - 1) % bs.length := pred_mod hlen (by omega)
          refine ⟨sx, ?_, ?_⟩
          · rw [hpm]; exact hsx
          · rw [hpm, dibN_mod_left]
            omega
        · intro s2 _ hs2 hdib2
          exfalso
          obtain ⟨s2p, hs2p, _⟩ := hloc _ (Nat.mod_lt _ hlen) s2 hs2 hdib2
          have harr : ((idx % bs.length + 1) % bs.length + bs.length - 1)
              % bs.length = idx % bs.length := by
            have h1 := @pred_mod bs.length hlen
              (idx % bs.length + 1) (by omega)
            rw [h1]
            have h2 : idx % bs.length + 1 - 1 = idx % bs.length := by omega
            rw [h2, Nat.mod_mod_of_dvd _ dvd_rfl]
          rw [harr, hs_getD] at hs2p
          exact Option.noConfusion hs2p
      · show hashesOk hf (bs.set (idx % bs.length) (some ⟨h, k, v⟩))
        apply hashesOk_set hho
        intro sn hsn
        injection hsn with hsn
        rw [← hsn, hh]
      · show distinctAt beq (bs.set (idx % bs.length) (some ⟨h, k, v⟩))
        apply distinctAt_set laws hda
        intro sn hsn j hj hjm sj hsj
        injection hsn with hsn
        rw [← hsn]
        exact hns j hj sj hsj
      · show countFull (bs.set (idx % bs.length) (some ⟨h, k, v⟩))
          = countFull bs + 1
        exact countFull_set_some_of_none bs hm hs_getD _
      · show (slots (bs.set (idx % bs.length) (some ⟨h, k, v⟩))).Perm _
        exact slots_set_some_of_none hm hs_getD _
    | some s =>
      have hs_getD : bs.getD (idx % bs.length) none = some s := hslot
      have hkne : beq k s.key = false := hns _ hm s hs_getD
      have hcond : (s.hash == h && beq k s.key) = false := by
        rw [hkne, Bool.and_false]
      by_cases hsteal : ib < idx - dibN bs.length idx s.hash
      · obtain ⟨bs2, heq, hl2, hloc2, hho2, hda2, hcf2, hperm2⟩ :=
          robin_hood_spec laws hdvd ⟨j0, hj0⟩ hcf hloc hho hda hh hns hib hsize
            hslot hibidx hwalk hsteal
        refine ⟨bs2, ?_, hl2, hloc2, hho2, hda2, hcf2, hperm2⟩
        rw [ins_loop]
        rw [hslot]
        simp only [hcond, Bool.false_eq_true, if_false, hdib_eq]
        rw [if_pos hsteal, hdib_eq] at *
        rw [heq]
        rfl
      · have hrun : ∀ x, ib ≤ x → x ≤ idx → (slotAt bs x).isSome = true := by
          intro x hx1 hx2
          rcases Nat.lt_or_ge x idx with hlt | hge
          · obtain ⟨sx, hsx, _⟩ := hwalk x hx1 hlt
            rw [hsx]; rfl
          · have : x = idx := by omega
            rw [this, hslot]; rfl
        have hbound := full_run_bound hcf hibidx hrun
        have hne2 : ¬ (idx + 1 = ib + size + 1) := by omega
        have hstep := IH bs (idx + 1) hdvd ⟨j0, hj0⟩ hcf hloc hho hda hh hns hib
          hsize (by omega)
          (by
            intro x hx1 hx2
            rcases Nat.lt_or_ge x idx with hlt | hge
            · exact hwalk x hx1 hlt
            · have hxe : x = idx := by omega
              refine ⟨s, by rw [hxe]; exact hslot, ?_⟩
              rw [hxe]
              omega)
          (by omega)
        obtain ⟨bs2, heq, hl2, hloc2, hho2, hda2, hcf2, hperm2⟩ := hstep
        refine ⟨bs2, ?_, hl2, hloc2, hho2, hda2, hcf2, hperm2⟩
        rw [ins_loop]
        rw [hslot]
        simp only [hcond, Bool.false_eq_true, if_false, hdib_eq]
        rw [if_neg hsteal, if_neg hne2]
        exact heq


/-- Correctness of the insert probe loop when the key is present at bucket `q`:
the loop walks the probe chain, finds the match, replaces only the value while
keeping the stored hash and key, and returns the previous value. -/
theorem ins_loop_found {hf : K → Nat} {beq : K → K → Bool} (laws : KeyLaws hf beq)
    {h : Nat} {k : K} (v : V) {ib size : Nat} {bs : Buckets K V}
    (hloc : localInv bs) (hho : hashesOk hf bs)
    (hda : distinctAt beq bs) (hpow : ∃ j0, bs.length = 2 ^ j0)
    (hdvd : bs.length ∣ U64)
    (hh : h = make_hash hf k) (hib : ib = h % bs.length)
    (hsize : size = countFull bs)
    {q : Nat} (hq : q < bs.length) {sq : Slot K V}
    (hsq : bs.getD q none = some sq) (hbeq : beq k sq.key = true) :
    ∀ fuel t, t ≤ dibN bs.length q h → dibN bs.length q h - t < fuel →
      ins_loop beq bs.length h k v ib size fuel bs (ib + t)
        = some (bs.set q (some ⟨sq.hash, sq.key, v⟩), some sq.val) := by
  have hc : 0 < bs.length := by omega
  obtain ⟨j0, hj0⟩ := hpow
  have hdib_eq : ∀ idx h, dib bs.length idx h = dibN bs.length idx h :=
    fun idx h => dib_eq_dibN hj0 hdvd idx h
  have hsqh : sq.hash = h := by
    rw [hho q hq sq hsq, ← make_hash_congr laws hbeq, ← hh]
  have hqpos : (h % bs.length + dibN bs.length q h) % bs.length = q := by
    have h1 := chain_pos hc hq h (Nat.le_refl (dibN bs.length q h))
    rw [Nat.sub_self] at h1
    rw [← h1, Nat.sub_zero, Nat.add_mod_right, Nat.mod_eq_of_lt hq]
  have hdlt : dibN bs.length q h < bs.length := dibN_lt hc q h
  intro fuel
  induction fuel with
  | zero =>
    intro t ht hfuel
    omega
  | succ fuel IH =>
    intro t ht hfuel
    have hchain := chain_back hc hloc hq hsq (dibN bs.length q sq.hash - t)
      (Nat.sub_le _ _)
    rw [hsqh] at hchain
    rw [chain_pos hc hq h ht] at hchain
    obtain ⟨st, hst, hdst⟩ := hchain
    have hdst2 : t ≤ dibN bs.length ((h % bs.length + t) % bs.length) st.hash := by
      omega
    have hidxm : (ib + t) % bs.length = (h % bs.length + t) % bs.length := by
      rw [hib]
    have hslot : slotAt bs (ib + t) = some st := by
      show bs.getD ((ib + t) % bs.length) none = some st
      rw [hidxm]
      exact hst
    rw [ins_loop]
    rw [hslot]
    by_cases hteq : t = dibN bs.length q h
    · have hstq : st = sq := by
        have h1 : bs.getD q none = some st := by
          rw [← hqpos, ← hteq]
          exact hst
        rw [hsq] at h1
        exact (Option.some.inj h1).symm
      have hcondT : (st.hash == h && beq k st.key) = true := by
        rw [hstq, hsqh, hbeq]
        simp
      simp only [hcondT, if_true]
      rw [hstq]
      show some (bs.set ((ib + t) % bs.length) (some ⟨sq.hash, sq.key, v⟩),
        some sq.val) = _
      rw [hidxm, hteq, hqpos]
    · have htlt : t < dibN bs.length q h := by omega
      have hkne : beq k st.key = false := by
        by_contra hcon
        rw [Bool.not_eq_false] at hcon
        have hpne : (h % bs.length + t) % bs.length ≠ q := by
          intro hcontra
          rw [← hqpos] at hcontra
          have h2 : t % bs.length = dibN bs.length q h % bs.length :=
            Nat.ModEq.add_left_cancel' _ hcontra
          rw [Nat.mod_eq_of_lt (by omega), Nat.mod_eq_of_lt hdlt] at h2
          omega
        have hdiff := hda _ (Nat.mod_lt _ hc) q hq hpne st sq hst hsq
        have h1 := laws.trans _ _ _ (laws.symm _ _ hcon) hbeq
        rw [hdiff] at h1
        exact Bool.false_ne_true h1
      have hcond : (st.hash == h && beq k st.key) = false := by
        rw [hkne, Bool.and_false]
      have hge : t ≤ dibN bs.length (ib + t) st.hash := by
        rw [← dibN_mod_left, hidxm]
        exact hdst2
      have hnosteal : ¬ (ib < ib + t - dibN bs.length (ib + t) st.hash) := by
        omega
      have hrun : ∀ u < dibN bs.length q h + 1,
          ((bs.getD ((h % bs.length + u) % bs.length) none).isSome = true) := by
        intro u hu
        have hchain2 := chain_back hc hloc hq hsq (dibN bs.length q sq.hash - u)
          (Nat.sub_le _ _)
        rw [hsqh] at hchain2
        rw [chain_pos hc hq h (by omega)] at hchain2
        obtain ⟨s2, hs2, _⟩ := hchain2
        rw [hs2]
        rfl
      have hcnt : dibN bs.length q h + 1 ≤ countFull bs :=
        countFull_ge_of_run bs (h % bs.length) (by omega) hrun
      have hne2 : ¬ (ib + t + 1 = ib + size + 1) := by omega
      simp only [hcond, Bool.false_eq_true, if_false, hdib_eq]
      rw [if_neg hnosteal, if_neg hne2]
      have harr : ib + t + 1 = ib + (t + 1) := by omega
      rw [harr]
      exact IH (t + 1) (by omega) (by omega)


/-- A full bucket heads a fully occupied probe chain back to its ideal bucket,
so its displacement is strictly below the number of full buckets. -/
theorem countFull_dib_bound {bs : Buckets K V} (hc : 0 < bs.length)
    (hloc : localInv bs) {q : Nat} (hq : q < bs.length) {sq : Slot K V}
    (hsq : bs.getD q none = some sq) :
    dibN bs.length q sq.hash + 1 ≤ countFull bs := by
  have hrun : ∀ u < dibN bs.length q sq.hash + 1,
      ((bs.getD ((sq.hash % bs.length + u) % bs.length) none).isSome = true) := by
    intro u hu
    have hchain := chain_back hc hloc hq hsq (dibN bs.length q sq.hash - u)
      (Nat.sub_le _ _)
    rw [chain_pos hc hq sq.hash (by omega)] at hchain
    obtain ⟨s2, hs2, _⟩ := hchain
    rw [hs2]
    rfl
  exact countFull_ge_of_run bs (sq.hash % bs.length)
    (by have := dibN_lt hc q sq.hash; omega) hrun

/-- insert_or_replace on an absent key: a fresh slot is filled, `none` is
returned as the previous value, the tracked size is bumped and well-formedness
of the bucket array is preserved. -/
theorem insert_or_replace_absent {hf : K → Nat} {beq : K → K → Bool}
    (laws : KeyLaws hf beq) {t : Table K V} (w : WFb hf beq t.buckets)
    (hsize : t.size = countFull t.buckets)
    (hroom : countFull t.buckets < t.buckets.length)
    {h : Nat} {k : K} (v : V) (hh : h = make_hash hf k)
    (hns : notStored beq t.buckets k) :
    ∃ bs2, insert_or_replace beq t h k v = some (⟨bs2, t.size + 1⟩, none) ∧
      bs2.length = t.buckets.length ∧ WFb hf beq bs2 ∧
      countFull bs2 = countFull t.buckets + 1 ∧
      (slots bs2).Perm (⟨h, k, v⟩ :: slots t.buckets) := by
  obtain ⟨j, hj⟩ := w.cap_pow2
  have hc : 0 < t.buckets.length := w.cap_pos
  have hib : ideal t.capacity h = h % t.buckets.length := ideal_eq_mod hj h
  obtain ⟨bs2, heq, hl, hloc2, hho2, hda2, hcf2, hperm⟩ :=
    ins_loop_absent laws h k v (ideal t.capacity h) t.size (t.size + 1) t.buckets
      (ideal t.capacity h) w.cap_dvd_u64 ⟨j, hj⟩ hroom w.local_inv w.hashes_ok
      w.distinct hh hns hib hsize (Nat.le_refl _)
      (by intro x hx1 hx2; omega) (by omega)
  refine ⟨bs2, ?_, hl,
    ⟨by rw [hl]; exact w.cap_dvd, by rw [hl]; exact hc, hho2, hloc2, hda2⟩,
    hcf2, hperm⟩
  unfold insert_or_replace
  rw [show Table.capacity t = List.length t.buckets from rfl] at heq ⊢
  rw [heq]
  rfl

/-- insert_or_replace on a present key: only the stored value is replaced (the
stored hash tag and key object are kept), the previous value is returned, and
the tracked size is unchanged. -/
theorem insert_or_replace_found {hf : K → Nat} {beq : K → K → Bool}
    (laws : KeyLaws hf beq) {t : Table K V} (w : WFb hf beq t.buckets)
    (hsize : t.size = countFull t.buckets)
    {h : Nat} {k : K} (v : V) (hh : h = make_hash hf k)
    {q : Nat} (hq : q < t.buckets.length) {sq : Slot K V}
    (hsq : t.buckets.getD q none = some sq) (hbeq : beq k sq.key = true) :
    insert_or_replace beq t h k v
      = some (⟨t.buckets.set q (some ⟨sq.hash, sq.key, v⟩), t.size⟩, some sq.val) ∧
    WFb hf beq (t.buckets.set q (some ⟨sq.hash, sq.key, v⟩)) ∧
    countFull (t.buckets.set q (some ⟨sq.hash, sq.key, v⟩)) = countFull t.buckets ∧
    (slots (t.buckets.set q (some ⟨sq.hash, sq.key, v⟩))).Perm
      ((⟨sq.hash, sq.key, v⟩ : Slot K V) :: slots (t.buckets.set q none)) ∧
    (slots t.buckets).Perm (sq :: slots (t.buckets.set q none)) := by
  obtain ⟨j, hj⟩ := w.cap_pow2
  have hc : 0 < t.buckets.length := w.cap_pos
  have hib : ideal t.capacity h = h % t.buckets.length := ideal_eq_mod hj h
  have hsqh : sq.hash = h := by
    rw [w.hashes_ok q hq sq hsq, ← make_hash_congr laws hbeq, ← hh]
  have hdbound := countFull_dib_bound hc w.local_inv hq hsq
  have hcfle := @countFull_le K V t.buckets
  have hfound := ins_loop_found laws v
    w.local_inv w.hashes_ok w.distinct ⟨j, hj⟩ w.cap_dvd_u64 hh hib hsize hq hsq
    hbeq (t.size + 1) 0 (Nat.zero_le _)
    (by rw [← hsqh]; omega)
  simp only [Nat.add_zero] at hfound
  refine ⟨?_, ?_, countFull_set_some_of_some t.buckets hq hsq _, ?_, ?_⟩
  · unfold insert_or_replace
    rw [show Table.capacity t = List.length t.buckets from rfl] at hfound ⊢
    rw [hfound]
    rfl
  · refine ⟨by rw [List.length_set]; exact w.cap_dvd,
      by rw [List.length_set]; exact hc, ?_, ?_, ?_⟩
    · apply hashesOk_set w.hashes_ok
      intro sn hsn
      injection hsn with hsn
      rw [← hsn]
      exact w.hashes_ok q hq sq hsq
    · apply localInv_set hc hq w.local_inv
      · intro sn hsn hd
        injection hsn with hsn
        rw [← hsn] at hd ⊢
        exact w.local_inv q hq sq hsq hd
      · intro s2 _ hs2 hd2
        obtain ⟨s2p, hs2p, hle⟩ := w.local_inv _ (Nat.mod_lt _ hc) s2 hs2 hd2
        have harr : ((q + 1) % t.buckets.length + t.buckets.length - 1)
            % t.buckets.length = q := by
          have h1 := @pred_mod t.buckets.length hc (q + 1) (by omega)
          rw [h1]
          have h2 : q + 1 - 1 = q := by omega
          rw [h2, Nat.mod_eq_of_lt hq]
        rw [harr] at hs2p hle
        rw [hsq] at hs2p
        injection hs2p with hs2p
        rw [← hs2p] at hle
        exact ⟨⟨sq.hash, sq.key, v⟩, rfl, hle⟩
    · apply distinctAt_set laws w.distinct
      intro sn hsn j2 hj2 hj2q sj hsj
      injection hsn with hsn
      rw [← hsn]
      exact w.distinct q hq j2 hj2 (fun hx => hj2q hx.symm) sq sj hsq hsj
  · exact slots_set_some_of_some hq hsq _
  · exact slots_set_none_of_some hq hsq


/-! ### Helpers for the resize proof -/

theorem slotAt_congr (bs : Buckets K V) {x y : Nat}
    (h : x % bs.length = y % bs.length) : slotAt bs x = slotAt bs y := by
  unfold slotAt
  rw [h]

theorem band_div {c t z : Nat} (h1 : t * c ≤ z) (h2 : z < (t + 1) * c) :
    z / c = t := Nat.div_eq_of_lt_le h1 h2

theorem add_mod_ne {c : Nat} (b : Nat) {u u' : Nat} (hu : u < c) (hu' : u' < c)
    (hne : u ≠ u') : (b + u) % c ≠ (b + u') % c := by
  intro hcon
  have h2 : u % c = u' % c := Nat.ModEq.add_left_cancel' _ hcon
  rw [Nat.mod_eq_of_lt hu, Nat.mod_eq_of_lt hu'] at h2
  exact hne h2

theorem virt_unique {n b x y : Nat} (hx1 : b ≤ x) (hx2 : x < b + n)
    (hy1 : b ≤ y) (hy2 : y < b + n) (hmod : x % n = y % n) : x = y := by
  have hn : 0 < n := by omega
  rcases Nat.le_total x y with hle | hle
  · have hd : n ∣ y - x := (Nat.modEq_iff_dvd' hle).mp hmod
    have hz : y - x = 0 := Nat.eq_zero_of_dvd_of_lt hd (by omega)
    omega
  · have hd : n ∣ x - y := (Nat.modEq_iff_dvd' hle).mp hmod.symm
    have hz : x - y = 0 := Nat.eq_zero_of_dvd_of_lt hd (by omega)
    omega

theorem exists_full_of_countFull_pos {bs : Buckets K V} (h : 0 < countFull bs) :
    ∃ j, j < bs.length ∧ ∃ s, bs.getD j none = some s := by
  rw [countFull, Finset.card_pos] at h
  obtain ⟨j, hj⟩ := h
  rw [Finset.mem_filter, Finset.mem_range] at hj
  refine ⟨j, hj.1, ?_⟩
  cases hs : bs.getD j none with
  | none => rw [hs] at hj; simp at hj
  | some s => exact ⟨s, rfl⟩

theorem exists_empty_of_countFull_lt {bs : Buckets K V}
    (h : countFull bs < bs.length) : ∃ e, e < bs.length ∧ bs.getD e none = none := by
  by_contra hcon
  push_neg at hcon
  have hall : ∀ j ∈ Finset.range bs.length, (bs.getD j none).isSome = true := by
    intro j hj
    rw [Finset.mem_range] at hj
    cases hs : bs.getD j none with
    | none => exact absurd hs (hcon j hj)
    | some s => rfl
  have : countFull bs = bs.length := by
    rw [countFull, Finset.filter_true_of_mem hall, Finset.card_range]
  omega

theorem countFull_zero_slots {bs : Buckets K V} (h : countFull bs = 0) :
    slots bs = [] := by
  rw [countFull, Finset.card_eq_zero] at h
  rw [slots, List.filterMap_eq_nil]
  intro a ha
  rw [List.mem_iff_getElem?] at ha
  obtain ⟨j, hj⟩ := ha
  have hjlen : j < bs.length := by
    by_contra hge
    rw [List.getElem?_eq_none (by omega)] at hj
    exact Option.noConfusion hj
  have hmem : j ∉ (Finset.range bs.length).filter
      fun j => (bs.getD j none).isSome = true := by
    rw [h]
    exact Finset.not_mem_empty j
  rw [Finset.mem_filter, Finset.mem_range] at hmem
  push_neg at hmem
  have hgd : bs.getD j none = a := by
    rw [List.getD_eq_getElem?_getD, hj]
    rfl
  cases a with
  | none => rfl
  | some s =>
    exfalso
    have := hmem hjlen
    rw [hgd] at this
    simp at this

theorem slots_replicate_none (n : Nat) :
    slots (List.replicate n (none : Option (Slot K V))) = [] := by
  rw [slots, List.filterMap_eq_nil]
  intro a ha
  rw [List.eq_of_mem_replicate ha]
  rfl


/-- The cluster-skipping loop returns the first index whose bucket is full and
undisplaced. -/
theorem skip_loop_finds (bs : Buckets K V) :
    ∀ fuel idx u, u < fuel →
      (∀ u' < u, ∀ s, slotAt bs (idx + u') = some s →
        dib bs.length (idx + u') s.hash ≠ 0) →
      (∃ s, slotAt bs (idx + u) = some s ∧ dib bs.length (idx + u) s.hash = 0) →
      skip_loop bs fuel idx = some (idx + u) := by
  intro fuel
  induction fuel with
  | zero => omega
  | succ fuel IH =>
    intro idx u hu hfail hgood
    cases u with
    | zero =>
      obtain ⟨s, hs, hd⟩ := hgood
      rw [Nat.add_zero] at hs hd
      rw [skip_loop, hs]
      show (if dib bs.length idx s.hash = 0 then some idx
        else skip_loop bs fuel (idx + 1)) = some (idx + 0)
      rw [if_pos hd, Nat.add_zero]
    | succ u =>
      rw [skip_loop]
      have hrec : skip_loop bs fuel (idx + 1) = some (idx + 1 + u) := by
        apply IH (idx + 1) u (by omega)
        · intro u' hu' s hs
          have h1 : idx + 1 + u' = idx + (1 + u') := by omega
          rw [h1] at hs ⊢
          exact hfail (1 + u') (by omega) s hs
        · obtain ⟨s, hs, hd⟩ := hgood
          have h1 : idx + 1 + u = idx + (1 + u) := by omega
          have h2 : idx + (u + 1) = idx + (1 + u) := by omega
          rw [h2] at hs hd
          rw [h1]
          exact ⟨s, hs, hd⟩
      cases hslot : slotAt bs idx with
      | none =>
        show skip_loop bs fuel (idx + 1) = some (idx + (u + 1))
        rw [show idx + (u + 1) = idx + 1 + u from by omega]
        exact hrec
      | some s =>
        have hne := hfail 0 (by omega) s (by rw [Nat.add_zero]; exact hslot)
        rw [Nat.add_zero] at hne
        show (if dib bs.length idx s.hash = 0 then some idx
          else skip_loop bs fuel (idx + 1)) = some (idx + (u + 1))
        rw [if_neg hne, show idx + (u + 1) = idx + 1 + u from by omega]
        exact hrec

/-- A non-empty, non-full, locally-invariant bucket array has a cluster head:
a full bucket sitting at its ideal index. -/
theorem exists_head {bs : Buckets K V} (hc : 0 < bs.length)
    (hfull : 0 < countFull bs) (hlt : countFull bs < bs.length)
    (hloc : localInv bs) :
    ∃ b, b < bs.length ∧ ∃ s, bs.getD b none = some s ∧
      dibN bs.length b s.hash = 0 := by
  obtain ⟨e, he, hemp⟩ := exists_empty_of_countFull_lt hlt
  obtain ⟨f, hf, sf, hsf⟩ := exists_full_of_countFull_pos hfull
  have hfe : f ≠ e := by
    intro hcon
    rw [hcon, hemp] at hsf
    exact Option.noConfusion hsf
  have hex : ∃ u, 0 < u ∧ (bs.getD ((e + u) % bs.length) none).isSome = true := by
    refine ⟨(f + bs.length - e) % bs.length, ?_, ?_⟩
    · rcases Nat.eq_zero_or_pos ((f + bs.length - e) % bs.length) with h0 | h0
      · exfalso
        have hd : bs.length ∣ f + bs.length - e := Nat.dvd_of_mod_eq_zero h0
        have hlt2 : f + bs.length - e < 2 * bs.length := by omega
        rcases hd with ⟨q, hq⟩
        rcases Nat.eq_zero_or_pos q with h0 | h0
        · rw [h0, Nat.mul_zero] at hq
          omega
        have h2 : bs.length * 1 ≤ bs.length * q := Nat.mul_le_mul_left _ h0
        have h3 : q < 2 := by
          by_contra hq2
          push_neg at hq2
          have h4 : bs.length * 2 ≤ bs.length * q := Nat.mul_le_mul_left _ hq2
          omega
        have hqe : q = 1 := by omega
        rw [hqe, Nat.mul_one] at hq
        have : f = e := by omega
        exact hfe this
      · exact h0
    · have h1 : (e + (f + bs.length - e) % bs.length) % bs.length = f := by
        rw [Nat.add_mod, Nat.mod_mod_of_dvd _ dvd_rfl, ← Nat.add_mod]
        have h2 : e + (f + bs.length - e) = f + bs.length := by omega
        rw [h2, Nat.add_mod_right, Nat.mod_eq_of_lt hf]
      rw [h1, hsf]
      rfl
  have hP : DecidablePred fun u =>
      0 < u ∧ (bs.getD ((e + u) % bs.length) none).isSome = true := by
    intro u
    infer_instance
  let us := Nat.find hex
  have hspec := Nat.find_spec hex
  have hmin : ∀ m < us, ¬ (0 < m ∧ (bs.getD ((e + m) % bs.length) none).isSome
      = true) := fun m hm => Nat.find_min hex hm
  obtain ⟨hus_pos, hus_full⟩ := hspec
  set b := (e + us) % bs.length with hbdef
  have hb : b < bs.length := Nat.mod_lt _ hc
  cases hsb : bs.getD b none with
  | none =>
    rw [hsb] at hus_full
    exact absurd hus_full (by simp)
  | some s =>
    refine ⟨b, hb, s, hsb, ?_⟩
    by_contra hdib
    have hdib2 : 0 < dibN bs.length b s.hash := by omega
    obtain ⟨s2, hs2, _⟩ := hloc b hb s hsb hdib2
    have hpred : (b + bs.length - 1) % bs.length = (e + (us - 1)) % bs.length := by
      rw [hbdef]
      have h1 := @pred_mod bs.length hc (e + us) (by omega)
      rw [h1]
      have h2 : e + us - 1 = e + (us - 1) := by omega
      rw [h2]
    rw [hpred] at hs2
    rcases Nat.eq_zero_or_pos (us - 1) with h0 | h0
    · rw [h0, Nat.add_zero, Nat.mod_eq_of_lt he, hemp] at hs2
      exact Option.noConfusion hs2
    · have := hmin (us - 1) (by omega)
      push_neg at this
      have h3 := this h0
      rw [hs2] at h3
      simp at h3

/-- Along a cluster starting at an undisplaced bucket, every displacement is
bounded by the offset from the cluster head. -/
theorem run_dib_bound {bs : Buckets K V} (hc : 0 < bs.length) (hloc : localInv bs)
    {b : Nat} (hb : b < bs.length) {sb : Slot K V}
    (hsb : bs.getD b none = some sb) (hdb : dibN bs.length b sb.hash = 0) :
    ∀ u, ∀ s, slotAt bs (b + u) = some s → dibN bs.length (b + u) s.hash ≤ u := by
  intro u
  induction u with
  | zero =>
    intro s hs
    have h1 : slotAt bs (b + 0) = bs.getD b none := by
      show bs.getD ((b + 0) % bs.length) none = _
      rw [Nat.add_zero, Nat.mod_eq_of_lt hb]
    rw [h1, hsb] at hs
    injection hs with hs
    rw [← hs, Nat.add_zero, hdb]
  | succ u IH =>
    intro s hs
    rw [← dibN_mod_left]
    by_cases hd : 0 < dibN bs.length ((b + (u + 1)) % bs.length) s.hash
    · obtain ⟨s2, hs2, hle⟩ := hloc _ (Nat.mod_lt _ hc) s hs hd
      have hpred : ((b + (u + 1)) % bs.length + bs.length - 1) % bs.length
          = (b + u) % bs.length := by
        have h1 := @pred_mod bs.length hc (b + (u + 1)) (by omega)
        rw [h1]
        have h2 : b + (u + 1) - 1 = b + u := by omega
        rw [h2]
      rw [hpred] at hs2 hle
      have hIH := IH s2 hs2
      rw [← dibN_mod_left] at hIH
      omega
    · omega

/-- Along a cluster starting at an undisplaced bucket, the (unwrapped) ideal
indices of the residents are monotone in the probe order. -/
theorem run_p_mono {bs : Buckets K V} (hc : 0 < bs.length) (hloc : localInv bs)
    {b : Nat} (hb : b < bs.length) {sb : Slot K V}
    (hsb : bs.getD b none = some sb) (hdb : dibN bs.length b sb.hash = 0) :
    ∀ u', ∀ u ≤ u', ∀ s s', slotAt bs (b + u) = some s →
      slotAt bs (b + u') = some s' →
      (b + u) - dibN bs.length (b + u) s.hash ≤
        (b + u') - dibN bs.length (b + u') s'.hash := by
  intro u'
  induction u' with
  | zero =>
    intro u hu s s' hs hs'
    have hu0 : u = 0 := by omega
    rw [hu0] at hs
    rw [hs'] at hs
    injection hs with hs
    rw [hu0, hs]
  | succ u' IH =>
    intro u hu s s' hs hs'
    by_cases heq : u = u' + 1
    · rw [heq] at hs
      rw [hs'] at hs
      injection hs with hs
      rw [heq, hs]
    · have hu2 : u ≤ u' := by omega
      have hdb' : dibN bs.length (b + (u' + 1)) s'.hash ≤ u' + 1 :=
        run_dib_bound hc hloc hb hsb hdb (u' + 1) s' hs'
      have hdbu : dibN bs.length (b + u) s.hash ≤ u :=
        run_dib_bound hc hloc hb hsb hdb u s hs
      cases hsp : slotAt bs (b + u') with
      | some s2 =>
        have hdb2 : dibN bs.length (b + u') s2.hash ≤ u' :=
          run_dib_bound hc hloc hb hsb hdb u' s2 hsp
        have hIH := IH u hu2 s s2 hs hsp
        by_cases hd : 0 < dibN bs.length ((b + (u' + 1)) % bs.length) s'.hash
        · obtain ⟨s2', hs2', hle⟩ := hloc _ (Nat.mod_lt _ hc) s' hs' hd
          have hpred : ((b + (u' + 1)) % bs.length + bs.length - 1) % bs.length
              = (b + u') % bs.length := by
            have h1 := @pred_mod bs.length hc (b + (u' + 1)) (by omega)
            rw [h1]
            have h2 : b + (u' + 1) - 1 = b + u' := by omega
            rw [h2]
          rw [hpred] at hs2' hle
          have hs2e : s2' = s2 := by
            have h5 : slotAt bs (b + u') = some s2' := hs2'
            rw [hsp] at h5
            exact (Option.some.inj h5).symm
          have hleU : dibN bs.length (b + (u' + 1)) s'.hash ≤
              dibN bs.length (b + u') s2.hash + 1 := by
            rw [← @dibN_mod_left bs.length (b + (u' + 1)) s'.hash,
              ← @dibN_mod_left bs.length (b + u') s2.hash, ← hs2e]
            exact hle
          omega
        · have hC : dibN bs.length (b + (u' + 1)) s'.hash = 0 := by
            rw [← @dibN_mod_left bs.length (b + (u' + 1)) s'.hash]
            omega
          omega
      | none =>
        by_cases hd : 0 < dibN bs.length ((b + (u' + 1)) % bs.length) s'.hash
        · exfalso
          obtain ⟨s2', hs2', _⟩ := hloc _ (Nat.mod_lt _ hc) s' hs' hd
          have hpred : ((b + (u' + 1)) % bs.length + bs.length - 1) % bs.length
              = (b + u') % bs.length := by
            have h1 := @pred_mod bs.length hc (b + (u' + 1)) (by omega)
            rw [h1]
            have h2 : b + (u' + 1) - 1 = b + u' := by omega
            rw [h2]
          rw [hpred] at hs2'
          have : slotAt bs (b + u') = some s2' := hs2'
          rw [hsp] at this
          exact Option.noConfusion this
        · have hC : dibN bs.length (b + (u' + 1)) s'.hash = 0 := by
            rw [← @dibN_mod_left bs.length (b + (u' + 1)) s'.hash]
            omega
          omega

/-- The ordered-insert walk lands on the first empty bucket at or after the
ideal index. -/
theorem iho_loop_spec (bs : Buckets K V) (h : Nat) (k : K) (v : V) :
    ∀ fuel start j, j < fuel →
      (∀ u < j, (slotAt bs (start + u)).isSome = true) →
      slotAt bs (start + j) = none →
      iho_loop bs h k v fuel start
        = some (setSlot bs (start + j) (some ⟨h, k, v⟩)) := by
  intro fuel
  induction fuel with
  | zero => omega
  | succ fuel IH =>
    intro start j hj hfullpre hfree
    cases j with
    | zero =>
      rw [Nat.add_zero] at hfree
      rw [iho_loop, hfree]
      show some (setSlot bs start (some ⟨h, k, v⟩))
        = some (setSlot bs (start + 0) (some ⟨h, k, v⟩))
      rw [Nat.add_zero]
    | succ j =>
      have h0 := hfullpre 0 (by omega)
      rw [Nat.add_zero] at h0
      cases hslot : slotAt bs start with
      | none => rw [hslot] at h0; exact absurd h0 (by simp)
      | some s =>
        rw [iho_loop, hslot]
        have hrec := IH (start + 1) j (by omega)
          (by
            intro u hu
            have h1 : start + 1 + u = start + (1 + u) := by omega
            rw [h1]
            exact hfullpre (1 + u) (by omega))
          (by
            have h1 : start + 1 + j = start + (j + 1) := by omega
            rw [h1]
            exact hfree)
        rw [hrec]
        have h1 : start + 1 + j = start + (j + 1) := by omega
        rw [h1]


theorem slotAt_set (bs : Buckets K V) {m : Nat} (hm : m < bs.length)
    (x : Option (Slot K V)) (y : Nat) :
    slotAt (bs.set m x) y = if y % bs.length = m then x else slotAt bs y := by
  show (bs.set m x).getD (y % (bs.set m x).length) none = _
  rw [List.length_set]
  by_cases h : y % bs.length = m
  · rw [if_pos h, h, getD_set_eq bs hm]
  · rw [if_neg h, getD_set_ne bs (fun hx => h hx.symm)]
    rfl

theorem mult_lt_bound {c n t : Nat} (hc : 0 < c) (hdvd : c ∣ n) (h : t * c < n) :
    t * c ≤ n - c := by
  obtain ⟨m, hm⟩ := hdvd
  have hmc : n = m * c := by rw [hm, Nat.mul_comm]
  have htm : t < m := by
    by_contra hge
    push_neg at hge
    have h2 : m * c ≤ t * c := Nat.mul_le_mul_right _ hge
    omega
  have h3 : t * c ≤ (m - 1) * c := Nat.mul_le_mul_right _ (by omega)
  have h4 : (m - 1) * c = m * c - c := by
    cases m with
    | zero => omega
    | succ m0 => simp [Nat.succ_sub_one, Nat.succ_mul]
  omega

/-- One step of the resize fast path: inserting the next element of the old
cluster walk into the new table by the displacement-free ordered insert keeps
the new table well formed and advances the band frontiers. -/
theorem move_step {hf : K → Nat} {beq : K → K → Bool} (laws : KeyLaws hf beq)
    {c n b : Nat} (hcpos : 0 < c) (hbc : b < c) (hcn : c ≤ n) (hcdvd : c ∣ n)
    {jn : Nat} (hjn : n = 2 ^ jn)
    {nt : Table K V} {idx pmax : Nat} {s : Slot K V}
    (hlen_nt : nt.buckets.length = n)
    (hloc_nt : localInv nt.buckets) (hho_nt : hashesOk hf nt.buckets)
    (hda_nt : distinctAt beq nt.buckets) (hsz_nt : nt.size = countFull nt.buckets)
    (hA2 : ∀ x, b ≤ x → x < b + n → ∀ sx : Slot K V, slotAt nt.buckets x = some sx →
      x < idx + ((x - b) / c) * c)
    (hC : ∀ x, b ≤ x → x < b + n → ∀ sx : Slot K V, slotAt nt.buckets x = some sx →
      x ≤ pmax + ((x - b) / c) * c + dibN n x sx.hash)
    (hb_idx : b ≤ idx) (hidxlt : idx < b + c)
    (hsh : s.hash = make_hash hf s.key)
    (hdib_s : dibN c idx s.hash ≤ idx - b)
    (hpmax_p : pmax ≤ idx - dibN c idx s.hash)
    (hkey : ∀ sx ∈ slots nt.buckets, beq sx.key s.key = false) :
    ∃ bs2, insert_hashed_ordered nt s.hash s.key s.val = some ⟨bs2, nt.size + 1⟩ ∧
      bs2.length = n ∧ localInv bs2 ∧ hashesOk hf bs2 ∧ distinctAt beq bs2 ∧
      countFull bs2 = countFull nt.buckets + 1 ∧
      (slots bs2).Perm (s :: slots nt.buckets) ∧
      (∀ x, b ≤ x → x < b + n → ∀ sx : Slot K V, slotAt bs2 x = some sx →
        x < (idx + 1) + ((x - b) / c) * c) ∧
      (∀ x, b ≤ x → x < b + n → ∀ sx : Slot K V, slotAt bs2 x = some sx →
        x ≤ (idx - dibN c idx s.hash) + ((x - b) / c) * c + dibN n x sx.hash) := by
  have hnpos : 0 < n := by omega
  set p := idx - dibN c idx s.hash with hpdef
  have hpb : b ≤ p := by omega
  have hpidx : p ≤ idx := by omega
  have hmod_pc : p % c = s.hash % c := sub_dib_mod hcpos (by omega)
  set P := if s.hash % n < b then s.hash % n + n else s.hash % n with hPdef
  have hsn : s.hash % n < n := Nat.mod_lt _ hnpos
  have hPmod : P % n = s.hash % n := by
    rw [hPdef]
    by_cases hx : s.hash % n < b
    · rw [if_pos hx, Nat.add_mod_right, Nat.mod_mod_of_dvd _ dvd_rfl]
    · rw [if_neg hx, Nat.mod_mod_of_dvd _ dvd_rfl]
  have hPb : b ≤ P := by
    rw [hPdef]
    by_cases hx : s.hash % n < b
    · rw [if_pos hx]; omega
    · rw [if_neg hx]; omega
  have hPn : P < b + n := by
    rw [hPdef]
    by_cases hx : s.hash % n < b
    · rw [if_pos hx]; omega
    · rw [if_neg hx]; omega
  have hPc : P % c = p % c := by
    have h1 : P % n % c = s.hash % n % c := by rw [hPmod]
    rw [Nat.mod_mod_of_dvd _ hcdvd, Nat.mod_mod_of_dvd _ hcdvd] at h1
    rw [h1, hmod_pc]
  have hPgep : p ≤ P := by
    by_contra hlt
    push_neg at hlt
    have hd : c ∣ p - P := (Nat.modEq_iff_dvd' (by omega)).mp hPc
    have hz : p - P = 0 := Nat.eq_zero_of_dvd_of_lt hd (by omega)
    omega
  obtain ⟨tb0, htb0⟩ := (Nat.modEq_iff_dvd' hPgep).mp hPc.symm
  have htb : P - p = tb0 * c := by rw [htb0]; exact Nat.mul_comm c tb0
  have hPeq : P = p + tb0 * c := by omega
  have htbc_lt : tb0 * c < n := by omega
  have htbc_le : tb0 * c ≤ n - c := mult_lt_bound hcpos hcdvd htbc_lt
  have hsucc_mul : (tb0 + 1) * c = tb0 * c + c := Nat.succ_mul tb0 c
  have hfreeslot : slotAt nt.buckets (idx + tb0 * c) = none := by
    cases hx : slotAt nt.buckets (idx + tb0 * c) with
    | none => rfl
    | some sx =>
      exfalso
      have hdiv : (idx + tb0 * c - b) / c = tb0 := by
        apply band_div
        · omega
        · omega
      have h2 := hA2 (idx + tb0 * c) (by omega) (by omega) sx hx
      rw [hdiv] at h2
      omega
  have hex : ∃ j, (slotAt nt.buckets (P + j)).isSome = false := by
    refine ⟨idx + tb0 * c - P, ?_⟩
    have h1 : P + (idx + tb0 * c - P) = idx + tb0 * c := by omega
    rw [h1, hfreeslot]
    rfl
  have hjfree : slotAt nt.buckets (P + Nat.find hex) = none := by
    have h1 := Nat.find_spec hex
    cases hx : slotAt nt.buckets (P + Nat.find hex) with
    | none => rfl
    | some sx => rw [hx] at h1; exact absurd h1 (by simp)
  have hjle : Nat.find hex ≤ idx + tb0 * c - P := Nat.find_le (by
    have h1 : P + (idx + tb0 * c - P) = idx + tb0 * c := by omega
    rw [h1, hfreeslot]
    rfl)
  set jm := Nat.find hex with hjmdef
  have hjmin : ∀ j' < jm, (slotAt nt.buckets (P + j')).isSome = true := by
    intro j' hj'
    have h1 := Nat.find_min hex hj'
    rw [Bool.not_eq_false] at h1
    exact h1
  have hjmc : jm < c := by omega
  have hVb : b ≤ P + jm := by omega
  have hVn : P + jm < b + n := by omega
  have hVdiv : (P + jm - b) / c = tb0 := by
    apply band_div
    · omega
    · omega
  have hdibV : dibN n (P + jm) s.hash = jm :=
    dibN_of_run hnpos (by rw [hPmod]) (by omega)
  have hstart : ∀ u, slotAt nt.buckets (s.hash % n + u)
      = slotAt nt.buckets (P + u) := by
    intro u
    apply slotAt_congr
    rw [hlen_nt]
    conv_lhs => rw [← hPmod]
    exact Nat.mod_add_mod _ _ _
  have hiho := iho_loop_spec nt.buckets s.hash s.key s.val n (s.hash % n) jm
    (by omega)
    (by
      intro u hu
      rw [hstart u]
      exact hjmin u hu)
    (by rw [hstart jm]; exact hjfree)
  have hmV : (P + jm) % n < nt.buckets.length := by
    rw [hlen_nt]
    exact Nat.mod_lt _ hnpos
  have hgetV : nt.buckets.getD ((P + jm) % n) none = none := by
    rw [← hlen_nt]
    exact hjfree
  have hns2 : setSlot nt.buckets (s.hash % n + jm) (some ⟨s.hash, s.key, s.val⟩)
      = nt.buckets.set ((P + jm) % n) (some s) := by
    show nt.buckets.set ((s.hash % n + jm) % nt.buckets.length)
      (some ⟨s.hash, s.key, s.val⟩) = _
    rw [hlen_nt]
    have h1 : (s.hash % n + jm) % n = (P + jm) % n := by
      conv_lhs => rw [← hPmod]
      exact Nat.mod_add_mod _ _ _
    rw [h1]
  set bs2 := nt.buckets.set ((P + jm) % n) (some s) with hbs2
  have hins : insert_hashed_ordered nt s.hash s.key s.val
      = some ⟨bs2, nt.size + 1⟩ := by
    unfold insert_hashed_ordered
    rw [show Table.capacity nt = nt.buckets.length from rfl, hlen_nt,
      ideal_eq_mod hjn, hiho, hns2]
    rfl
  have hlen2 : bs2.length = n := by
    rw [hbs2, List.length_set, hlen_nt]
  have hslot2 : ∀ y, slotAt bs2 y
      = if y % n = (P + jm) % n then some s else slotAt nt.buckets y := by
    intro y
    rw [hbs2, slotAt_set nt.buckets hmV (some s) y, hlen_nt]
  have hself_slot : slotAt bs2 (P + jm) = some s := by
    rw [hslot2, if_pos rfl]
  have hVuniq : ∀ x, b ≤ x → x < b + n → x % n = (P + jm) % n → x = P + jm := by
    intro x hx1 hx2 hx3
    exact virt_unique hx1 hx2 hVb hVn hx3
  have hloc2 : localInv bs2 := by
    rw [hbs2]
    apply localInv_set (by omega : 0 < nt.buckets.length) hmV hloc_nt
    · intro sn hsn hdibn
      injection hsn with hsn
      rw [← hsn] at hdibn ⊢
      rw [hlen_nt] at hdibn ⊢
      have hdm : dibN n ((P + jm) % n) s.hash = jm := by
        rw [dibN_mod_left]
        exact hdibV
      rw [hdm] at hdibn ⊢
      have hpredpos : 1 ≤ P + jm := by omega
      have hpred : ((P + jm) % n + n - 1) % n = (P + (jm - 1)) % n := by
        have h1 := @pred_mod n hnpos (P + jm) hpredpos
        rw [h1]
        have h2 : P + jm - 1 = P + (jm - 1) := by omega
        rw [h2]
      obtain ⟨sp, hsp⟩ : ∃ sp, slotAt nt.buckets (P + (jm - 1)) = some sp := by
        have h1 := hjmin (jm - 1) (by omega)
        cases hx : slotAt nt.buckets (P + (jm - 1)) with
        | none => rw [hx] at h1; exact absurd h1 (by simp)
        | some sx => exact ⟨sx, rfl⟩
      refine ⟨sp, ?_, ?_⟩
      · rw [hpred]
        rw [← hlen_nt]
        exact hsp
      · rw [hpred]
        have hdp : dibN n ((P + (jm - 1)) % n) sp.hash
            = dibN n (P + (jm - 1)) sp.hash := dibN_mod_left _ _
        rw [hdp]
        have hCx := hC (P + (jm - 1)) (by omega) (by omega) sp hsp
        have hdivx : (P + (jm - 1) - b) / c = tb0 := by
          apply band_div
          · omega
          · omega
        rw [hdivx] at hCx
        omega
    · intro s2 hne hs2 hd2
      exfalso
      obtain ⟨s2p, hs2p, _⟩ := hloc_nt _ (Nat.mod_lt _ (by omega)) s2 hs2 hd2
      have harr : (((P + jm) % n + 1) % nt.buckets.length
          + nt.buckets.length - 1) % nt.buckets.length = (P + jm) % n := by
        have h1 := @pred_mod nt.buckets.length (by omega) ((P + jm) % n + 1)
          (by omega)
        rw [h1]
        have h2 : (P + jm) % n + 1 - 1 = (P + jm) % n := by omega
        rw [h2, hlen_nt, Nat.mod_mod_of_dvd _ dvd_rfl]
      rw [harr] at hs2p
      rw [hgetV] at hs2p
      exact Option.noConfusion hs2p
  have hho2 : hashesOk hf bs2 := by
    rw [hbs2]
    apply hashesOk_set hho_nt
    intro sn hsn
    injection hsn with hsn
    rw [← hsn]
    exact hsh
  have hda2 : distinctAt beq bs2 := by
    rw [hbs2]
    apply distinctAt_set laws hda_nt
    intro sn hsn j hj hjm2 sj hsj
    injection hsn with hsn
    rw [← hsn]
    have hsjmem : sj ∈ slots nt.buckets := by
      rw [mem_slots_getD]
      exact ⟨j, hj, hsj⟩
    have h1 := hkey sj hsjmem
    by_contra hcon
    rw [Bool.not_eq_false] at hcon
    have h2 := laws.symm _ _ hcon
    rw [h1] at h2
    exact Bool.false_ne_true h2
  have hcf2 : countFull bs2 = countFull nt.buckets + 1 := by
    rw [hbs2]
    exact countFull_set_some_of_none nt.buckets hmV hgetV _
  have hperm2 : (slots bs2).Perm (s :: slots nt.buckets) := by
    rw [hbs2]
    exact slots_set_some_of_none hmV hgetV s
  refine ⟨bs2, hins, hlen2, hloc2, hho2, hda2, hcf2, hperm2, ?_, ?_⟩
  · intro x hx1 hx2 sx hsx
    rw [hslot2] at hsx
    by_cases hxe : x % n = (P + jm) % n
    · rw [if_pos hxe] at hsx
      have hxV : x = P + jm := hVuniq x hx1 hx2 hxe
      rw [hxV, hVdiv]
      omega
    · rw [if_neg hxe] at hsx
      have h1 := hA2 x hx1 hx2 sx hsx
      omega
  · intro x hx1 hx2 sx hsx
    rw [hslot2] at hsx
    by_cases hxe : x % n = (P + jm) % n
    · rw [if_pos hxe] at hsx
      injection hsx with hsx
      have hxV : x = P + jm := hVuniq x hx1 hx2 hxe
      rw [hxV, hVdiv, ← hsx, hdibV]
      omega
    · rw [if_neg hxe] at hsx
      have h1 := hC x hx1 hx2 sx hsx
      omega


/-- Correctness of the reinsertion loop of resize: visiting the old table from
the cluster head in probe order and ordered-inserting every remaining element
yields a well-formed new table holding exactly those elements. -/
theorem move_loop_spec {hf : K → Nat} {beq : K → K → Bool} (laws : KeyLaws hf beq)
    (c n b : Nat) (hcpos : 0 < c) (hbc : b < c) (hcn : c ≤ n) (hcdvd : c ∣ n)
    {jn : Nat} (hjn : n = 2 ^ jn) :
    ∀ fuel (obs : Buckets K V) (osz : Nat) (nt : Table K V) (idx pmax : Nat),
      obs.length = c →
      hashesOk hf obs →
      (∀ u, ∀ s : Slot K V, slotAt obs (b + u) = some s →
        dibN c (b + u) s.hash ≤ u) →
      (∀ u', ∀ u, u ≤ u' → ∀ s s' : Slot K V, slotAt obs (b + u) = some s →
        slotAt obs (b + u') = some s' →
        (b + u) - dibN c (b + u) s.hash ≤ (b + u') - dibN c (b + u') s'.hash) →
      (∀ x, b ≤ x → x < idx → slotAt obs x = none) →
      osz = countFull obs → 0 < osz →
      b ≤ idx → b + c ≤ idx + fuel →
      (∀ u, idx ≤ b + u → u < c → ∀ s : Slot K V, slotAt obs (b + u) = some s →
        pmax ≤ (b + u) - dibN c (b + u) s.hash) →
      nt.buckets.length = n →
      localInv nt.buckets → hashesOk hf nt.buckets → distinctAt beq nt.buckets →
      nt.size = countFull nt.buckets →
      (∀ x, b ≤ x → x < b + n → ∀ sx : Slot K V, slotAt nt.buckets x = some sx →
        x < idx + ((x - b) / c) * c) →
      (∀ x, b ≤ x → x < b + n → ∀ sx : Slot K V, slotAt nt.buckets x = some sx →
        x ≤ pmax + ((x - b) / c) * c + dibN n x sx.hash) →
      DistinctKeys beq (slots nt.buckets ++ slots obs) →
      ∃ nt2, move_loop fuel obs osz nt idx = some nt2 ∧
        nt2.buckets.length = n ∧ localInv nt2.buckets ∧ hashesOk hf nt2.buckets ∧
        distinctAt beq nt2.buckets ∧ nt2.size = countFull nt2.buckets ∧
        countFull nt2.buckets = countFull nt.buckets + osz ∧
        (slots nt2.buckets).Perm (slots nt.buckets ++ slots obs) := by
  intro fuel
  induction fuel with
  | zero =>
    intro obs osz nt idx pmax hlen_obs hho_obs hdibo hmono hclear hosz hoszpos
      hbidx hfuel hpmax hlen_nt hloc_nt hho_nt hda_nt hsz_nt hA2 hC hDK
    exfalso
    obtain ⟨j, hj, sj, hsj⟩ := exists_full_of_countFull_pos
      (show 0 < countFull obs from by omega)
    rw [hlen_obs] at hj
    have hx : ∃ x, b ≤ x ∧ x < b + c ∧ x % c = j := by
      rcases Nat.lt_or_ge j b with hlt | hge
      · exact ⟨j + c, by omega, by omega,
          by rw [Nat.add_mod_right, Nat.mod_eq_of_lt (by omega)]⟩
      · exact ⟨j, hge, by omega, Nat.mod_eq_of_lt (by omega)⟩
    obtain ⟨x, hx1, hx2, hx3⟩ := hx
    have hcl := hclear x hx1 (by omega)
    have hcl2 : obs.getD j none = none := by
      have h5 : slotAt obs x = obs.getD j none := by
        show obs.getD (x % obs.length) none = _
        rw [hlen_obs, hx3]
      rw [← h5, hcl]
    rw [hcl2] at hsj
    exact Option.noConfusion hsj
  | succ fuel IH =>
    intro obs osz nt idx pmax hlen_obs hho_obs hdibo hmono hclear hosz hoszpos
      hbidx hfuel hpmax hlen_nt hloc_nt hho_nt hda_nt hsz_nt hA2 hC hDK
    cases hslot : slotAt obs idx with
    | none =>
      have hrec := IH obs osz nt (idx + 1) pmax hlen_obs hho_obs hdibo hmono
        (by
          intro x hx1 hx2
          rcases Nat.lt_or_ge x idx with hlt | hge
          · exact hclear x hx1 hlt
          · have hxe : x = idx := by omega
            rw [hxe]
            exact hslot)
        hosz hoszpos (by omega) (by omega)
        (by
          intro u hu huc s hs
          exact hpmax u (by omega) huc s hs)
        hlen_nt hloc_nt hho_nt hda_nt hsz_nt
        (by
          intro x hx1 hx2 sx hsx
          have h1 := hA2 x hx1 hx2 sx hsx
          omega)
        hC hDK
      obtain ⟨nt2, heq, hrest⟩ := hrec
      refine ⟨nt2, ?_, hrest⟩
      rw [move_loop, hslot]
      exact heq
    | some s =>
      have hidxlt : idx < b + c := by
        by_contra hge
        push_neg at hge
        have hx : ∃ x, b ≤ x ∧ x < b + c ∧ x % c = idx % c := by
          rcases Nat.lt_or_ge (idx % c) b with hlt | hge2
          · refine ⟨idx % c + c, by omega, ?_,
              by rw [Nat.add_mod_right, Nat.mod_mod_of_dvd _ dvd_rfl]⟩
            have h6 := Nat.mod_lt idx hcpos
            omega
          · refine ⟨idx % c, hge2, ?_, Nat.mod_mod_of_dvd _ dvd_rfl⟩
            have h6 := Nat.mod_lt idx hcpos
            omega
        obtain ⟨x, hx1, hx2, hx3⟩ := hx
        have hcl := hclear x hx1 (by omega)
        have h7 : slotAt obs idx = none := by
          rw [← hcl]
          apply slotAt_congr
          rw [hlen_obs, hx3]
        rw [hslot] at h7
        exact Option.noConfusion h7
      have hidxeq : idx = b + (idx - b) := by omega
      have hdib_s : dibN c idx s.hash ≤ idx - b := by
        have h1 := hdibo (idx - b) s (by rw [← hidxeq]; exact hslot)
        rw [← hidxeq] at h1
        exact h1
      have hsh : s.hash = make_hash hf s.key := by
        have h1 : obs.getD (idx % c) none = some s := by
          rw [← hlen_obs]
          exact hslot
        exact hho_obs (idx % c) (by rw [hlen_obs]; exact Nat.mod_lt _ hcpos) s h1
      have hpmax_p : pmax ≤ idx - dibN c idx s.hash := by
        have h1 := hpmax (idx - b) (by omega) (by omega) s
          (by rw [← hidxeq]; exact hslot)
        rw [← hidxeq] at h1
        omega
      have hsmem : s ∈ slots obs := by
        rw [mem_slots_getD]
        exact ⟨idx % c, by rw [hlen_obs]; exact Nat.mod_lt _ hcpos,
          by rw [← hlen_obs]; exact hslot⟩
      have hkey : ∀ sx ∈ slots nt.buckets, beq sx.key s.key = false := by
        intro sx hsx
        exact (List.pairwise_append.mp hDK).2.2 sx hsx s hsmem
      obtain ⟨bs2, hins, hlen2, hloc2, hho2, hda2, hcf2, hperm2, hA2n, hCn⟩ :=
        move_step laws hcpos hbc hcn hcdvd hjn hlen_nt hloc_nt hho_nt hda_nt
          hsz_nt hA2 hC hbidx hidxlt hsh hdib_s hpmax_p hkey
      have hidxm : idx % obs.length < obs.length := Nat.mod_lt _ (by omega)
      have hgetidx : obs.getD (idx % obs.length) none = some s := hslot
      have hobs2len : (setSlot obs idx none).length = c := by
        show (obs.set (idx % obs.length) none).length = c
        rw [List.length_set, hlen_obs]
      have hslot_obs2 : ∀ y, slotAt (setSlot obs idx none) y
          = if y % c = idx % c then none else slotAt obs y := by
        intro y
        show slotAt (obs.set (idx % obs.length) none) y = _
        rw [slotAt_set obs hidxm none y, hlen_obs]
      have hcount_obs2 : countFull (setSlot obs idx none) + 1 = countFull obs := by
        show countFull (obs.set (idx % obs.length) none) + 1 = countFull obs
        exact countFull_set_none_of_some obs hidxm hgetidx
      have hperm_obs : (slots obs).Perm (s :: slots (setSlot obs idx none)) := by
        show (slots obs).Perm (s :: slots (obs.set (idx % obs.length) none))
        exact slots_set_none_of_some hidxm hgetidx
      by_cases hstop : osz - 1 = 0
      · have hosz1 : osz = 1 := by omega
        have hcf_obs2 : countFull (setSlot obs idx none) = 0 := by omega
        have hslots_obs2 : slots (setSlot obs idx none) = [] :=
          countFull_zero_slots hcf_obs2
        rw [hslots_obs2] at hperm_obs
        refine ⟨⟨bs2, nt.size + 1⟩, ?_, hlen2, hloc2, hho2, hda2, ?_, ?_, ?_⟩
        · rw [move_loop, hslot]
          show (insert_hashed_ordered nt s.hash s.key s.val).bind (fun y =>
            let o2 := setSlot obs idx none
            if osz - 1 = 0 then some y
            else move_loop fuel o2 (osz - 1) y (idx + 1)) = _
          rw [hins, Option.some_bind]
          show (if osz - 1 = 0 then some (⟨bs2, nt.size + 1⟩ : Table K V)
            else move_loop fuel (setSlot obs idx none) (osz - 1)
              ⟨bs2, nt.size + 1⟩ (idx + 1)) = _
          rw [if_pos hstop]
        · show nt.size + 1 = countFull bs2
          omega
        · show countFull bs2 = countFull nt.buckets + osz
          omega
        · show (slots bs2).Perm (slots nt.buckets ++ slots obs)
          have p3 : (slots nt.buckets ++ slots obs).Perm
              (slots nt.buckets ++ [s]) := List.Perm.append_left _ hperm_obs
          have p4 := List.perm_append_singleton s (slots nt.buckets)
          exact hperm2.trans (p4.symm.trans p3.symm)
      · have hclear2 : ∀ x, b ≤ x → x < idx + 1 →
            slotAt (setSlot obs idx none) x = none := by
          intro x hx1 hx2
          rw [hslot_obs2]
          by_cases hxc : x % c = idx % c
          · rw [if_pos hxc]
          · rw [if_neg hxc]
            apply hclear x hx1
            rcases Nat.lt_or_ge x idx with h | h
            · exact h
            · exfalso
              apply hxc
              have hxe : x = idx := by omega
              rw [hxe]
        have htrans : ∀ y (sy : Slot K V),
            slotAt (setSlot obs idx none) y = some sy → slotAt obs y = some sy := by
          intro y sy hy
          rw [hslot_obs2] at hy
          by_cases hxc : y % c = idx % c
          · rw [if_pos hxc] at hy
            exact Option.noConfusion hy
          · rw [if_neg hxc] at hy
            exact hy
        have hq1 : (slots nt.buckets ++ slots obs).Perm
            (s :: (slots nt.buckets ++ slots (setSlot obs idx none))) :=
          (List.Perm.append_left _ hperm_obs).trans List.perm_middle
        have hq3 : (slots bs2 ++ slots (setSlot obs idx none)).Perm
            (s :: (slots nt.buckets ++ slots (setSlot obs idx none))) :=
          hperm2.append_right _
        have hrec := IH (setSlot obs idx none) (osz - 1) ⟨bs2, nt.size + 1⟩
          (idx + 1) (idx - dibN c idx s.hash)
          hobs2len
          (by
            show hashesOk hf (obs.set (idx % obs.length) none)
            apply hashesOk_set hho_obs
            intro s0 h0
            exact Option.noConfusion h0)
          (by
            intro u s0 h0
            exact hdibo u s0 (htrans _ s0 h0))
          (by
            intro u' u hu s0 s0' h0 h0'
            exact hmono u' u hu s0 s0' (htrans _ s0 h0) (htrans _ s0' h0'))
          hclear2
          (by omega) (by omega) (by omega) (by omega)
          (by
            intro u hu huc s0 h0
            have h1 : slotAt obs (b + u) = some s0 := htrans _ s0 h0
            have h2 := hmono u (idx - b) (by omega) s s0
              (by rw [← hidxeq]; exact hslot) h1
            rw [← hidxeq] at h2
            exact h2)
          (by show bs2.length = n; exact hlen2)
          hloc2 hho2 hda2
          (by show nt.size + 1 = countFull bs2; omega)
          hA2n hCn
          (by
            show DistinctKeys beq (slots bs2 ++ slots (setSlot obs idx none))
            exact distinct_perm laws (hq1.trans hq3.symm) hDK)
        obtain ⟨nt3, heq3, hlen3, hloc3, hho3, hda3, hsz3, hcf3, hperm3⟩ := hrec
        refine ⟨nt3, ?_, hlen3, hloc3, hho3, hda3, hsz3, ?_, ?_⟩
        · rw [move_loop, hslot]
          show (insert_hashed_ordered nt s.hash s.key s.val).bind (fun y =>
            let o2 := setSlot obs idx none
            if osz - 1 = 0 then some y
            else move_loop fuel o2 (osz - 1) y (idx + 1)) = _
          rw [hins, Option.some_bind]
          show (if osz - 1 = 0 then some (⟨bs2, nt.size + 1⟩ : Table K V)
            else move_loop fuel (setSlot obs idx none) (osz - 1)
              ⟨bs2, nt.size + 1⟩ (idx + 1)) = _
          rw [if_neg hstop]
          exact heq3
        · show countFull nt3.buckets = countFull nt.buckets + osz
          have h8 : countFull bs2 + (osz - 1) = countFull nt.buckets + osz := by
            omega
          rw [hcf3]
          exact h8
        · exact hperm3.trans (hq3.trans hq1.symm)


theorem getD_replicate_none (n j : Nat) :
    (List.replicate n (none : Option (Slot K V))).getD j none = none := by
  rw [List.getD_eq_getElem?_getD, List.getElem?_replicate]
  by_cases h : j < n
  · rw [if_pos h]
    rfl
  · rw [if_neg h]
    rfl

theorem countFull_replicate (n : Nat) :
    countFull (List.replicate n (none : Option (Slot K V))) = 0 := by
  rw [countFull, Finset.card_eq_zero]
  rw [Finset.filter_eq_empty_iff]
  intro j _
  rw [getD_replicate_none]
  simp

/-- resize on a live well-formed table: the fast path reinstalls exactly the
old elements in a well-formed table of the requested capacity. -/
theorem resizeM_spec {hf : K → Nat} {beq : K → K → Bool} (laws : KeyLaws hf beq)
    {t : Table K V} (w : WFb hf beq t.buckets) (hsz : t.size = countFull t.buckets)
    (hpos : 0 < t.size) (hlt : countFull t.buckets < t.buckets.length)
    {n : Nat} (hn : IsPow2 n) (hsn : t.size ≤ n) (hcn : t.buckets.length ≤ n)
    (hokn : n * 8 < U64) :
    ∃ t2, resizeM t n = some t2 ∧ t2.buckets.length = n ∧ t2.size = t.size ∧
      WFb hf beq t2.buckets ∧ t2.size = countFull t2.buckets ∧
      (slots t2.buckets).Perm (slots t.buckets) := by
  have hcpos : 0 < t.buckets.length := w.cap_pos
  obtain ⟨jc, hjc⟩ := w.cap_pow2
  have hjn : n = 2 ^ Nat.clog 2 n := hn
  have hnpos : 0 < n := by omega
  have hjcn : jc ≤ Nat.clog 2 n := by
    apply (Nat.pow_le_pow_iff_right (show 1 < 2 from by norm_num)).mp
    rw [← hjc, ← hjn]
    exact hcn
  have hcdvd : t.buckets.length ∣ n := by
    rw [hjc, hjn]
    exact pow_dvd_pow 2 hjcn
  have hdib_eq : ∀ idx h, dib t.buckets.length idx h
      = dibN t.buckets.length idx h :=
    fun idx h => dib_eq_dibN hjc w.cap_dvd_u64 idx h
  -- the cluster head found by the skip loop
  obtain ⟨b0, hb0, s0, hs0, hd0⟩ := exists_head hcpos (by omega) hlt w.local_inv
  have hexQ : ∃ i, (slotAt t.buckets i).any
      (fun s => decide (dib t.buckets.length i s.hash = 0)) = true := by
    refine ⟨b0, ?_⟩
    have h1 : slotAt t.buckets b0 = some s0 := by
      show t.buckets.getD (b0 % t.buckets.length) none = some s0
      rw [Nat.mod_eq_of_lt hb0]
      exact hs0
    rw [h1]
    show decide (dib t.buckets.length b0 s0.hash = 0) = true
    rw [hdib_eq, hd0]
    rfl
  set bF := Nat.find hexQ with hbFdef
  have hbF_le : bF ≤ b0 := Nat.find_le (by
    have h1 : slotAt t.buckets b0 = some s0 := by
      show t.buckets.getD (b0 % t.buckets.length) none = some s0
      rw [Nat.mod_eq_of_lt hb0]
      exact hs0
    rw [h1]
    show decide (dib t.buckets.length b0 s0.hash = 0) = true
    rw [hdib_eq, hd0]
    rfl)
  have hbFc : bF < t.buckets.length := by omega
  obtain ⟨sF, hsF, hdF⟩ : ∃ sF, slotAt t.buckets bF = some sF ∧
      dib t.buckets.length bF sF.hash = 0 := by
    have h1 := Nat.find_spec hexQ
    rw [← hbFdef] at h1
    cases hx : slotAt t.buckets bF with
    | none => rw [hx] at h1; exact absurd h1 (by simp)
    | some sx =>
      rw [hx] at h1
      refine ⟨sx, rfl, ?_⟩
      have h2 : decide (dib t.buckets.length bF sx.hash = 0) = true := h1
      exact of_decide_eq_true h2
  have hdFN : dibN t.buckets.length bF sF.hash = 0 := by
    rw [← hdib_eq]
    exact hdF
  have hsF_getD : t.buckets.getD bF none = some sF := by
    rw [← Nat.mod_eq_of_lt hbFc]
    exact hsF
  have hskip : skip_loop t.buckets t.buckets.length 0 = some bF := by
    have h1 := skip_loop_finds t.buckets t.buckets.length 0 bF hbFc
      (by
        intro u' hu' s hs hd
        have h2 := Nat.find_min hexQ (show 0 + u' < bF from by omega)
        rw [Nat.zero_add] at hs h2
        rw [hs] at h2
        have h3 : decide (dib t.buckets.length u' s.hash = 0) = false := by
          cases hx : decide (dib t.buckets.length u' s.hash = 0) with
          | false => rfl
          | true => exact absurd hx h2
        rw [Nat.zero_add] at hd
        rw [decide_eq_false_iff_not] at h3
        exact h3 hd)
      (by
        rw [Nat.zero_add]
        exact ⟨sF, hsF, hdF⟩)
    rw [Nat.zero_add] at h1
    exact h1
  -- facts of the old cluster walk
  have hdibo := run_dib_bound hcpos w.local_inv hbFc hsF_getD hdFN
  have hmono := run_p_mono hcpos w.local_inv hbFc hsF_getD hdFN
  -- the fresh table
  have hfresh_len : (List.replicate n (none : Option (Slot K V))).length = n :=
    List.length_replicate ..
  have hfresh_slotAt : ∀ y,
      slotAt (List.replicate n (none : Option (Slot K V))) y = none := by
    intro y
    show (List.replicate n (none : Option (Slot K V))).getD _ none = none
    rw [getD_replicate_none]
  have hmove := move_loop_spec laws t.buckets.length n bF hcpos hbFc hcn hcdvd
    hjn t.buckets.length t.buckets t.size
    (⟨List.replicate n none, 0⟩ : Table K V) bF bF
    rfl w.hashes_ok hdibo (fun u' u hu => hmono u' u hu)
    (by intro x hx1 hx2; omega)
    hsz hpos (Nat.le_refl _) (by omega)
    (by
      intro u hu huc s hs
      have h1 := hdibo u s hs
      omega)
    hfresh_len
    (by
      intro j hj s hs
      rw [show (⟨List.replicate n none, 0⟩ : Table K V).buckets
        = List.replicate n none from rfl, getD_replicate_none] at hs
      exact Option.noConfusion hs)
    (by
      intro j hj s hs
      rw [show (⟨List.replicate n none, 0⟩ : Table K V).buckets
        = List.replicate n none from rfl, getD_replicate_none] at hs
      exact Option.noConfusion hs)
    (by
      intro i hi j hj hij si sj hsi hsj
      rw [show (⟨List.replicate n none, 0⟩ : Table K V).buckets
        = List.replicate n none from rfl, getD_replicate_none] at hsi
      exact Option.noConfusion hsi)
    (by
      show 0 = countFull (List.replicate n none)
      rw [countFull_replicate])
    (by
      intro x hx1 hx2 sx hsx
      rw [show (⟨List.replicate n none, 0⟩ : Table K V).buckets
        = List.replicate n none from rfl, hfresh_slotAt] at hsx
      exact Option.noConfusion hsx)
    (by
      intro x hx1 hx2 sx hsx
      rw [show (⟨List.replicate n none, 0⟩ : Table K V).buckets
        = List.replicate n none from rfl, hfresh_slotAt] at hsx
      exact Option.noConfusion hsx)
    (by
      show DistinctKeys beq (slots (List.replicate n none) ++ slots t.buckets)
      rw [slots_replicate_none, List.nil_append]
      exact w.slots_distinct)
  obtain ⟨nt2, heq2, hlen2, hloc2, hho2, hda2, hsz2, hcf2, hperm2⟩ := hmove
  rw [show slots ((⟨List.replicate n none, 0⟩ : Table K V).buckets)
    = slots (List.replicate n (none : Option (Slot K V))) from rfl,
    slots_replicate_none, List.nil_append] at hperm2
  rw [show countFull ((⟨List.replicate n none, 0⟩ : Table K V).buckets)
    = countFull (List.replicate n (none : Option (Slot K V))) from rfl,
    countFull_replicate, Nat.zero_add] at hcf2
  have hndvd61 : n ∣ 2 ^ 61 := by
    rw [hjn]
    apply pow_dvd_pow 2
    have h1 : (2 : Nat) ^ Nat.clog 2 n < 2 ^ 61 := by
      rw [← hjn]
      have : U64 = 2 ^ 64 := rfl
      omega
    have h2 := (Nat.pow_lt_pow_iff_right (show 1 < 2 from by norm_num)).mp h1
    omega
  refine ⟨nt2, ?_, hlen2, by omega,
    ⟨by rw [hlen2]; exact hndvd61, by rw [hlen2]; omega, hho2, hloc2, hda2⟩,
    by omega, hperm2⟩
  unfold resizeM
  rw [if_neg (show ¬ ¬ t.size ≤ n from fun h => h hsn)]
  rw [if_neg (show ¬ ¬ (IsPow2 n ∨ n = 0) from fun h => h (Or.inl hn))]
  rw [show (rawNew n : Option (Table K V))
    = some ⟨List.replicate n none, 0⟩ from by unfold rawNew; rw [if_pos hokn]]
  rw [Option.some_bind]
  rw [if_neg (show ¬ (t.capacity = 0 ∨ t.size = 0) from by
    rintro (h | h)
    · rw [show Table.capacity t = t.buckets.length from rfl] at h
      omega
    · omega)]
  rw [show Table.capacity t = t.buckets.length from rfl]
  rw [hskip, Option.some_bind]
  exact heq2


/-! ### Resize-policy arithmetic -/

theorem le_min_capacity (n : Nat) : n ≤ min_capacity n := by
  unfold min_capacity
  rw [Nat.le_div_iff_mul_le (by norm_num)]
  omega

theorem min_capacity_mono {n m : Nat} (h : n ≤ m) :
    min_capacity n ≤ min_capacity m :=
  Nat.div_le_div_right (Nat.mul_le_mul_right _ h)

theorem min_capacity_lt {n : Nat} (h : 10 ≤ n) : n < min_capacity n := by
  unfold min_capacity
  have h1 : n + 1 ≤ n * 11 / 10 := by
    rw [Nat.le_div_iff_mul_le (by norm_num)]
    omega
  omega

theorem min_capacity_le_two_mul {cap : Nat} (h : 32 ≤ cap) :
    min_capacity (cap + 1) ≤ 2 * cap := by
  unfold min_capacity
  apply Nat.div_le_of_le_mul
  omega

theorem IsPow2_pow (k : Nat) : IsPow2 (2 ^ k) := by
  unfold IsPow2
  rw [Nat.clog_pow 2 k (by norm_num)]

theorem nextPow2_ge (k : Nat) : k ≤ nextPow2 k := Nat.le_pow_clog (by norm_num) k

theorem nextPow2_le_pow {k j : Nat} (h : k ≤ 2 ^ j) : nextPow2 k ≤ 2 ^ j :=
  Nat.pow_le_pow_right (by norm_num)
    ((Nat.le_pow_iff_clog_le (by norm_num)).mp h)

theorem IsPow2_max32 (k : Nat) : IsPow2 (max (nextPow2 k) INITIAL_CAPACITY) := by
  have h32 : INITIAL_CAPACITY = 2 ^ 5 := rfl
  unfold nextPow2
  rw [h32]
  rcases Nat.le_total (Nat.clog 2 k) 5 with h | h
  · rw [Nat.max_eq_right (Nat.pow_le_pow_right (by norm_num) h)]
    exact IsPow2_pow 5
  · rw [Nat.max_eq_left (Nat.pow_le_pow_right (by norm_num) h)]
    exact IsPow2_pow _

/-- reserve(1) from a well-formed table: succeeds, preserves the contents, and
leaves room for one more element under the load-factor policy. -/
theorem reserveM_one {hf : K → Nat} {beq : K → K → Bool} (laws : KeyLaws hf beq)
    {t : Table K V} (hwf : WF hf beq t) (hcap : t.buckets.length ≤ 2 ^ 59) :
    ∃ t1, reserveM t 1 = some t1 ∧ WFb hf beq t1.buckets ∧
      t1.size = countFull t1.buckets ∧ t1.size = t.size ∧
      min_capacity (t1.size + 1) ≤ t1.buckets.length ∧
      INITIAL_CAPACITY ≤ t1.buckets.length ∧
      t1.buckets.length ≤ max (2 * t.buckets.length) 32 ∧
      (slots t1.buckets).Perm (slots t.buckets) := by
  rcases hwf with ⟨hnil, h0⟩ | ⟨w, hsz, hmin, h32⟩
  · -- the trivial table: reserve installs the 32-bucket fresh table
    have hteq : t = (⟨[], 0⟩ : Table K V) := by
      cases t with
      | mk bk sz =>
        simp only at hnil h0
        rw [hnil, h0]
    rw [hteq]
    refine ⟨⟨List.replicate 32 none, 0⟩, ?_, ?_, ?_, rfl, ?_, ?_, ?_, ?_⟩
    · have hpow32 : IsPow2 32 := by
        show (32 : Nat) = 2 ^ Nat.clog 2 32
        have h5 : Nat.clog 2 32 = 5 := by
          rw [show (32 : Nat) = 2 ^ 5 from by norm_num]
          exact Nat.clog_pow 2 5 (by norm_num)
        rw [h5]
        norm_num
      have hmc1 : min_capacity 1 = 1 := by norm_num [min_capacity]
      have hnp1 : nextPow2 1 = 1 := by
        unfold nextPow2
        rw [Nat.clog_one_right]
        norm_num
      unfold reserveM
      rw [if_neg (show ¬ ¬ ((⟨[], 0⟩ : Table K V).size + 1
          ≤ min_capacity ((⟨[], 0⟩ : Table K V).size + 1)) from
        fun h => h (le_min_capacity _))]
      rw [if_pos (show Table.capacity (⟨[], 0⟩ : Table K V)
          < min_capacity ((⟨[], 0⟩ : Table K V).size + 1) from by
        show (0 : Nat) < min_capacity 1
        rw [hmc1]
        omega)]
      show resizeM (⟨[], 0⟩ : Table K V)
        (max (nextPow2 (min_capacity 1)) INITIAL_CAPACITY) = _
      rw [hmc1, hnp1, show max 1 INITIAL_CAPACITY = 32 from by
        norm_num [INITIAL_CAPACITY]]
      unfold resizeM
      rw [if_neg (show ¬ ¬ ((⟨[], 0⟩ : Table K V).size ≤ 32) from
        fun h => h (Nat.zero_le 32))]
      rw [if_neg (show ¬ ¬ (IsPow2 32 ∨ (32 : Nat) = 0) from
        fun h => h (Or.inl hpow32))]
      rw [show (rawNew 32 : Option (Table K V))
          = some ⟨List.replicate 32 none, 0⟩ from by
        unfold rawNew
        rw [if_pos (by norm_num [U64])]]
      rw [Option.some_bind]
      rw [if_pos (Or.inr (rfl : (⟨[], 0⟩ : Table K V).size = 0))]
    · refine ⟨⟨2 ^ 56, by norm_num⟩, by norm_num, ?_, ?_, ?_⟩
      · intro j hj s hs
        rw [getD_replicate_none] at hs
        exact Option.noConfusion hs
      · intro j hj s hs
        rw [getD_replicate_none] at hs
        exact Option.noConfusion hs
      · intro i hi j hj hij si sj hsi hsj
        rw [getD_replicate_none] at hsi
        exact Option.noConfusion hsi
    · show 0 = countFull (List.replicate 32 none)
      rw [countFull_replicate]
    · show min_capacity 1 ≤ 32
      norm_num [min_capacity]
    · show 32 ≤ 32
      omega
    · show 32 ≤ max (2 * ([] : Buckets K V).length) 32
      simp
    · show (slots (List.replicate 32 none)).Perm (slots ([] : Buckets K V))
      rw [slots_replicate_none]
      rfl
  · -- a live table
    have hguard : t.size + 1 ≤ min_capacity (t.size + 1) := le_min_capacity _
    have hcap_len : t.capacity = t.buckets.length := rfl
    by_cases hl : t.capacity < min_capacity (t.size + 1)
    · -- must grow
      have hszle : t.size ≤ t.buckets.length := by
        have h1 := le_min_capacity t.size
        rw [hcap_len] at hmin
        omega
      have hszlt : t.size < t.buckets.length := by
        rcases Nat.lt_or_ge t.size t.buckets.length with h | h
        · exact h
        · exfalso
          have hse : t.size = t.buckets.length := by omega
          have h10 : 10 ≤ t.size := by
            rw [hcap_len] at h32
            show 10 ≤ t.size
            unfold INITIAL_CAPACITY at h32
            omega
          have h2 := min_capacity_lt h10
          rw [hcap_len] at hmin
          omega
      have hminle : min_capacity (t.size + 1) ≤ 2 * t.buckets.length := by
        have h1 : min_capacity (t.size + 1)
            ≤ min_capacity (t.buckets.length + 1) :=
          min_capacity_mono (by omega)
        have h2 : min_capacity (t.buckets.length + 1) ≤ 2 * t.buckets.length :=
          min_capacity_le_two_mul (by
            rw [hcap_len] at h32
            exact h32)
        omega
      obtain ⟨jc, hjc⟩ := w.cap_pow2
      have htwoc : 2 * t.buckets.length = 2 ^ (jc + 1) := by
        rw [hjc, Nat.pow_succ, Nat.mul_comm]
      have hnextle : nextPow2 (min_capacity (t.size + 1)) ≤ 2 * t.buckets.length := by
        rw [htwoc]
        exact nextPow2_le_pow (by rw [← htwoc]; exact hminle)
      have h32c : (32 : Nat) ≤ 2 * t.buckets.length := by
        rw [hcap_len] at h32
        unfold INITIAL_CAPACITY at h32
        omega
      have hmle : max (nextPow2 (min_capacity (t.size + 1))) INITIAL_CAPACITY
          ≤ 2 * t.buckets.length := by
        unfold INITIAL_CAPACITY
        omega
      have hm60 : max (nextPow2 (min_capacity (t.size + 1))) INITIAL_CAPACITY
          ≤ 2 ^ 60 := by
        have h1 : 2 * t.buckets.length ≤ 2 * 2 ^ 59 := by omega
        have h2 : 2 * 2 ^ 59 = 2 ^ 60 := by norm_num
        omega
      have hok : (max (nextPow2 (min_capacity (t.size + 1))) INITIAL_CAPACITY)
          * 8 < U64 := by
        have h1 : (2 : Nat) ^ 60 * 8 < 2 ^ 64 := by norm_num
        have h2 : U64 = 2 ^ 64 := rfl
        omega
      have hgrow := resizeM_spec laws w hsz
        (by
          rcases Nat.eq_zero_or_pos t.size with h0 | h0
          · exfalso
            rw [h0] at hl
            have : min_capacity 1 = 1 := by norm_num [min_capacity]
            rw [this] at hl
            rw [hcap_len] at hl
            omega
          · exact h0)
        (by omega)
        (IsPow2_max32 _)
        (by
          have h1 := nextPow2_ge (min_capacity (t.size + 1))
          have h2 := le_min_capacity (t.size + 1)
          omega)
        (by
          have h1 := nextPow2_ge (min_capacity (t.size + 1))
          rw [hcap_len] at hl
          omega)
        hok
      obtain ⟨t2, heq2, hlen2, hsz2, w2, hszc2, hperm2⟩ := hgrow
      refine ⟨t2, ?_, w2, hszc2, hsz2, ?_, ?_, ?_, hperm2⟩
      · unfold reserveM
        rw [if_neg (show ¬ ¬ t.size + 1 ≤ min_capacity (t.size + 1) from
          fun h => h hguard)]
        rw [if_pos hl]
        exact heq2
      · rw [hlen2, hsz2]
        have h1 := nextPow2_ge (min_capacity (t.size + 1))
        unfold INITIAL_CAPACITY
        omega
      · rw [hlen2]
        unfold INITIAL_CAPACITY
        omega
      · rw [hlen2]
        omega
    · -- enough room already
      refine ⟨t, ?_, w, hsz, rfl, ?_, ?_, ?_, List.Perm.refl _⟩
      · unfold reserveM
        rw [if_neg (show ¬ ¬ t.size + 1 ≤ min_capacity (t.size + 1) from
          fun h => h hguard)]
        rw [if_neg hl]
      · rw [← hcap_len]
        omega
      · rw [← hcap_len]
        exact h32
      · have h1 : t.buckets.length ≤ 2 * t.buckets.length := by omega
        omega


/-- HashMap::insert on a well-formed table: it returns the previous value of
the key, afterwards the key maps to the new value, the length grows by one
exactly when the key was absent, and well-formedness is preserved. -/
theorem insertM_spec {hf : K → Nat} {beq : K → K → Bool} (laws : KeyLaws hf beq)
    {t : Table K V} (hwf : WF hf beq t) (hcap : t.buckets.length ≤ 2 ^ 59)
    (k : K) (v : V) :
    ∃ t2, insertM hf beq t k v = some (t2, getM hf beq t k) ∧ WF hf beq t2 ∧
      getM hf beq t2 k = some v ∧
      t2.size = (if (getM hf beq t k).isSome then t.size else t.size + 1) ∧
      t2.buckets.length ≤ max (2 * t.buckets.length) 32 := by
  obtain ⟨t1, heq1, w1, hsz1, hszeq, hmin1, h32a, hbound, hperm1⟩ :=
    reserveM_one laws hwf hcap
  have hwf1 : WF hf beq t1 := Or.inr ⟨w1, hsz1, by
    have h1 := min_capacity_mono (show t1.size ≤ t1.size + 1 from by omega)
    show min_capacity t1.size ≤ t1.buckets.length
    omega, h32a⟩
  have hdk1 : DistinctKeys beq (slots t1.buckets) := w1.slots_distinct
  have hdkt : DistinctKeys beq (slots t.buckets) := distinct_perm laws hperm1 hdk1
  have hgt : getM hf beq t k = findVal beq (slots t1.buckets) k := by
    rw [getM_eq_assocOf laws hwf k]
    show findVal beq (slots t.buckets) k = _
    exact findVal_perm laws hdkt hperm1.symm k
  cases hass : findVal beq (slots t1.buckets) k with
  | none =>
    have hns : notStored beq t1.buckets k := by
      intro j hj sj hsj
      by_contra hcon
      rw [Bool.not_eq_false] at hcon
      have hmem : sj ∈ slots t1.buckets := mem_slots_getD.mpr ⟨j, hj, hsj⟩
      have h1 := findVal_eq_of_mem laws hdk1 hmem hcon
      rw [hass] at h1
      exact Option.noConfusion h1
    have hroom : countFull t1.buckets < t1.buckets.length := by
      have h1 := le_min_capacity (t1.size + 1)
      omega
    obtain ⟨bs2, heq2, hlen2, w2, hcf2, hperm2⟩ :=
      insert_or_replace_absent laws w1 hsz1 hroom v rfl hns
    have hwf2 : WF hf beq (⟨bs2, t1.size + 1⟩ : Table K V) := by
      refine Or.inr ⟨w2, ?_, ?_, ?_⟩
      · show t1.size + 1 = countFull bs2
        omega
      · show min_capacity (t1.size + 1) ≤ bs2.length
        rw [hlen2]
        exact hmin1
      · show INITIAL_CAPACITY ≤ bs2.length
        rw [hlen2]
        exact h32a
    refine ⟨⟨bs2, t1.size + 1⟩, ?_, hwf2, ?_, ?_, ?_⟩
    · unfold insertM
      rw [heq1, Option.some_bind, hgt, hass]
      exact heq2
    · rw [getM_eq_assocOf laws hwf2 k]
      show findVal beq (slots bs2) k = some v
      rw [findVal_perm laws w2.slots_distinct hperm2 k, findVal_cons]
      rw [if_pos (show beq k (Slot.mk (make_hash hf k) k v).key = true from
        laws.refl k)]
    · rw [hgt, hass]
      show t1.size + 1 = (if (none : Option V).isSome = true then t.size
        else t.size + 1)
      simp only [Option.isSome_none, Bool.false_eq_true, if_false]
      omega
    · show bs2.length ≤ max (2 * t.buckets.length) 32
      rw [hlen2]
      exact hbound
  | some v0 =>
    obtain ⟨s0, hfind0, hv0⟩ : ∃ s0,
        (slots t1.buckets).find? (fun s => beq k s.key) = some s0 ∧
          v0 = s0.val := by
      unfold findVal at hass
      cases hx : (slots t1.buckets).find? (fun s => beq k s.key) with
      | none => rw [hx] at hass; exact Option.noConfusion hass
      | some s0 =>
        rw [hx] at hass
        refine ⟨s0, rfl, ?_⟩
        simpa using hass.symm
    have hbeq0 : beq k s0.key = true := by simpa using List.find?_some hfind0
    have hmem0 : s0 ∈ slots t1.buckets := List.mem_of_find?_eq_some hfind0
    obtain ⟨q, hq, hgq⟩ := mem_slots_getD.mp hmem0
    obtain ⟨heq2, w2, hcf2, hperm2a, hperm2b⟩ :=
      insert_or_replace_found laws w1 hsz1 v rfl hq hgq hbeq0
    have hwf2 : WF hf beq
        (⟨t1.buckets.set q (some ⟨s0.hash, s0.key, v⟩), t1.size⟩ : Table K V) := by
      refine Or.inr ⟨w2, ?_, ?_, ?_⟩
      · show t1.size = countFull (t1.buckets.set q (some ⟨s0.hash, s0.key, v⟩))
        omega
      · show min_capacity t1.size
          ≤ (t1.buckets.set q (some ⟨s0.hash, s0.key, v⟩)).length
        rw [List.length_set]
        have h1 := min_capacity_mono (show t1.size ≤ t1.size + 1 from by omega)
        omega
      · show INITIAL_CAPACITY
          ≤ (t1.buckets.set q (some ⟨s0.hash, s0.key, v⟩)).length
        rw [List.length_set]
        exact h32a
    refine ⟨⟨t1.buckets.set q (some ⟨s0.hash, s0.key, v⟩), t1.size⟩, ?_, hwf2,
      ?_, ?_, ?_⟩
    · unfold insertM
      rw [heq1, Option.some_bind, hgt, hass, hv0]
      exact heq2
    · rw [getM_eq_assocOf laws hwf2 k]
      show findVal beq (slots (t1.buckets.set q (some ⟨s0.hash, s0.key, v⟩))) k
        = some v
      rw [findVal_perm laws w2.slots_distinct hperm2a k, findVal_cons]
      rw [if_pos (show beq k (Slot.mk s0.hash s0.key v).key = true from hbeq0)]
    · rw [hgt, hass]
      show t1.size = (if (some v0).isSome = true then t.size else t.size + 1)
      simp only [Option.isSome_some, if_true]
      omega
    · show (t1.buckets.set q (some ⟨s0.hash, s0.key, v⟩)).length
        ≤ max (2 * t.buckets.length) 32
      rw [List.length_set]
      exact hbound


/-! ### Backward-shift deletion -/

/-- The local Robin Hood condition at a single bucket. -/
def localInvAt (bs : Buckets K V) (j : Nat) : Prop :=
  ∀ s : Slot K V, bs.getD j none = some s → 0 < dibN bs.length j s.hash →
    ∃ s2, bs.getD ((j + bs.length - 1) % bs.length) none = some s2 ∧
      dibN bs.length j s.hash ≤
        dibN bs.length ((j + bs.length - 1) % bs.length) s2.hash + 1

theorem hashesOk_of_slots {hf : K → Nat} {bs : Buckets K V}
    (h : ∀ s ∈ slots bs, s.hash = make_hash hf s.key) : hashesOk hf bs :=
  fun j hj s hs => h s (mem_slots_getD.mpr ⟨j, hj, hs⟩)

theorem slots_hashesOk {hf : K → Nat} {bs : Buckets K V} (h : hashesOk hf bs) :
    ∀ s ∈ slots bs, s.hash = make_hash hf s.key := by
  intro s hs
  obtain ⟨j, hj, hg⟩ := mem_slots_getD.mp hs
  exact h j hj s hg

theorem distinctAt_of_slots {hf : K → Nat} {beq : K → K → Bool}
    (laws : KeyLaws hf beq) {bs : Buckets K V}
    (h : DistinctKeys beq (slots bs)) : distinctAt beq bs := by
  have hkey : ∀ i j, i < j → j < bs.length →
      ∀ si sj : Slot K V, bs.getD i none = some si → bs.getD j none = some sj →
        beq si.key sj.key = false := by
    intro i j hij hj si sj hsi hsj
    have hdec := @slots_decomp K V bs j hj
    rw [hdec] at h
    have hmem_i : si ∈ slots (bs.take j) := by
      rw [mem_slots_getD]
      refine ⟨i, ?_, ?_⟩
      · rw [List.length_take]
        omega
      · rw [List.getD_eq_getElem?_getD, List.getElem?_take]
        rw [if_pos hij, ← List.getD_eq_getElem?_getD]
        exact hsi
    have hmem_j : sj ∈ (bs.getD j none).toList ++ slots (bs.drop (j + 1)) := by
      rw [hsj]
      exact List.mem_append_left _ (by simp)
    rw [List.append_assoc] at h
    exact (List.pairwise_append.mp h).2.2 si hmem_i sj hmem_j
  intro i hi j hj hij si sj hsi hsj
  rcases Nat.lt_or_ge i j with hlt | hge
  · exact hkey i j hlt hj si sj hsi hsj
  · have hlt2 : j < i := by omega
    have h1 := hkey j i hlt2 hi sj si hsj hsi
    by_contra hcon
    rw [Bool.not_eq_false] at hcon
    have h2 := laws.symm _ _ hcon
    rw [h1] at h2
    exact Bool.false_ne_true h2

theorem dibN_succ_pos {cap : Nat} (hc : 0 < cap) {g h : Nat}
    (hpos : 0 < dibN cap (g + 1) h) :
    dibN cap (g + 1) h = dibN cap g h + 1 := by
  have h1 := @dibN_add_left cap g h 1
  have h2 := dibN_lt hc g h
  rcases Nat.lt_or_ge (dibN cap g h + 1) cap with hlt | hge
  · rw [Nat.mod_eq_of_lt hlt] at h1
    exact h1
  · have h3 : dibN cap g h + 1 = cap := by omega
    rw [h3, Nat.mod_self] at h1
    omega

/-- Correctness of the backward-shift loop: it stops at the first undisplaced
or empty successor, restores the local invariant, and keeps the contents. -/
theorem shift_loop_spec (cap : Nat) :
    ∀ fuel (bs : Buckets K V) (g dprev : Nat),
      bs.length = cap → 2 < cap →
      slotAt bs g = none →
      (∀ j < cap, j ≠ (g + 1) % cap → localInvAt bs j) →
      (∀ s : Slot K V, slotAt bs (g + 1) = some s →
        dibN cap (g + 1) s.hash ≤ dprev + 1) →
      (0 < dprev → ∃ sp, slotAt bs (g + cap - 1) = some sp ∧
        dprev - 1 ≤ dibN cap (g + cap - 1) sp.hash) →
      (∃ u, 1 ≤ u ∧ u ≤ fuel ∧ u < cap ∧ slotAt bs (g + u) = none) →
      (∀ idx h, dib cap idx h = dibN cap idx h) →
      (shift_loop cap fuel bs g).length = cap ∧
        localInv (shift_loop cap fuel bs g) ∧
        countFull (shift_loop cap fuel bs g) = countFull bs ∧
        (slots (shift_loop cap fuel bs g)).Perm (slots bs) := by
  intro fuel
  induction fuel with
  | zero =>
    intro bs g dprev hlen hcap hgap hinv hsucc hpred hstop hdibeq
    exfalso
    obtain ⟨u, hu1, hu2, _, _⟩ := hstop
    omega
  | succ fuel IH =>
    intro bs g dprev hlen hcap hgap hinv hsucc hpred hstop hdibeq
    have hc : 0 < cap := by omega
    have hgetAt : ∀ j, j < cap → bs.getD j none = slotAt bs j := by
      intro j hj
      show _ = bs.getD (j % bs.length) none
      rw [hlen, Nat.mod_eq_of_lt hj]
    cases hslot : slotAt bs (g + 1) with
    | none =>
      have hstep : shift_loop cap (fuel + 1) bs g = bs := by
        rw [shift_loop, hslot]
      rw [hstep]
      refine ⟨hlen, ?_, rfl, List.Perm.refl _⟩
      intro j hj s hs hd
      rw [hlen] at hj hd ⊢
      by_cases hje : j = (g + 1) % cap
      · exfalso
        rw [hgetAt j hj, hje] at hs
        have h2 : slotAt bs ((g + 1) % cap) = slotAt bs (g + 1) :=
          slotAt_congr bs (by rw [hlen, Nat.mod_mod_of_dvd _ dvd_rfl])
        rw [h2, hslot] at hs
        exact Option.noConfusion hs
      · have h1 := hinv j hj hje s hs
        rw [hlen] at h1
        exact h1 hd
    | some s =>
      have hdib1 : dib cap (g + 1) s.hash = dibN cap (g + 1) s.hash := hdibeq _ _
      by_cases hd0 : dib cap (g + 1) s.hash = 0
      · have hstep : shift_loop cap (fuel + 1) bs g = bs := by
          rw [shift_loop, hslot]
          show (if dib cap (g + 1) s.hash = 0 then bs
            else shift_loop cap fuel
              (setSlot (setSlot bs g (some s)) (g + 1) none) (g + 1)) = bs
          rw [if_pos hd0]
        rw [hstep]
        refine ⟨hlen, ?_, rfl, List.Perm.refl _⟩
        intro j hj s2 hs2 hdd
        rw [hlen] at hj hdd ⊢
        by_cases hje : j = (g + 1) % cap
        · exfalso
          rw [hgetAt j hj, hje] at hs2
          have h2 : slotAt bs ((g + 1) % cap) = slotAt bs (g + 1) :=
            slotAt_congr bs (by rw [hlen, Nat.mod_mod_of_dvd _ dvd_rfl])
          rw [h2, hslot] at hs2
          injection hs2 with hs2
          rw [hje, ← hs2, dibN_mod_left] at hdd
          rw [hdib1] at hd0
          omega
        · have h1 := hinv j hj hje s2 hs2
          rw [hlen] at h1
          exact h1 hdd
      · rw [hdib1] at hd0
        have hdpos : 0 < dibN cap (g + 1) s.hash := by omega
        have hD := dibN_succ_pos hc hdpos
        have hDle := hsucc s hslot
        have hmods : ∀ a b : Nat, a < cap → b < cap → a ≠ b →
            (g + a) % cap ≠ (g + b) % cap := fun a b ha hb hne =>
          add_mod_ne g ha hb hne
        have hne10 : (g + 1) % cap ≠ g % cap := by
          have h1 := hmods 1 0 (by omega) (by omega) (by omega)
          rw [Nat.add_zero] at h1
          exact h1
        have hgm : g % bs.length < bs.length := Nat.mod_lt _ (by omega)
        have hgapD : bs.getD (g % bs.length) none = none := hgap
        have hA_len : (setSlot bs g (some s)).length = bs.length :=
          length_setSlot ..
        have hslotA : ∀ y, slotAt (setSlot bs g (some s)) y
            = if y % cap = g % cap then some s else slotAt bs y := by
          intro y
          show slotAt (bs.set (g % bs.length) (some s)) y = _
          rw [slotAt_set bs hgm (some s) y, hlen]
        have hg1m : (g + 1) % (setSlot bs g (some s)).length
            < (setSlot bs g (some s)).length := by
          rw [hA_len]
          exact Nat.mod_lt _ (by omega)
        have hsA : (setSlot bs g (some s)).getD
            ((g + 1) % (setSlot bs g (some s)).length) none = some s := by
          have h1 : slotAt (setSlot bs g (some s)) (g + 1) = some s := by
            rw [hslotA, if_neg (by rw [hlen] at *; exact hne10)]
            exact hslot
          have h2 : slotAt (setSlot bs g (some s)) (g + 1)
              = (setSlot bs g (some s)).getD
                ((g + 1) % (setSlot bs g (some s)).length) none := rfl
          rw [← h2]
          exact h1
        set bsp := setSlot (setSlot bs g (some s)) (g + 1) none with hbspdef
        have hlenp : bsp.length = cap := by
          rw [hbspdef]
          show ((setSlot bs g (some s)).set _ _).length = cap
          rw [List.length_set, hA_len, hlen]
        have hslotp : ∀ y, slotAt bsp y
            = if y % cap = (g + 1) % cap then none
              else if y % cap = g % cap then some s else slotAt bs y := by
          intro y
          rw [hbspdef]
          show slotAt ((setSlot bs g (some s)).set
            ((g + 1) % (setSlot bs g (some s)).length) none) y = _
          rw [slotAt_set _ hg1m none y, hA_len, hlen]
          by_cases hx : y % cap = (g + 1) % cap
          · rw [if_pos hx, if_pos hx]
          · rw [if_neg hx, if_neg hx]
            exact hslotA y
        have hgetp : ∀ j, j < cap → bsp.getD j none = slotAt bsp j := by
          intro j hj
          show _ = bsp.getD (j % bsp.length) none
          rw [hlenp, Nat.mod_eq_of_lt hj]
        have hslotp_g : slotAt bsp g = some s := by
          rw [hslotp, if_neg (by
            intro hcon
            exact hne10 hcon.symm), if_pos rfl]
        have hgap_p : slotAt bsp (g + 1) = none := by
          rw [hslotp, if_pos rfl]
        have hpredpos_eq : (g % cap + cap - 1) % cap = (g + cap - 1) % cap := by
          have h3 := @pred_mod cap hc (g + cap) (by omega)
          have h4 : (g + cap) % cap = g % cap := Nat.add_mod_right g cap
          rw [← h4, h3]
        have hned1 : (g + (cap - 1)) % cap ≠ (g + 1) % cap :=
          hmods (cap - 1) 1 (by omega) (by omega) (by omega)
        have hned0 : (g + (cap - 1)) % cap ≠ g % cap := by
          have h1 := hmods (cap - 1) 0 (by omega) (by omega) (by omega)
          rw [Nat.add_zero] at h1
          exact h1
        have hIH := IH bsp (g + 1) (dibN cap (g + 1) s.hash) hlenp hcap hgap_p
          (by
            -- local invariant away from the new gap successor
            intro j hj hje s2 hs2
            rw [hlenp]
            intro hdd
            by_cases hj1 : j = (g + 1) % cap
            · exfalso
              rw [hgetp j hj] at hs2
              have h2 : slotAt bsp ((g + 1) % cap) = slotAt bsp (g + 1) :=
                slotAt_congr bsp (by rw [hlenp, Nat.mod_mod_of_dvd _ dvd_rfl])
              rw [hj1, h2, hgap_p] at hs2
              exact Option.noConfusion hs2
            by_cases hjg : j = g % cap
            · -- the shifted element
              rw [hjg] at hs2 hdd ⊢
              rw [hgetp _ (Nat.mod_lt _ hc)] at hs2
              have h2 : slotAt bsp (g % cap) = slotAt bsp g :=
                slotAt_congr bsp (by rw [hlenp, Nat.mod_mod_of_dvd _ dvd_rfl])
              rw [h2, hslotp_g] at hs2
              injection hs2 with hs2
              rw [← hs2, dibN_mod_left] at hdd
              have hdprev_pos : 0 < dprev := by omega
              obtain ⟨sp, hsp, hdsp⟩ := hpred hdprev_pos
              refine ⟨sp, ?_, ?_⟩
              · rw [hpredpos_eq]
                rw [hgetp _ (Nat.mod_lt _ hc)]
                have h6 : slotAt bsp ((g + cap - 1) % cap)
                    = slotAt bsp (g + (cap - 1)) := slotAt_congr bsp (by
                  rw [hlenp, Nat.mod_mod_of_dvd _ dvd_rfl]
                  have h7 : g + cap - 1 = g + (cap - 1) := by omega
                  rw [h7])
                rw [h6, hslotp, if_neg hned1, if_neg hned0]
                have h7 : g + (cap - 1) = g + cap - 1 := by omega
                rw [h7]
                exact hsp
              · rw [hpredpos_eq, ← hs2, dibN_mod_left, dibN_mod_left]
                omega
            · -- untouched positions
              have h1 : slotAt bsp j = some s2 := by
                rw [← hgetp j hj]
                exact hs2
              rw [hslotp] at h1
              rw [if_neg (by rw [Nat.mod_eq_of_lt hj]; exact hj1),
                if_neg (by rw [Nat.mod_eq_of_lt hj]; exact hjg)] at h1
              have h2 : bs.getD j none = some s2 := by
                rw [hgetAt j hj]
                exact h1
              have h3 := hinv j hj hj1 s2 h2
              rw [hlen] at h3
              obtain ⟨s2p, hs2p, hle2⟩ := h3 hdd
              have hqne0 : (j + cap - 1) % cap ≠ g % cap := by
                intro hcon
                apply hj1
                have h5 := pred_eq_iff_succ (show 1 < cap from by omega) hj hcon
                rw [h5, Nat.mod_add_mod]
              have hqne1 : (j + cap - 1) % cap ≠ (g + 1) % cap := by
                intro hcon
                apply hje
                have h5 := pred_eq_iff_succ (show 1 < cap from by omega) hj hcon
                rw [h5, Nat.mod_add_mod]
              refine ⟨s2p, ?_, ?_⟩
              · rw [hgetp _ (Nat.mod_lt _ hc), hslotp]
                rw [Nat.mod_mod_of_dvd _ dvd_rfl]
                rw [if_neg hqne1, if_neg hqne0]
                rw [hgetAt _ (Nat.mod_lt _ hc)] at hs2p
                exact hs2p
              · exact hle2)
          (by
            -- successor bound for the new gap
            intro s2 hs2
            have hne20 : (g + 2) % cap ≠ g % cap := by
              have h1 := hmods 2 0 (by omega) (by omega) (by omega)
              rw [Nat.add_zero] at h1
              exact h1
            have hne21 : (g + 2) % cap ≠ (g + 1) % cap :=
              hmods 2 1 (by omega) (by omega) (by omega)
            have h1 : slotAt bs (g + 2) = some s2 := by
              have h2 := hslotp (g + 2)
              rw [hs2] at h2
              rw [if_neg hne21, if_neg hne20] at h2
              exact h2.symm
            have h3 : bs.getD ((g + 2) % cap) none = some s2 := by
              rw [hgetAt _ (Nat.mod_lt _ hc)]
              have h4 : slotAt bs ((g + 2) % cap) = slotAt bs (g + 2) :=
                slotAt_congr bs (by rw [hlen, Nat.mod_mod_of_dvd _ dvd_rfl])
            -- wait: goal shape
              rw [h4]
              exact h1
            by_cases hd2 : 0 < dibN cap (g + 2) s2.hash
            · have h5 := hinv ((g + 2) % cap) (Nat.mod_lt _ hc) hne21 s2 h3
              rw [hlen] at h5
              have h6 := h5 (by rw [dibN_mod_left]; exact hd2)
              obtain ⟨s2p, hs2p, hle2⟩ := h6
              have hpq : ((g + 2) % cap + cap - 1) % cap = (g + 1) % cap := by
                have h7 := @pred_mod cap hc (g + 2) (by omega)
                rw [h7]
                have h8 : g + 2 - 1 = g + 1 := by omega
                rw [h8]
              rw [hpq] at hs2p hle2
              rw [hgetAt _ (Nat.mod_lt _ hc)] at hs2p
              have h9 : slotAt bs ((g + 1) % cap) = slotAt bs (g + 1) :=
                slotAt_congr bs (by rw [hlen, Nat.mod_mod_of_dvd _ dvd_rfl])
              rw [h9, hslot] at hs2p
              injection hs2p with hs2p
              rw [← hs2p] at hle2
              rw [dibN_mod_left, dibN_mod_left] at hle2
              have h10 : g + 1 + 1 = g + 2 := by omega
              rw [h10]
              exact hle2
            · have h10 : g + 1 + 1 = g + 2 := by omega
              rw [h10]
              omega)
          (by
            -- predecessor bound for the new gap
            intro hdp
            have h1 : g + 1 + cap - 1 = g + cap := by omega
            refine ⟨s, ?_, ?_⟩
            · rw [h1, hslotp]
              rw [Nat.add_mod_right]
              rw [if_neg (fun hcon => hne10 hcon.symm), if_pos rfl]
            · rw [h1]
              have h2 : dibN cap (g + cap) s.hash = dibN cap g s.hash := by
                rw [← dibN_mod_left, Nat.add_mod_right, dibN_mod_left]
              rw [h2]
              omega)
          (by
            obtain ⟨u, hu1, hu2, hu3, hu4⟩ := hstop
            have hu2' : 2 ≤ u := by
              by_contra h
              push_neg at h
              have hue : u = 1 := by omega
              rw [hue] at hu4
              rw [hu4] at hslot
              exact Option.noConfusion hslot
            refine ⟨u - 1, by omega, by omega, by omega, ?_⟩
            have h1 : g + 1 + (u - 1) = g + u := by omega
            rw [h1, hslotp]
            rw [if_neg (hmods u 1 hu3 (by omega) (by omega)),
              if_neg (by
                have h2 := hmods u 0 hu3 (by omega) (by omega)
                rw [Nat.add_zero] at h2
                exact h2)]
            exact hu4)
          hdibeq
        have hstep : shift_loop cap (fuel + 1) bs g
            = shift_loop cap fuel bsp (g + 1) := by
          rw [shift_loop, hslot]
          show (if dib cap (g + 1) s.hash = 0 then bs
            else shift_loop cap fuel
              (setSlot (setSlot bs g (some s)) (g + 1) none) (g + 1)) = _
          rw [if_neg (by rw [hdib1]; exact hd0)]
        have hcntA : countFull (setSlot bs g (some s)) = countFull bs + 1 := by
          show countFull (bs.set (g % bs.length) (some s)) = countFull bs + 1
          exact countFull_set_some_of_none bs hgm hgapD s
        have hcntp : countFull bsp + 1 = countFull (setSlot bs g (some s)) := by
          rw [hbspdef]
          show countFull ((setSlot bs g (some s)).set
            ((g + 1) % (setSlot bs g (some s)).length) none) + 1 = _
          exact countFull_set_none_of_some _ hg1m hsA
        have hpermA : (slots (setSlot bs g (some s))).Perm (s :: slots bs) := by
          show (slots (bs.set (g % bs.length) (some s))).Perm _
          exact slots_set_some_of_none hgm hgapD s
        have hpermB : (slots (setSlot bs g (some s))).Perm (s :: slots bsp) := by
          rw [hbspdef]
          show (slots (setSlot bs g (some s))).Perm
            (s :: slots ((setSlot bs g (some s)).set
              ((g + 1) % (setSlot bs g (some s)).length) none))
          exact slots_set_none_of_some hg1m hsA
        have hpermp : (slots bsp).Perm (slots bs) :=
          (hpermB.symm.trans hpermA).cons_inv
        obtain ⟨hl2, hloc2, hcnt2, hperm2⟩ := hIH
        rw [hstep]
        exact ⟨hl2, hloc2, by omega, hperm2.trans hpermp⟩


theorem size_lt_cap {n cap : Nat} (h32 : 32 ≤ cap) (hmin : min_capacity n ≤ cap) :
    n < cap := by
  rcases Nat.lt_or_ge n cap with h | h
  · exact h
  · exfalso
    have h10 : 10 ≤ n := by omega
    have h2 := min_capacity_lt h10
    have h3 := min_capacity_mono h
    omega

/-- pop_internal on a full bucket: the element is handed back and the backward
shift restores the local invariant on the remaining contents. -/
theorem pop_internal_spec {bs : Buckets K V} {cap : Nat} (hlen : bs.length = cap)
    (hcap : 2 < cap) (hdvd : cap ∣ U64) (hpow : ∃ j, cap = 2 ^ j)
    (hloc : localInv bs) (hcf : countFull bs < cap)
    {idx : Nat} {sr : Slot K V} (hslot : slotAt bs idx = some sr) :
    ∃ bs2, pop_internal cap bs idx = (bs2, some (sr.key, sr.val)) ∧
      bs2.length = cap ∧ localInv bs2 ∧
      countFull bs2 + 1 = countFull bs ∧
      (slots bs).Perm (sr :: slots bs2) := by
  have hc : 0 < cap := by omega
  obtain ⟨jc, hjc⟩ := hpow
  have hdibeq : ∀ idx h, dib cap idx h = dibN cap idx h :=
    fun i h => dib_eq_dibN hjc hdvd i h
  have hgetAt : ∀ j, j < cap → bs.getD j none = slotAt bs j := by
    intro j hj
    show _ = bs.getD (j % bs.length) none
    rw [hlen, Nat.mod_eq_of_lt hj]
  have hidxm : idx % bs.length < bs.length := Nat.mod_lt _ (by omega)
  have hgetidx : bs.getD (idx % bs.length) none = some sr := hslot
  set bs0 := setSlot bs idx none with hbs0def
  have hlen0 : bs0.length = cap := by
    rw [hbs0def]
    show (bs.set (idx % bs.length) none).length = cap
    rw [List.length_set, hlen]
  have hslot0 : ∀ y, slotAt bs0 y
      = if y % cap = idx % cap then none else slotAt bs y := by
    intro y
    rw [hbs0def]
    show slotAt (bs.set (idx % bs.length) none) y = _
    rw [slotAt_set bs hidxm none y, hlen]
  have hget0 : ∀ j, j < cap → bs0.getD j none = slotAt bs0 j := by
    intro j hj
    show _ = bs0.getD (j % bs0.length) none
    rw [hlen0, Nat.mod_eq_of_lt hj]
  have hlocAt : ∀ j, j < cap → ∀ s : Slot K V, bs.getD j none = some s →
      0 < dibN cap j s.hash →
      ∃ s2, bs.getD ((j + cap - 1) % cap) none = some s2 ∧
        dibN cap j s.hash ≤ dibN cap ((j + cap - 1) % cap) s2.hash + 1 := by
    intro j hj s hs hd
    have h1 := hloc j (by omega) s hs (by rw [hlen]; exact hd)
    rw [hlen] at h1
    exact h1
  have hcnt0 : countFull bs0 + 1 = countFull bs := by
    rw [hbs0def]
    show countFull (bs.set (idx % bs.length) none) + 1 = countFull bs
    exact countFull_set_none_of_some bs hidxm hgetidx
  have hperm0 : (slots bs).Perm (sr :: slots bs0) := by
    rw [hbs0def]
    show (slots bs).Perm (sr :: slots (bs.set (idx % bs.length) none))
    exact slots_set_none_of_some hidxm hgetidx
  have hgap0 : slotAt bs0 idx = none := by
    rw [hslot0, if_pos rfl]
  have hstopEx : ∃ u, 1 ≤ u ∧ u ≤ cap ∧ u < cap ∧ slotAt bs0 (idx + u) = none := by
    by_contra hcon
    push_neg at hcon
    have hrun : ∀ t < cap - 1,
        ((bs0.getD ((idx + 1 + t) % bs0.length) none).isSome = true) := by
      intro t ht
      have h1 := hcon (1 + t) (by omega) (by omega) (by omega)
      have h2 : idx + (1 + t) = idx + 1 + t := by omega
      rw [h2] at h1
      cases hx : slotAt bs0 (idx + 1 + t) with
      | none => exact absurd hx h1
      | some sx =>
        have h3 : bs0.getD ((idx + 1 + t) % bs0.length) none = some sx := hx
        rw [h3]
        rfl
    have h4 := countFull_ge_of_run bs0 (idx + 1) (by rw [hlen0]; omega) hrun
    omega
  have hshift := shift_loop_spec cap cap bs0 idx (dibN cap idx sr.hash)
    hlen0 hcap hgap0
    (by
      intro j hj hje s hs
      rw [hlen0]
      intro hd
      rw [hget0 j hj, hslot0] at hs
      by_cases hjx : j = idx % cap
      · exfalso
        rw [if_pos (by rw [Nat.mod_eq_of_lt hj]; exact hjx)] at hs
        exact Option.noConfusion hs
      rw [if_neg (by rw [Nat.mod_eq_of_lt hj]; exact hjx)] at hs
      have h2 : bs.getD j none = some s := by
        rw [hgetAt j hj]
        exact hs
      obtain ⟨s2p, hs2p, hle2⟩ := hlocAt j hj s h2 hd
      have hqne : (j + cap - 1) % cap ≠ idx % cap := by
        intro hcon2
        apply hje
        have h5 := pred_eq_iff_succ (show 1 < cap from by omega) hj hcon2
        rw [h5, Nat.mod_add_mod]
      refine ⟨s2p, ?_, hle2⟩
      rw [hget0 _ (Nat.mod_lt _ hc), hslot0]
      rw [Nat.mod_mod_of_dvd _ dvd_rfl]
      rw [if_neg hqne]
      rw [hgetAt _ (Nat.mod_lt _ hc)] at hs2p
      exact hs2p)
    (by
      intro s hs
      have hne1 : (idx + 1) % cap ≠ idx % cap := by
        have h1 := add_mod_ne idx (show 1 < cap from by omega)
          (show 0 < cap from hc) (show (1 : Nat) ≠ 0 from by omega)
        rw [Nat.add_zero] at h1
        exact h1
      rw [hslot0, if_neg hne1] at hs
      have h2 : bs.getD ((idx + 1) % cap) none = some s := by
        rw [hgetAt _ (Nat.mod_lt _ hc)]
        have h3 : slotAt bs ((idx + 1) % cap) = slotAt bs (idx + 1) :=
          slotAt_congr bs (by rw [hlen, Nat.mod_mod_of_dvd _ dvd_rfl])
        rw [h3]
        exact hs
      by_cases hd : 0 < dibN cap (idx + 1) s.hash
      · obtain ⟨s2p, hs2p, hle2⟩ := hlocAt _ (Nat.mod_lt _ hc) s h2
          (by rw [dibN_mod_left]; exact hd)
        have hpq : ((idx + 1) % cap + cap - 1) % cap = idx % cap := by
          have h7 := @pred_mod cap hc (idx + 1) (by omega)
          rw [h7]
          have h8 : idx + 1 - 1 = idx := by omega
          rw [h8]
        rw [hpq] at hs2p hle2
        rw [hgetAt _ (Nat.mod_lt _ hc)] at hs2p
        have h9 : slotAt bs (idx % cap) = slotAt bs idx :=
          slotAt_congr bs (by rw [hlen, Nat.mod_mod_of_dvd _ dvd_rfl])
        rw [h9, hslot] at hs2p
        injection hs2p with hs2p
        rw [← hs2p] at hle2
        rw [dibN_mod_left, dibN_mod_left] at hle2
        exact hle2
      · omega)
    (by
      intro hdp
      have hgd : bs.getD (idx % cap) none = some sr := by
        rw [← hlen]
        exact hgetidx
      obtain ⟨s2p, hs2p, hle2⟩ := hlocAt (idx % cap) (Nat.mod_lt _ hc) sr hgd
        (by rw [dibN_mod_left]; exact hdp)
      have hpeq : (idx % cap + cap - 1) % cap = (idx + cap - 1) % cap := by
        have h3 := @pred_mod cap hc (idx + cap) (by omega)
        have h4 : (idx + cap) % cap = idx % cap := Nat.add_mod_right idx cap
        rw [← h4, h3]
      rw [hpeq] at hs2p hle2
      refine ⟨s2p, ?_, ?_⟩
      · rw [hslot0]
        rw [if_neg (by
          have h1 := add_mod_ne idx (show cap - 1 < cap from by omega)
            (show 0 < cap from hc) (show cap - 1 ≠ 0 from by omega)
          rw [Nat.add_zero] at h1
          have h2 : idx + (cap - 1) = idx + cap - 1 := by omega
          rw [h2] at h1
          exact h1)]
        rw [hgetAt _ (Nat.mod_lt _ hc)] at hs2p
        have h3 : slotAt bs ((idx + cap - 1) % cap) = slotAt bs (idx + cap - 1) :=
          slotAt_congr bs (by rw [hlen, Nat.mod_mod_of_dvd _ dvd_rfl])
        rw [h3] at hs2p
        exact hs2p
      · rw [dibN_mod_left, dibN_mod_left] at hle2
        omega)
    (by
      obtain ⟨u, h1, h2, h3, h4⟩ := hstopEx
      exact ⟨u, h1, h2, h3, h4⟩)
    hdibeq
  obtain ⟨hl2, hloc2, hcnt2, hperm2⟩ := hshift
  refine ⟨shift_loop cap cap bs0 idx, ?_, hl2, hloc2, by omega, ?_⟩
  · unfold pop_internal
    rw [hslot]
  · exact hperm0.trans ((hperm2.symm).cons sr)


/-- HashMap::remove of an absent key: no-op, returns none. -/
theorem removeM_absent {hf : K → Nat} {beq : K → K → Bool} (laws : KeyLaws hf beq)
    {t : Table K V} (hwf : WF hf beq t) {q : K}
    (hget : getM hf beq t q = none) : removeM hf beq t q = (t, none) := by
  unfold removeM
  by_cases hsz : t.size = 0
  · rw [if_pos hsz]
  · rw [if_neg hsz]
    cases hsearch : search_hashed t (make_hash hf q) (fun k => beq q k) with
    | none => rfl
    | some r =>
      exfalso
      obtain ⟨s, hs1, _, _⟩ := search_hashed_sound hsearch
      unfold getM at hget
      rw [hsearch, Option.some_bind, hs1] at hget
      exact Option.noConfusion hget

/-- HashMap::remove of a present key: hands back its value, shrinks the
length by one, removes exactly that entry, and stays well formed. -/
theorem removeM_found {hf : K → Nat} {beq : K → K → Bool} (laws : KeyLaws hf beq)
    {t : Table K V} (hwf : WF hf beq t) {q : K} {v0 : V}
    (hget : getM hf beq t q = some v0) :
    ∃ t2, removeM hf beq t q = (t2, some v0) ∧ WF hf beq t2 ∧
      t2.size + 1 = t.size ∧ getM hf beq t2 q = none ∧
      t2.buckets.length = t.buckets.length ∧
      ∃ sr : Slot K V, beq q sr.key = true ∧ sr.val = v0 ∧
        (slots t.buckets).Perm (sr :: slots t2.buckets) := by
  rcases hwf with ⟨hnil, h0⟩ | ⟨w, hsz, hmin, h32⟩
  · exfalso
    rw [getM_eq_assocOf laws (Or.inl ⟨hnil, h0⟩) q] at hget
    unfold assocOf findVal slots at hget
    rw [hnil] at hget
    exact Option.noConfusion hget
  · have hcap_len : t.capacity = t.buckets.length := rfl
    rw [hcap_len] at hmin h32
    unfold getM at hget
    cases hsearch : search_hashed t (make_hash hf q) (fun k => beq q k) with
    | none =>
      exfalso
      rw [hsearch] at hget
      exact Option.noConfusion hget
    | some r =>
      rw [hsearch, Option.some_bind] at hget
      obtain ⟨sr, hsr, hsrh, hsrk⟩ := search_hashed_sound hsearch
      rw [hsr] at hget
      have hv0 : sr.val = v0 := by simpa using hget
      have hsrk2 : beq q sr.key = true := hsrk
      have hsr_getD : t.buckets.getD (r % t.buckets.length) none = some sr := hsr
      have hsrmem : sr ∈ slots t.buckets := mem_slots_getD.mpr
        ⟨r % t.buckets.length,
          Nat.mod_lt _ (show 0 < t.buckets.length from by
            unfold INITIAL_CAPACITY at h32; omega), hsr_getD⟩
      have hszne : ¬ t.size = 0 := by
        intro h0
        have h1 : countFull t.buckets = 0 := by omega
        have h2 := countFull_zero_slots h1
        rw [h2] at hsrmem
        simp at hsrmem
      have hcflt : countFull t.buckets < t.buckets.length := by
        have h1 := size_lt_cap (show 32 ≤ t.buckets.length from h32) hmin
        omega
      obtain ⟨bs2, heqpop, hl2, hloc2, hcnt2, hperm2⟩ :=
        pop_internal_spec rfl
          (show 2 < t.buckets.length from by unfold INITIAL_CAPACITY at h32; omega)
          w.cap_dvd_u64 w.cap_pow2 w.local_inv hcflt hsr
      have hDK2 : DistinctKeys beq (sr :: slots bs2) :=
        distinct_perm laws hperm2 w.slots_distinct
      have hDKtail : DistinctKeys beq (slots bs2) := hDK2.of_cons
      have hw2 : WFb hf beq bs2 := by
        refine ⟨by rw [hl2]; exact w.cap_dvd, by rw [hl2]; exact w.cap_pos,
          ?_, hloc2, ?_⟩
        · apply hashesOk_of_slots
          intro s hs
          have h1 : s ∈ slots t.buckets := by
            rw [hperm2.mem_iff]
            exact List.mem_cons_of_mem _ hs
          exact slots_hashesOk w.hashes_ok s h1
        · exact distinctAt_of_slots laws hDKtail
      have hwf2 : WF hf beq (⟨bs2, t.size - 1⟩ : Table K V) := by
        refine Or.inr ⟨hw2, ?_, ?_, ?_⟩
        · show t.size - 1 = countFull bs2
          omega
        · show min_capacity (t.size - 1) ≤ bs2.length
          rw [hl2]
          have h1 := min_capacity_mono (show t.size - 1 ≤ t.size from by omega)
          omega
        · show INITIAL_CAPACITY ≤ bs2.length
          rw [hl2]
          exact h32
      refine ⟨⟨bs2, t.size - 1⟩, ?_, hwf2,
        (by show t.size - 1 + 1 = t.size; omega), ?_,
        (by show bs2.length = t.buckets.length; rw [hl2]), sr, hsrk2,
        hv0, hperm2⟩
      · unfold removeM
        rw [if_neg hszne]
        rw [hsearch]
        show (Table.mk (pop_internal t.capacity t.buckets r).1 (t.size - 1),
          (pop_internal t.capacity t.buckets r).2.map (fun p => p.2)) = _
        rw [hcap_len, heqpop, hv0]
        rfl
      · rw [getM_eq_assocOf laws hwf2 q]
        apply findVal_eq_none
        intro s hs
        by_contra hcon
        rw [Bool.not_eq_false] at hcon
        have h1 := (List.pairwise_cons.mp hDK2).1 s hs
        have h2 := laws.trans _ _ _ (laws.symm _ _ hsrk2) hcon
        rw [h1] at h2
        exact Bool.false_ne_true h2

/-! ### Concrete instances -/

/-- The identity hash with `Nat.beq` satisfies the PartialEq / Hash
contract. -/
theorem natKeyLaws : KeyLaws (id : Nat → Nat) Nat.beq := by
  refine ⟨?_, ?_, ?_, ?_⟩
  · intro a
    exact Nat.beq_refl a
  · intro a b h
    rw [Nat.eq_of_beq_eq_true h]
    exact Nat.beq_refl b
  · intro a b c h1 h2
    rw [Nat.eq_of_beq_eq_true h1]
    exact h2
  · intro a b h
    rw [Nat.eq_of_beq_eq_true h]

/-- Every reachable table satisfies the (possibly vacuous) local Robin Hood
invariant. -/
theorem WF_localInv {hf : K → Nat} {beq : K → K → Bool} {t : Table K V}
    (hwf : WF hf beq t) : localInv t.buckets := by
  rcases hwf with ⟨hnil, _⟩ | ⟨w, _, _, _⟩
  · intro j hj
    rw [hnil] at hj
    exact absurd hj (Nat.not_lt_zero j)
  · exact w.local_inv

/-- reserve(1) on the trivial table installs the fresh 32-bucket table. -/
theorem reserve_new :
    reserveM (⟨[], 0⟩ : Table K V) 1 = some ⟨List.replicate 32 none, 0⟩ := by
  have hpow32 : IsPow2 32 := by
    show (32 : Nat) = 2 ^ Nat.clog 2 32
    have h5 : Nat.clog 2 32 = 5 := by
      rw [show (32 : Nat) = 2 ^ 5 from by norm_num]
      exact Nat.clog_pow 2 5 (by norm_num)
    rw [h5]
    norm_num
  have hmc1 : min_capacity 1 = 1 := by norm_num [min_capacity]
  have hnp1 : nextPow2 1 = 1 := by
    unfold nextPow2
    rw [Nat.clog_one_right]
    norm_num
  unfold reserveM
  rw [if_neg (show ¬ ¬ ((⟨[], 0⟩ : Table K V).size + 1
      ≤ min_capacity ((⟨[], 0⟩ : Table K V).size + 1)) from
    fun h => h (le_min_capacity _))]
  rw [if_pos (show Table.capacity (⟨[], 0⟩ : Table K V)
      < min_capacity ((⟨[], 0⟩ : Table K V).size + 1) from by
    show (0 : Nat) < min_capacity 1
    rw [hmc1]
    omega)]
  show resizeM (⟨[], 0⟩ : Table K V)
    (max (nextPow2 (min_capacity 1)) INITIAL_CAPACITY) = _
  rw [hmc1, hnp1, show max 1 INITIAL_CAPACITY = 32 from by
    norm_num [INITIAL_CAPACITY]]
  unfold resizeM
  rw [if_neg (show ¬ ¬ ((⟨[], 0⟩ : Table K V).size ≤ 32) from
    fun h => h (Nat.zero_le 32))]
  rw [if_neg (show ¬ ¬ (IsPow2 32 ∨ (32 : Nat) = 0) from
    fun h => h (Or.inl hpow32))]
  rw [show (rawNew 32 : Option (Table K V))
      = some ⟨List.replicate 32 none, 0⟩ from by
    unfold rawNew
    rw [if_pos (by norm_num [U64])]]
  rw [Option.some_bind]
  rw [if_pos (Or.inr (rfl : (⟨[], 0⟩ : Table K V).size = 0))]

/-- with_capacity(0) builds the fresh 32-bucket table. -/
theorem with_capacity_zero :
    (with_capacityM 0 : Option (Table K V)) = some ⟨List.replicate 32 none, 0⟩ := by
  have h32 : nextPow2 (max INITIAL_CAPACITY (min_capacity 0)) = 32 := by
    rw [show max INITIAL_CAPACITY (min_capacity 0) = 32 from by
      norm_num [INITIAL_CAPACITY, min_capacity]]
    unfold nextPow2
    rw [show (32 : Nat) = 2 ^ 5 from by norm_num, Nat.clog_pow 2 5 (by norm_num)]
  show (if ¬ nextPow2 (max INITIAL_CAPACITY (min_capacity 0)) < U64 then none
    else if nextPow2 (max INITIAL_CAPACITY (min_capacity 0)) < 0 then
      (none : Option (Table K V))
    else rawNew (nextPow2 (max INITIAL_CAPACITY (min_capacity 0)))) = _
  rw [h32]
  rfl

/-- The spec's literal reading of Robin Hood order: along a probe chain the
displacements of consecutive full buckets never decrease.  This definition
follows the spec's words, to be compared with the source invariant
`localInv`. -/
def probeMono (bs : Buckets K V) : Prop :=
  ∀ j, j < bs.length → ∀ s s' : Slot K V, bs.getD j none = some s →
    bs.getD ((j + 1) % bs.length) none = some s' →
    dibN bs.length j s.hash ≤ dibN bs.length ((j + 1) % bs.length) s'.hash

/-- The table after inserting key 0 into the fresh map (identity hash). -/
def exT1 : Table Nat Nat :=
  ⟨(List.replicate 32 none).set 0 (some ⟨make_hash id 0, 0, 10⟩), 1⟩

/-- … then key 32 (same ideal bucket 0, parked at index 1). -/
def exT2 : Table Nat Nat :=
  ⟨((List.replicate 32 none).set 0 (some ⟨make_hash id 0, 0, 10⟩)).set 1
    (some ⟨make_hash id 32, 32, 11⟩), 2⟩

/-- … then key 2 (ideal bucket 2, stored at its ideal index). -/
def exT3 : Table Nat Nat :=
  ⟨(((List.replicate 32 none).set 0 (some ⟨make_hash id 0, 0, 10⟩)).set 1
    (some ⟨make_hash id 32, 32, 11⟩)).set 2 (some ⟨make_hash id 2, 2, 12⟩), 3⟩

/-- A 32-bucket table holding the single binding 5 ↦ 55 under the identity
hash: the witness table of the concrete instantiations. -/
def W32 : Buckets Nat Nat :=
  (List.replicate 32 none).set 5 (some ⟨make_hash id 5, 5, 55⟩)

/-- The table wrapping `W32`. -/
def tW : Table Nat Nat := ⟨W32, 1⟩

theorem W32_getD_ne {j : Nat} (h5 : ¬ (5 : Nat) = j) : W32.getD j none = none := by
  unfold W32
  rw [getD_set_ne _ h5]
  exact getD_replicate_none 32 j

/-- The witness table is a well-formed bucket array. -/
theorem WFb_W32 : WFb (id : Nat → Nat) Nat.beq W32 := by
  refine ⟨⟨2 ^ 56, by decide⟩, by decide, ?_, ?_, ?_⟩
  · intro j hj s hs
    by_cases h5 : (5 : Nat) = j
    · rw [← h5] at hs
      have he : W32.getD 5 none = some ⟨make_hash id 5, 5, 55⟩ := rfl
      rw [he] at hs
      injection hs with hinj
      rw [← hinj]
    · rw [W32_getD_ne h5] at hs
      exact Option.noConfusion hs
  · intro j hj s hs hpos
    by_cases h5 : (5 : Nat) = j
    · exfalso
      rw [← h5] at hs hpos
      have he : W32.getD 5 none = some ⟨make_hash id 5, 5, 55⟩ := rfl
      rw [he] at hs
      injection hs with hinj
      rw [← hinj] at hpos
      exact absurd hpos (by decide)
    · rw [W32_getD_ne h5] at hs
      exact Option.noConfusion hs
  · intro i hi j hj hij si sj hsi hsj
    by_cases h5 : (5 : Nat) = i
    · have h5j : ¬ (5 : Nat) = j := fun h => hij (h5.symm.trans h)
      rw [W32_getD_ne h5j] at hsj
      exact Option.noConfusion hsj
    · rw [W32_getD_ne h5] at hsi
      exact Option.noConfusion hsi

/-! ### The claims -/

/-- C1: for every well-formed map (at any capacity the machine can double),
insert(k,v) succeeds, a subsequent get(k) returns Some(v); a second
insert(k,v') then returns Some(v), the previous value, and get(k) returns
Some(v'). -/
theorem C1_insert_then_get {hf : K → Nat} {beq : K → K → Bool}
    (laws : KeyLaws hf beq) (t : Table K V) (hwf : WF hf beq t)
    (hcap : t.buckets.length ≤ 2 ^ 58) (k : K) (v v' : V) :
    ∃ t1 r1, insertM hf beq t k v = some (t1, r1) ∧ getM hf beq t1 k = some v ∧
      ∃ t2, insertM hf beq t1 k v' = some (t2, some v) ∧
        getM hf beq t2 k = some v' := by
  have hcap9 : t.buckets.length ≤ 2 ^ 59 := le_trans hcap (by norm_num)
  obtain ⟨t1, heq1, hwf1, hget1, _, hlen1⟩ := insertM_spec laws hwf hcap9 k v
  have hcap1 : t1.buckets.length ≤ 2 ^ 59 := by
    have h2 : (2 : Nat) ^ 59 = 2 * 2 ^ 58 := by norm_num
    have h3 : (32 : Nat) ≤ 2 ^ 58 := by norm_num
    omega
  obtain ⟨t2, heq2, hwf2, hget2, _, _⟩ := insertM_spec laws hwf1 hcap1 k v'
  rw [hget1] at heq2
  exact ⟨t1, getM hf beq t k, heq1, hget1, t2, heq2, hget2⟩

theorem C1_witness :
    (WF (id : Nat → Nat) Nat.beq (newT : Table Nat Nat) ∧
      (newT : Table Nat Nat).buckets.length ≤ 2 ^ 58) ∧
    ∃ t1 r1, insertM id Nat.beq (newT : Table Nat Nat) 0 1 = some (t1, r1) ∧
      getM id Nat.beq t1 0 = some 1 ∧
      ∃ t2, insertM id Nat.beq t1 0 2 = some (t2, some 1) ∧
        getM id Nat.beq t2 0 = some 2 :=
  ⟨⟨Or.inl ⟨rfl, rfl⟩, Nat.zero_le _⟩,
    C1_insert_then_get natKeyLaws newT (Or.inl ⟨rfl, rfl⟩) (Nat.zero_le _) 0 1 2⟩

/-- C2 (amended): "probe distances non-decreasing along a probe chain" is
false of reachable tables (see the counterexample); the invariant the code
maintains, and which insert and remove preserve, is the local Robin Hood
bound `localInv`: every full bucket displaced by d+1 follows a full bucket
displaced by at least d. -/
theorem C2_insert_remove_localInv {hf : K → Nat} {beq : K → K → Bool}
    (laws : KeyLaws hf beq) (t : Table K V) (hwf : WF hf beq t)
    (hcap : t.buckets.length ≤ 2 ^ 59) (k : K) (v : V) (q : K) :
    (∀ t1 r1, insertM hf beq t k v = some (t1, r1) → localInv t1.buckets) ∧
    ∀ t2 r2, removeM hf beq t q = (t2, r2) → localInv t2.buckets := by
  constructor
  · intro t1 r1 heq
    obtain ⟨t2, heq2, hwf2, _, _, _⟩ := insertM_spec laws hwf hcap k v
    rw [heq] at heq2
    injection heq2 with hp
    injection hp with h1 h2
    rw [h1]
    exact WF_localInv hwf2
  · intro t2 r2 heq
    cases hg : getM hf beq t q with
    | none =>
      rw [removeM_absent laws hwf hg] at heq
      injection heq with h1 h2
      rw [← h1]
      exact WF_localInv hwf
    | some v0 =>
      obtain ⟨t3, heq3, hwf3, _, _, _, _⟩ := removeM_found laws hwf hg
      rw [heq] at heq3
      injection heq3 with h1 h2
      rw [h1]
      exact WF_localInv hwf3

theorem C2_witness :
    (WF (id : Nat → Nat) Nat.beq (newT : Table Nat Nat) ∧
      (newT : Table Nat Nat).buckets.length ≤ 2 ^ 59) ∧
    (∀ t1 r1, insertM id Nat.beq (newT : Table Nat Nat) 0 1 = some (t1, r1) →
      localInv t1.buckets) ∧
    ∀ t2 r2, removeM id Nat.beq (newT : Table Nat Nat) 0 = (t2, r2) →
      localInv t2.buckets :=
  ⟨⟨Or.inl ⟨rfl, rfl⟩, Nat.zero_le _⟩,
    C2_insert_remove_localInv natKeyLaws newT (Or.inl ⟨rfl, rfl⟩)
      (Nat.zero_le _) 0 1 0⟩

/-- C2's counterexample: inserting keys 0, 32 and 2 into a fresh map under the
identity hash reaches a table whose probe chain 0,1,2 carries displacements
0,1,0 — they decrease strictly before the chain ends at an empty bucket, so
the claimed monotonicity fails of a reachable state. -/
theorem C2_counterexample :
    insertM id Nat.beq (newT : Table Nat Nat) 0 10 = some (exT1, none) ∧
    insertM id Nat.beq exT1 32 11 = some (exT2, none) ∧
    insertM id Nat.beq exT2 2 12 = some (exT3, none) ∧
    ¬ probeMono exT3.buckets := by
  refine ⟨?_, ?_, ?_, ?_⟩
  · show (reserveM (⟨[], 0⟩ : Table Nat Nat) 1).bind
      (fun t1 => insert_or_replace Nat.beq t1 (make_hash id 0) 0 10)
      = some (exT1, none)
    rw [reserve_new]
    rfl
  · rfl
  · rfl
  · intro hm
    have h1 := hm 1 (by decide) ⟨make_hash id 32, 32, 11⟩ ⟨make_hash id 2, 2, 12⟩
      rfl rfl
    have h2 : dibN exT3.buckets.length 1
        (Slot.hash (K := Nat) (V := Nat) ⟨make_hash id 32, 32, 11⟩) = 1 := rfl
    have h3 : dibN exT3.buckets.length ((1 + 1) % exT3.buckets.length)
        (Slot.hash (K := Nat) (V := Nat) ⟨make_hash id 2, 2, 12⟩) = 0 := rfl
    rw [h2, h3] at h1
    exact absurd h1 (by decide)

/-- C3: after insert(k,v), remove(k) returns Some(v), the length drops by
one, and get(k) then returns None; removing an absent key returns None and
leaves the table untouched. -/
theorem C3_insert_remove {hf : K → Nat} {beq : K → K → Bool}
    (laws : KeyLaws hf beq) (t : Table K V) (hwf : WF hf beq t)
    (hcap : t.buckets.length ≤ 2 ^ 59) (k : K) (v : V) :
    (∃ t1 r1, insertM hf beq t k v = some (t1, r1) ∧
      ∃ t2, removeM hf beq t1 k = (t2, some v) ∧ t2.size + 1 = t1.size ∧
        getM hf beq t2 k = none) ∧
    ∀ q, getM hf beq t q = none → removeM hf beq t q = (t, none) := by
  constructor
  · obtain ⟨t1, heq1, hwf1, hget1, _, _⟩ := insertM_spec laws hwf hcap k v
    obtain ⟨t2, heq2, _, hsz2, hget2, _, _⟩ := removeM_found laws hwf1 hget1
    exact ⟨t1, getM hf beq t k, heq1, t2, heq2, hsz2, hget2⟩
  · intro q hq
    exact removeM_absent laws hwf hq

theorem C3_witness :
    (WF (id : Nat → Nat) Nat.beq (newT : Table Nat Nat) ∧
      (newT : Table Nat Nat).buckets.length ≤ 2 ^ 59) ∧
    (∃ t1 r1, insertM id Nat.beq (newT : Table Nat Nat) 0 5 = some (t1, r1) ∧
      ∃ t2, removeM id Nat.beq t1 0 = (t2, some 5) ∧ t2.size + 1 = t1.size ∧
        getM id Nat.beq t2 0 = none) ∧
    ∀ q, getM id Nat.beq (newT : Table Nat Nat) q = none →
      removeM id Nat.beq (newT : Table Nat Nat) q = (newT, none) :=
  ⟨⟨Or.inl ⟨rfl, rfl⟩, Nat.zero_le _⟩,
    C3_insert_remove natKeyLaws newT (Or.inl ⟨rfl, rfl⟩) (Nat.zero_le _) 0 5⟩

/-- C4: growing a well-formed non-empty table by resize — the skip-the-first-
cluster scan followed by in-order `insert_hashed_ordered` reinsertion —
succeeds, keeps the size, carries exactly the old multiset of (hash, key,
value) triples into the new array, keeps the Robin Hood invariant, and leaves
the key-to-value mapping (the association view `assocOf`, which naive
per-element reinsertion would also produce) unchanged. -/
theorem C4_resize_preserves {hf : K → Nat} {beq : K → K → Bool}
    (laws : KeyLaws hf beq) (t : Table K V) (w : WFb hf beq t.buckets)
    (hsz : t.size = countFull t.buckets) (hpos : 0 < t.size)
    (hlt : countFull t.buckets < t.buckets.length) (n : Nat) (hn : IsPow2 n)
    (hsn : t.size ≤ n) (hcn : t.buckets.length ≤ n) (hokn : n * 8 < U64) :
    ∃ t2, resizeM t n = some t2 ∧ t2.size = t.size ∧ t2.buckets.length = n ∧
      localInv t2.buckets ∧ WFb hf beq t2.buckets ∧
      (slots t2.buckets).Perm (slots t.buckets) ∧
      ∀ x, assocOf beq t2.buckets x = assocOf beq t.buckets x := by
  obtain ⟨t2, heq, hlen, hsz2, w2, _, hperm⟩ :=
    resizeM_spec laws w hsz hpos hlt hn hsn hcn hokn
  refine ⟨t2, heq, hsz2, hlen, w2.local_inv, w2, hperm, fun x => ?_⟩
  show findVal beq (slots t2.buckets) x = findVal beq (slots t.buckets) x
  exact findVal_perm laws w2.slots_distinct hperm x

theorem C4_witness :
    (WFb (id : Nat → Nat) Nat.beq tW.buckets ∧ tW.size = countFull tW.buckets ∧
      0 < tW.size ∧ countFull tW.buckets < tW.buckets.length ∧ IsPow2 64 ∧
      tW.size ≤ 64 ∧ tW.buckets.length ≤ 64 ∧ 64 * 8 < U64) ∧
    ∃ t2, resizeM tW 64 = some t2 ∧ t2.size = tW.size ∧
      t2.buckets.length = 64 ∧ localInv t2.buckets ∧
      WFb (id : Nat → Nat) Nat.beq t2.buckets ∧
      (slots t2.buckets).Perm (slots tW.buckets) ∧
      ∀ x, assocOf Nat.beq t2.buckets x = assocOf Nat.beq tW.buckets x :=
  ⟨⟨WFb_W32, by decide, by decide, by decide, show IsPow2 64 from IsPow2_pow 6,
      by decide, by decide, by decide⟩,
    C4_resize_preserves natKeyLaws tW WFb_W32 (by decide) (by decide)
      (by decide) 64 (show IsPow2 64 from IsPow2_pow 6) (by decide) (by decide)
      (by decide)⟩

/-- C5 (amended): the resize policy computes with truncating integer
division: min_capacity(n) is ⌊n·11/10⌋ — not the claimed ⌈n·11/10⌉ — and
usable_capacity(cap) is ⌊cap·10/11⌋; the round-trip bound
min_capacity(usable_capacity(x)) ≤ x does hold for every x. -/
theorem C5_resize_policy :
    (∀ n : Nat, min_capacity n = n * 11 / 10) ∧
    (∀ cap : Nat, usable_capacity cap = cap * 10 / 11) ∧
    ∀ x : Nat, min_capacity (usable_capacity x) ≤ x := by
  refine ⟨fun n => rfl, fun cap => rfl, fun x => ?_⟩
  show x * 10 / 11 * 11 / 10 ≤ x
  omega

/-- C5's counterexample: at n = 1 the code's min_capacity gives
⌊11/10⌋ = 1 while the claimed ceiling ⌈11/10⌉ = (11 + 9) / 10 is 2. -/
theorem C5_counterexample : ¬ min_capacity 1 = (1 * 11 + 9) / 10 := by decide

/-- C6 (amended): with_capacity(0) is not equivalent to new(): it allocates
the fresh 32-bucket table, whose capacity() (usable_capacity of the raw 32)
is 29, while new() has raw capacity 0 and capacity() 0.  Both have len() 0. -/
theorem C6_with_capacity_zero_vs_new :
    (∃ t : Table K V, with_capacityM 0 = some t ∧
      t.len = (newT : Table K V).len ∧ t.capacity = 32 ∧ t.mapCapacity = 29) ∧
    (newT : Table K V).capacity = 0 ∧ (newT : Table K V).mapCapacity = 0 := by
  refine ⟨⟨⟨List.replicate 32 none, 0⟩, with_capacity_zero, ?_, ?_, ?_⟩,
    ?_, ?_⟩
  · exact rfl
  · show (List.replicate (32 : Nat) (none : Option (Slot K V))).length = 32
    rw [List.length_replicate]
  · show usable_capacity
      (List.replicate (32 : Nat) (none : Option (Slot K V))).length = 29
    rw [List.length_replicate]
    decide
  · exact rfl
  · show usable_capacity (newT : Table K V).capacity = 0
    rw [show (newT : Table K V).capacity = 0 from rfl]
    decide

/-- C6's counterexample: the two constructions already disagree on the raw
capacity, 32 against 0. -/
theorem C6_counterexample :
    ∃ t : Table Nat Nat, with_capacityM 0 = some t ∧
      ¬ t.capacity = (newT : Table Nat Nat).capacity := by
  refine ⟨⟨List.replicate 32 none, 0⟩, with_capacity_zero, ?_⟩
  decide

/-- C7: with room reserved for one more element (size strictly below
usable_capacity of the raw capacity), the insertion probe succeeds: neither
the `probe.index() != ib + size + 1` assertion of insert_or_replace_with nor
the `probe.index() != idx_end` assertion of robin_hood fires — both are the
`none` results of the fueled loops, and the result is `some`. -/
theorem C7_insert_in_bounds {hf : K → Nat} {beq : K → K → Bool}
    (laws : KeyLaws hf beq) (t : Table K V) (w : WFb hf beq t.buckets)
    (hsize : t.size = countFull t.buckets)
    (hroom : t.size < usable_capacity t.capacity) (k : K) (v : V) :
    (insert_or_replace beq t (make_hash hf k) k v).isSome = true := by
  have hc : 0 < t.buckets.length := w.cap_pos
  have hlt : countFull t.buckets < t.buckets.length := by
    have h1 : usable_capacity t.capacity < t.capacity := usable_capacity_lt hc
    have h2 : t.capacity = t.buckets.length := rfl
    omega
  by_cases hex : ∃ q, q < t.buckets.length ∧ ∃ sq : Slot K V,
      t.buckets.getD q none = some sq ∧ beq k sq.key = true
  · obtain ⟨q, hq, sq, hsq, hb⟩ := hex
    rw [(insert_or_replace_found laws w hsize v rfl hq hsq hb).1]
    rfl
  · have hns : notStored beq t.buckets k := by
      intro j hj s hs
      cases hcb : beq k s.key with
      | false => rfl
      | true => exact absurd ⟨j, hj, s, hs, hcb⟩ hex
    obtain ⟨bs2, heq, _, _, _, _⟩ :=
      insert_or_replace_absent laws w hsize hlt v rfl hns
    rw [heq]
    rfl

theorem C7_witness :
    (WFb (id : Nat → Nat) Nat.beq tW.buckets ∧ tW.size = countFull tW.buckets ∧
      tW.size < usable_capacity tW.capacity) ∧
    (insert_or_replace Nat.beq tW (make_hash id 3) 3 7).isSome = true :=
  ⟨⟨WFb_W32, by decide, by decide⟩,
    C7_insert_in_bounds natKeyLaws tW WFb_W32 (by decide) (by decide) 3 7⟩

/-- C8: make_hash is the hasher's 64-bit digest OR-ed with
0x8000_0000_0000_0000, so its top bit is set, it is never the empty sentinel
0, and it fits in 64 bits. -/
theorem C8_make_hash_safe (hf : K → Nat) (k : K) :
    make_hash hf k = 0x8000000000000000 ||| (hf k % U64) ∧
    (make_hash hf k).testBit 63 = true ∧ make_hash hf k ≠ 0 ∧
    make_hash hf k < U64 :=
  ⟨rfl, make_hash_testBit hf k, make_hash_ne_zero hf k, make_hash_lt hf k⟩

/-- C9: on the freshly constructed map the zero-capacity guard of
search_hashed and the size-zero guard of remove short-circuit: get returns
None, contains_key false, remove (t, None), with no probe ever constructed
(search_hashed itself is None). -/
theorem C9_empty_table_guards (hf : K → Nat) (beq : K → K → Bool) (q : K) :
    (newT : Table K V).capacity = 0 ∧
    search_hashed (newT : Table K V) (make_hash hf q) (fun x => beq q x)
      = none ∧
    getM hf beq (newT : Table K V) q = none ∧
    containsKeyM hf beq (newT : Table K V) q = false ∧
    removeM hf beq (newT : Table K V) q = (newT, none) :=
  ⟨rfl, rfl, rfl, rfl, rfl⟩

/-- C10: when the probed key is already stored, insert_or_replace only
overwrites the value in place: the stored bucket keeps its index q, its hash
tag and its key object (the caller's equal key is dropped), the previous
value is handed back, and the tracked size is unchanged. -/
theorem C10_replace_keeps_key {hf : K → Nat} {beq : K → K → Bool}
    (laws : KeyLaws hf beq) (t : Table K V) (w : WFb hf beq t.buckets)
    (hsize : t.size = countFull t.buckets) (q : Nat)
    (hq : q < t.buckets.length) (sq : Slot K V)
    (hsq : t.buckets.getD q none = some sq) (k : K)
    (hbeq : beq k sq.key = true) (v : V) :
    insert_or_replace beq t (make_hash hf k) k v
      = some (⟨t.buckets.set q (some ⟨sq.hash, sq.key, v⟩), t.size⟩,
          some sq.val) :=
  (insert_or_replace_found laws w hsize v rfl hq hsq hbeq).1

theorem C10_witness :
    (tW.size = countFull tW.buckets ∧ (5 : Nat) < tW.buckets.length ∧
      tW.buckets.getD 5 none = some ⟨make_hash id 5, 5, 55⟩ ∧
      Nat.beq 5 (Slot.key (K := Nat) (V := Nat) ⟨make_hash id 5, 5, 55⟩)
        = true) ∧
    insert_or_replace Nat.beq tW (make_hash id 5) 5 99
      = some (⟨tW.buckets.set 5 (some ⟨make_hash id 5, 5, 99⟩), tW.size⟩,
          some 55) :=
  ⟨⟨by decide, by decide, rfl, by decide⟩,
    C10_replace_keeps_key natKeyLaws tW WFb_W32 (by decide) 5 (by decide)
      ⟨make_hash id 5, 5, 55⟩ rfl 5 (by decide) 99⟩

end RobinHoodMap
